import Mathlib

/-! # Receipt store of the EVM auxiliary ledger

A shallow embedding of `store/evm_aux/receipts.go` (`GetReceipt`, `CommitReceipts`,
`getDBParams`, `setDBParams`, `removeOldEntries`) and theorems about the bounded,
singly linked receipt list that these functions keep inside a key-value store, followed
by an embedding of the block queries of `eth/query/block.go` (`GetBlockByNumber`,
`GetBlockByHash`) and theorems about the descriptors they build and the backward search
by hash.

Conventions of the embedding:
* a Go byte slice is a `List Nat` (a `nil` slice and an empty slice are both `[]`);
* a Go `error` is an `Option Err`, `none` being `nil`;
* `uint64` counters are natural numbers with explicit `% 2 ^ 64` where Go wraps;
* a method that mutates the store takes the store and returns the new one.
-/

namespace EvmAux

/-! ## The embedding of the source -/

/-- A Go byte slice. -/
abbrev Bytes := List Nat

/-- Go error values produced by the receipt store. `panic` stands for a run-time panic
(an index out of range or a nil dereference), which unwinds through the deferred rollback. -/
inductive Err where
  | text (msg : String)
  | wrap (cause : Err) (msg : String)
  | unableToDelete (number deleted : Nat)
  | protoDecode
  | protoEncode
  | panic
  deriving DecidableEq, Repr

/-- The error `ErrTxReceiptNotFound`. -/
def ErrTxReceiptNotFound : Err := Err.text "Tx receipt not found"

/-- The function `errors.Wrap` of `github.com/pkg/errors`: wrapping a nil error gives nil. -/
def errorsWrap (err : Option Err) (msg : String) : Option Err :=
  match err with
  | none => none
  | some e => some (Err.wrap e msg)

/-- The constant `StatusTxSuccess`. -/
def StatusTxSuccess : Int := 1

/-- The constant `StatusTxFail`. -/
def StatusTxFail : Int := 0

/-- A log event (`types.EventData`): only the data this store handles is kept. -/
structure EventData where
  topics : List Bytes
  encodedBody : Bytes
  deriving DecidableEq, Repr

/-- A receipt (`types.EvmTxReceipt`): transaction hash, status and emitted logs. -/
structure EvmTxReceipt where
  txHash : Bytes
  status : Int
  logs : List EventData
  deriving DecidableEq, Repr

/-- A node of the persisted list (`types.EvmTxReceiptListItem`): a receipt pointer, possibly
nil, and the hash of the next node, empty for the tail. -/
structure EvmTxReceiptListItem where
  receipt : Option EvmTxReceipt
  nextTxHash : Bytes
  deriving DecidableEq, Repr

/-- The protobuf codec of list items (`proto.Marshal`, `proto.Unmarshal`). The library is
external, so the codec is a parameter. Encoding may fail (`none`), as the source provides
for; the laws are those of a proto3 message: decoding inverts a successful encoding, the
empty buffer decodes to the zero message, and a message with a receipt set has a non-empty
encoding. -/
structure Codec where
  marshal : EvmTxReceiptListItem → Option Bytes
  unmarshal : Bytes → Option EvmTxReceiptListItem
  unmarshal_marshal : ∀ it b, marshal it = some b → unmarshal b = some it
  unmarshal_nil : unmarshal [] = some ⟨none, []⟩
  marshal_ne_nil : ∀ r nx b, marshal ⟨some r, nx⟩ = some b → b ≠ []

/-- Modelled from the spec: the key-value store contract of section 6 (`Get`, `Set`, `Has`,
`Delete`); the store type itself is declared outside the given sources. A key is present
with a possibly empty value, or absent. -/
abbrev KV := Bytes → Option Bytes

/-- The empty key-value store. -/
def KV.empty : KV := fun _ => none

/-- The operation `Get`: the value under the key, empty when the key is absent. -/
def KV.get (kv : KV) (key : Bytes) : Bytes := (kv key).getD []

/-- The operation `Has`: whether the key is present. -/
def KV.has (kv : KV) (key : Bytes) : Bool := (kv key).isSome

/-- The operation `Set`: store the value under the key. -/
def KV.set (kv : KV) (key value : Bytes) : KV := fun k => if k = key then some value else kv k

/-- The operation `Delete`: remove the key. -/
def KV.delete (kv : KV) (key : Bytes) : KV := fun k => if k = key then none else kv k

/-- The parts of the package that the given sources use but do not define: the item codec,
the three metadata keys, the per-height index keys, the encoder of the per-height hash list
(used by `SetTxHashList`, which may fail) and `bloom.GenBloomFilter`. Metadata and index
keys live in disjoint key spaces, and the two indexes of a height use different keys. -/
structure Env where
  codec : Codec
  currentDbSizeKey : Bytes
  headKey : Bytes
  tailKey : Bytes
  txHashKey : Nat → Bytes
  bloomKey : Nat → Bytes
  marshalTxHashList : List Bytes → Option Bytes
  genBloomFilter : List EventData → Bytes
  head_ne_size : headKey ≠ currentDbSizeKey
  tail_ne_size : tailKey ≠ currentDbSizeKey
  head_ne_tail : headKey ≠ tailKey
  txHashKey_ne_meta : ∀ h, txHashKey h ≠ currentDbSizeKey ∧ txHashKey h ≠ headKey ∧
    txHashKey h ≠ tailKey
  bloomKey_ne_meta : ∀ h, bloomKey h ≠ currentDbSizeKey ∧ bloomKey h ≠ headKey ∧
    bloomKey h ≠ tailKey
  txHashKey_ne_bloomKey : ∀ h, txHashKey h ≠ bloomKey h

/-- Modelled from the spec: the store object `EvmAuxStore`, declared outside the given
sources. `db` is the committed key-value store, `store` the view of the open transaction
(reads see its buffered writes), `maxReceipts` the configured bound. -/
structure EvmAuxStore where
  db : KV
  store : KV
  maxReceipts : Nat

/-- Modelled from the spec: `Rollback` discards the buffered writes of the transaction. -/
def EvmAuxStore.Rollback (s : EvmAuxStore) : EvmAuxStore := { s with store := s.db }

/-- Modelled from the spec: `Commit` makes the buffered writes of the transaction durable. -/
def EvmAuxStore.Commit (s : EvmAuxStore) : EvmAuxStore := { s with db := s.store }

/-- The store with nothing committed and no open writes. -/
def EvmAuxStore.init (maxReceipts : Nat) : EvmAuxStore := ⟨KV.empty, KV.empty, maxReceipts⟩

/-- The first `k` bytes of `n` in little-endian order. -/
def leBytes : Nat → Nat → Bytes
  | 0, _ => []
  | k + 1, n => n % 256 :: leBytes k (n / 256)

/-- The value of a little-endian byte string. -/
def leValue : Bytes → Nat
  | [] => 0
  | b :: bs => b % 256 + 256 * leValue bs

/-- The function `binary.LittleEndian.PutUint64` on a fresh 8-byte slice. -/
def putUint64 (n : Nat) : Bytes := leBytes 8 n

/-- The function `binary.LittleEndian.Uint64`, for a slice of at least 8 bytes. -/
def uint64LE (b : Bytes) : Nat := leValue (b.take 8)

/-- The method `GetReceipt`: point lookup in the committed store. -/
def GetReceipt (env : Env) (s : EvmAuxStore) (txHash : Bytes) : Except Err EvmTxReceipt :=
  let txReceiptProto := s.db.get txHash
  if txReceiptProto.length = 0 then Except.error ErrTxReceiptNotFound
  else
    match env.codec.unmarshal txReceiptProto with
    | none => Except.error Err.protoDecode
    | some txReceipt =>
      match txReceipt.receipt with
      | none => Except.error Err.panic
      | some r => Except.ok r

/-- The method `getDBParams`: size, head hash, tail hash, error. Reading the size from fewer than 8
bytes panics in Go. The named result `err` is never assigned, so the test `err != nil`
after reading the tail is never taken. -/
def getDBParams (env : Env) (store : KV) : Nat × Bytes × Bytes × Option Err :=
  let notEmpty := store.has env.currentDbSizeKey
  if !notEmpty then (0, [], [], none)
  else
    let sizeB := store.get env.currentDbSizeKey
    if sizeB.length < 8 then (0, [], [], some Err.panic)
    else
      let size := uint64LE sizeB
      if size = 0 then (0, [], [], none)
      else
        let head := store.get env.headKey
        if head.length = 0 then
          (0, [], [], some (Err.text "no head for non zero size receipt db"))
        else
          let tail := store.get env.tailKey
          if tail.length = 0 then
            (0, [], [], some (Err.text "no tail for non zero size receipt db"))
          else (size, head, tail, none)

/-- The method `setDBParams`: writes head, tail and the 8-byte little-endian size. -/
def setDBParams (env : Env) (store : KV) (size : Nat) (head tail : Bytes) : KV :=
  ((store.set env.headKey head).set env.tailKey tail).set env.currentDbSizeKey (putUint64 size)

/-- The loop of `removeOldEntries`; the first argument is the number of iterations left
(`number - i`). Returns the store, the head, `itemsDeleted` and the decode error, if any. -/
def removeLoop (c : Codec) : Nat → KV → Bytes → Nat → KV × Bytes × Nat × Option Err
  | 0, store, head, itemsDeleted => (store, head, itemsDeleted, none)
  | n + 1, store, head, itemsDeleted =>
    if head.length = 0 then (store, head, itemsDeleted, none)
    else
      let headItem := store.get head
      match c.unmarshal headItem with
      | none => (store, head, itemsDeleted, some (Err.wrap Err.protoDecode "unmarshal head"))
      | some txHeadReceiptItem =>
        removeLoop c n (store.delete head) txHeadReceiptItem.nextTxHash (itemsDeleted + 1)

/-- The method `removeOldEntries`: store after the deletions, new head, number deleted, error. -/
def removeOldEntries (c : Codec) (store : KV) (head : Bytes) (number : Nat) :
    KV × Bytes × Nat × Option Err :=
  match removeLoop c number store head 0 with
  | (store1, head1, itemsDeleted, some e) => (store1, head1, itemsDeleted, some e)
  | (store1, head1, itemsDeleted, none) =>
    if itemsDeleted < number then
      (store1, head1, itemsDeleted, some (Err.unableToDelete number itemsDeleted))
    else (store1, head1, itemsDeleted, none)

/-- The variables of `CommitReceipts` that its loop updates. -/
structure LoopState where
  store : KV
  size : Nat
  headHash : Bytes
  tailHash : Bytes
  tailReceiptItem : EvmTxReceiptListItem
  txHashArray : List Bytes
  events : List EventData

/-- One iteration of the loop over `receipts` in `CommitReceipts`. -/
def loopStep (c : Codec) (ls : LoopState) (txReceipt : Option EvmTxReceipt) : LoopState :=
  match txReceipt with
  | none => ls
  | some r =>
    if r.txHash.length = 0 then ls
    else
      let linked : Option LoopState :=
        if ls.headHash.length = 0 then some { ls with headHash := r.txHash }
        else
          let item : EvmTxReceiptListItem := { ls.tailReceiptItem with nextTxHash := r.txHash }
          match c.marshal item with
          | none => none
          | some protoTail =>
            let updating := ls.store.has ls.tailHash
            some { ls with
              tailReceiptItem := item
              store := ls.store.set ls.tailHash protoTail
              size := if updating then ls.size else (ls.size + 1) % 2 ^ 64 }
      match linked with
      | none =>
        { ls with tailReceiptItem := { ls.tailReceiptItem with nextTxHash := r.txHash } }
      | some ls1 =>
        { ls1 with
          tailHash := r.txHash
          tailReceiptItem := ⟨some r, []⟩
          txHashArray :=
            if r.status = StatusTxSuccess then ls1.txHashArray ++ [r.txHash]
            else ls1.txHashArray
          events := ls1.events ++ r.logs }

/-- The write of the final tail node after the loop of `CommitReceipts`. -/
def flushTail (c : Codec) (ls : LoopState) : LoopState :=
  if ls.tailHash.length > 0 then
    match c.marshal ls.tailReceiptItem with
    | none => ls
    | some protoTail =>
      let updating := ls.store.has ls.tailHash
      { ls with
        store := ls.store.set ls.tailHash protoTail
        size := if updating then ls.size else (ls.size + 1) % 2 ^ 64 }
  else ls

/-- The loading of the current tail node at the start of `CommitReceipts`. In the branch
"cannot find tail" the wrapped error is the nil error returned by `getDBParams`. -/
def loadTail (c : Codec) (store : KV) (headHash tailHash : Bytes) :
    Except (Option Err) EvmTxReceiptListItem :=
  if headHash.length > 0 then
    let tailItemProto := store.get tailHash
    if tailItemProto.length = 0 then Except.error (errorsWrap none "cannot find tail")
    else
      match c.unmarshal tailItemProto with
      | none => Except.error (errorsWrap (some Err.protoDecode) "unmarshalling tail")
      | some it => Except.ok it
  else Except.ok ⟨none, []⟩

/-- The variables of `CommitReceipts` right after the final tail node is written:
lines 43 to 105 without the early returns. -/
def appendPhase (c : Codec) (store : KV) (size : Nat) (headHash tailHash : Bytes)
    (tailReceiptItem : EvmTxReceiptListItem) (receipts : List (Option EvmTxReceipt)) :
    LoopState :=
  flushTail c (receipts.foldl (loopStep c) ⟨store, size, headHash, tailHash, tailReceiptItem, [], []⟩)

/-- The eviction step of `CommitReceipts`: store, size and head after it, or the error
returned. In the branch "invalid count" the wrapped error is the nil error of
`removeOldEntries`. -/
def evict (c : Codec) (maxReceipts : Nat) (ls : LoopState) :
    Except (Option Err) (KV × Nat × Bytes) :=
  if maxReceipts < ls.size then
    match removeOldEntries c ls.store ls.headHash (ls.size - maxReceipts) with
    | (_, _, _, some e) => Except.error (errorsWrap (some e) "removing old receipts")
    | (store1, head1, numDeleted, none) =>
      if ls.size < numDeleted then
        Except.error (errorsWrap none "invalid count of deleted receipts")
      else Except.ok (store1, ls.size - numDeleted, head1)
  else Except.ok (ls.store, ls.size, ls.headHash)

/-- Modelled from the spec: `SetTxHashList`, declared outside the given sources, persists
the hash list of a height under that height's key and fails when the list cannot be
encoded. -/
def SetTxHashList (env : Env) (store : KV) (txHashArray : List Bytes) (height : Nat) :
    Except Err KV :=
  match env.marshalTxHashList txHashArray with
  | none => Except.error (Err.wrap Err.protoEncode "marshal tx hash list")
  | some b => Except.ok (store.set (env.txHashKey height) b)

/-- Modelled from the spec: `SetBloomFilter`, declared outside the given sources, persists
the bloom filter of a height under that height's key. -/
def SetBloomFilter (env : Env) (store : KV) (filter : Bytes) (height : Nat) : KV :=
  store.set (env.bloomKey height) filter

/-- The method `CommitReceipts`: the returned error and the store object after the call. Every return
after the first one runs the deferred `Rollback`. -/
def CommitReceipts (env : Env) (s : EvmAuxStore) (receipts : List (Option EvmTxReceipt))
    (height : Nat) : Option Err × EvmAuxStore :=
  if receipts.length = 0 ∨ s.maxReceipts = 0 then (none, s)
  else
    match getDBParams env s.store with
    | (_, _, _, some Err.panic) => (some Err.panic, s.Rollback)
    | (_, _, _, some e) => (errorsWrap (some e) "getting db params.", s.Rollback)
    | (size, headHash, tailHash, none) =>
      match loadTail env.codec s.store headHash tailHash with
      | Except.error e => (e, s.Rollback)
      | Except.ok tailReceiptItem =>
        let ls := appendPhase env.codec s.store size headHash tailHash tailReceiptItem receipts
        match evict env.codec s.maxReceipts ls with
        | Except.error e => (e, s.Rollback)
        | Except.ok (store1, size1, headHash1) =>
          let store2 := setDBParams env store1 size1 headHash1 ls.tailHash
          let filter := env.genBloomFilter ls.events
          match SetTxHashList env store2 ls.txHashArray height with
          | Except.error e => (errorsWrap (some e) "append tx list", s.Rollback)
          | Except.ok store3 =>
            let store4 := SetBloomFilter env store3 filter height
            (none, (EvmAuxStore.Commit { s with store := store4 }).Rollback)

/-! ## The embedding of the block query layer (`eth/query/block.go`) -/

/-- The variable `searchBlockSize`. -/
def searchBlockSize : Nat := 100

/-- The Go conversion `int64(n)` of a `uint64` value (two's complement). -/
def toInt64 (n : Nat) : Int :=
  if n % 2 ^ 64 < 2 ^ 63 then ((n % 2 ^ 64 : Nat) : Int) else ((n % 2 ^ 64 : Nat) : Int) - 2 ^ 64

/-- The Go conversion `uint64(i)` of an `int64` value. -/
def toUint64 (i : Int) : Nat := (i % 2 ^ 64).toNat

/-- The part of `loomchain.ReadOnlyState` that the queries read: `state.Block().Height`. -/
structure ReadOnlyState where
  blockHeight : Int

/-- The part of a `ctypes.ResultBlock` that the queries read: the block hash, the hash of the
previous block and the block time in seconds. -/
structure ResultBlock where
  hash : Bytes
  parentHash : Bytes
  timeUnix : Int

/-- The block descriptor `types.EthBlockInfo`, with the fields that the queries set. -/
structure EthBlockInfo where
  hash : Bytes
  parentHash : Bytes
  timestamp : Int
  number : Int
  logsBloom : Bytes
  transactions : List Bytes
  deriving DecidableEq, Repr

/-- The interface `receipts.ReadReceiptHandler`. -/
structure ReadReceiptHandler where
  GetTxHash : ReadOnlyState → Nat → Except Err Bytes
  GetBloomFilter : ReadOnlyState → Nat → Except Err Bytes
  GetReceipt : ReadOnlyState → Bytes → Except Err EvmTxReceipt

/-- The external functions of the block queries: `core.Block` and `core.BlockchainInfo` of
the consensus engine (of the latter only the block hashes of `info.BlockMetas`, in the
order returned) and `proto.Marshal` on receipts and on block descriptors. -/
structure QueryEnv where
  Block : Int → Except Err ResultBlock
  BlockchainInfo : Int → Int → Except Err (List Bytes)
  marshalReceipt : EvmTxReceipt → Except Err Bytes
  marshalBlockInfo : EthBlockInfo → Except Err Bytes

/-- The descriptor that `GetBlockByNumber` builds before serializing it (lines 22 to 66). -/
def blockInfo (q : QueryEnv) (state : ReadOnlyState) (height : Nat) (full : Bool)
    (readReceipts : ReadReceiptHandler) : Except Err EthBlockInfo :=
  match q.Block (toInt64 height) with
  | Except.error err => Except.error err
  | Except.ok blockresult =>
    let number : Int := if toUint64 state.blockHeight = height then 0 else toInt64 height
    match readReceipts.GetTxHash state height with
    | Except.error err => Except.error (Err.wrap err "getting tx hash")
    | Except.ok txHash =>
      if txHash.length > 0 then
        match readReceipts.GetBloomFilter state height with
        | Except.error err => Except.error (Err.wrap err "reading bloom filter")
        | Except.ok bloomFilter =>
          if full then
            match readReceipts.GetReceipt state txHash with
            | Except.error err => Except.error (Err.wrap err "reading receipt")
            | Except.ok txReceipt =>
              match q.marshalReceipt txReceipt with
              | Except.error err => Except.error (Err.wrap err "marshall receipt")
              | Except.ok txReceiptProto =>
                Except.ok ⟨blockresult.hash, blockresult.parentHash, blockresult.timeUnix, number,
                  bloomFilter, [txReceiptProto]⟩
          else
            Except.ok ⟨blockresult.hash, blockresult.parentHash, blockresult.timeUnix, number,
              bloomFilter, [txHash]⟩
      else
        Except.ok ⟨blockresult.hash, blockresult.parentHash, blockresult.timeUnix, number,
          [], []⟩

/-- The function `GetBlockByNumber`: the serialized descriptor, or the error. -/
def GetBlockByNumber (q : QueryEnv) (state : ReadOnlyState) (height : Nat) (full : Bool)
    (readReceipts : ReadReceiptHandler) : Except Err Bytes :=
  match blockInfo q state height full readReceipts with
  | Except.error err => Except.error err
  | Except.ok blockinfo => q.marshalBlockInfo blockinfo

/-- The lower bound of the search window below `start` (lines 74 to 78 and 101 to 105). -/
def windowEnd (start : Nat) : Nat :=
  if start > searchBlockSize then start - searchBlockSize else 1

/-- The inner loop of `GetBlockByHash`: the indexes `i - 1, ..., 0` of the returned block
hashes are compared with `hash`, and the first index that matches is returned. -/
def scanMetas (hash : Bytes) (metas : List Bytes) : Nat → Option Nat
  | 0 => none
  | i + 1 => if hash = metas.getD i [] then some i else scanMetas hash metas i

/-- How the search of `GetBlockByHash` ends: a match at a height, no match, or an error of
the consensus engine. -/
inductive SearchOutcome where
  | found (height : Nat)
  | notFound
  | engineError (err : Err)
  deriving DecidableEq, Repr

/-- The outer loop of `GetBlockByHash` with the variables `start` and `end`. The first
argument bounds the number of iterations (`none` when it runs out); the last one collects
the ranges `(min, max)` requested from `core.BlockchainInfo`, in order. -/
def searchLoop (q : QueryEnv) (hash : Bytes) :
    Nat → Nat → Nat → List (Nat × Nat) → Option (SearchOutcome × List (Nat × Nat))
  | 0, start, _, requests =>
    if start > 0 then none else some (SearchOutcome.notFound, requests)
  | fuel + 1, start, endH, requests =>
    if start > 0 then
      match q.BlockchainInfo (toInt64 endH) (toInt64 start) with
      | Except.error err => some (SearchOutcome.engineError err, requests ++ [(endH, start)])
      | Except.ok metas =>
        match scanMetas hash metas metas.length with
        | some i => some (SearchOutcome.found ((endH + i) % 2 ^ 64), requests ++ [(endH, start)])
        | none =>
          if endH = 1 then some (SearchOutcome.notFound, requests ++ [(endH, start)])
          else searchLoop q hash fuel endH (windowEnd endH) (requests ++ [(endH, start)])
    else some (SearchOutcome.notFound, requests)

/-- The function `GetBlockByHash`: its result together with the ranges it requested from
the consensus engine, or `none` if the loop did not end within `start` iterations (it
always does, see `GetBlockByHash_terminates`). -/
def GetBlockByHash (q : QueryEnv) (state : ReadOnlyState) (hash : Bytes) (full : Bool)
    (readReceipts : ReadReceiptHandler) : Option (Except Err Bytes × List (Nat × Nat)) :=
  let start := toUint64 state.blockHeight
  match searchLoop q hash start start (windowEnd start) [] with
  | none => none
  | some (SearchOutcome.found height, requests) =>
    some (GetBlockByNumber q state height full readReceipts, requests)
  | some (SearchOutcome.notFound, requests) =>
    some (Except.error (Err.text "can't find block to match hash"), requests)
  | some (SearchOutcome.engineError err, requests) => some (Except.error err, requests)

/-! ## The embedding of the coin contract (`builtin/plugins/coin/coin.go`) -/

/-- An address (`loom.Address`): chain identifier and local address. -/
structure Address where
  chainID : Bytes
  localAddr : Bytes
  deriving DecidableEq, Repr

/-- An account (`cointypes.Account`): owner and balance. Balances are unsigned big integers,
so they are natural numbers without a bound. -/
structure Account where
  owner : Address
  balance : Nat
  deriving DecidableEq, Repr

/-- What the contract state holds under an account key: bytes that decode to an account, or
bytes on which `proto.Unmarshal` fails with the given error. -/
inductive Stored where
  | corrupt (err : Err)
  | account (acct : Account)
  deriving DecidableEq, Repr

/-- The contract state as seen through `ctx.Get` and `ctx.Set` of the external plugin
framework, restricted to account keys. `accountKey` is taken to be injective, so the state
is indexed by the address itself; `none` is a key without data, for which `ctx.Get` returns
`contract.ErrNotFound` and leaves the target untouched. -/
abbrev CoinState := Address → Option Stored

/-- The function `loadAccount`: a zero-balance account of the owner, overwritten by the
stored account when there is one; a storage error other than not-found is returned. -/
def loadAccount (ctx : CoinState) (owner : Address) : Except Err Account :=
  let acct : Account := ⟨owner, 0⟩
  match ctx owner with
  | none => Except.ok acct
  | some (Stored.corrupt err) => Except.error err
  | some (Stored.account stored) => Except.ok stored

/-- The function `saveAccount`: the account is written under the key of its owner field. -/
def saveAccount (ctx : CoinState) (acct : Account) : CoinState :=
  fun key => if key = acct.owner then some (Stored.account acct) else ctx key

/-- The method `Coin.Transfer`, for the sender `ctx.Message().Sender`, the recipient
`req.To` and the amount `req.Amount`: the returned error and the contract state after the
call. The two accounts are loaded as two separate objects before either is saved, and the
results of `saveAccount` are not looked at. -/
def Coin.Transfer (ctx : CoinState) (sender toAddr : Address) (amount : Nat) :
    Option Err × CoinState :=
  match loadAccount ctx sender with
  | Except.error err => (some err, ctx)
  | Except.ok fromAccount =>
    match loadAccount ctx toAddr with
    | Except.error err => (some err, ctx)
    | Except.ok toAccount =>
      let fromBalance := fromAccount.balance
      let toBalance := toAccount.balance
      if fromBalance < amount then (some (Err.text "sender balance is too low"), ctx)
      else
        let fromAccount1 : Account := { fromAccount with balance := fromBalance - amount }
        let toAccount1 : Account := { toAccount with balance := toBalance + amount }
        let ctx1 := saveAccount ctx fromAccount1
        let ctx2 := saveAccount ctx1 toAccount1
        (none, ctx2)

/-! ## Notions used to state the properties -/

/-- The hash stored as successor in the node under `h`, when there is a decodable node. -/
def nodeNext (c : Codec) (store : KV) (h : Bytes) : Option Bytes :=
  match store h with
  | none => none
  | some b =>
    match c.unmarshal b with
    | none => none
    | some it => some it.nextTxHash

/-- The keys form a chain in the store: every key is non-empty and holds a decodable node
whose successor hash is the next key of the list, and the last node has no successor. -/
def isChain (c : Codec) (store : KV) : List Bytes → Bool
  | [] => true
  | h :: hs => decide (h ≠ []) && decide (nodeNext c store h = some (hs.headD [])) &&
      isChain c store hs

/-- Walk of the list from a hash along the successor hashes, for at most the given number
of nodes: the keys and decoded nodes visited. The walk stops at the empty hash, at a
missing key and at an undecodable node. -/
def walk (c : Codec) (store : KV) : Nat → Bytes → List (Bytes × EvmTxReceiptListItem)
  | 0, _ => []
  | fuel + 1, h =>
    if h.length = 0 then []
    else
      match store h with
      | none => []
      | some b =>
        match c.unmarshal b with
        | none => []
        | some it => (h, it) :: walk c store fuel it.nextTxHash

/-- The nodes of a list of receipts linked in order: each receipt keyed by its hash and
pointing to the hash of the next one, the last one pointing nowhere. -/
def linkedNodes : List EvmTxReceipt → List (Bytes × EvmTxReceiptListItem)
  | [] => []
  | r :: rs => (r.txHash, ⟨some r, (rs.map EvmTxReceipt.txHash).headD []⟩) :: linkedNodes rs

/-- The receipts of a batch that the loop of `CommitReceipts` processes: the non-nil ones
with a non-empty hash, in input order. -/
def validReceipts : List (Option EvmTxReceipt) → List EvmTxReceipt
  | [] => []
  | none :: rest => validReceipts rest
  | some r :: rest => if r.txHash.length = 0 then validReceipts rest else r :: validReceipts rest

/-- The hashes of the receipts with status success, in order. -/
def successHashes : List EvmTxReceipt → List Bytes
  | [] => []
  | r :: rs => if r.status = StatusTxSuccess then r.txHash :: successHashes rs else successHashes rs

/-- The logs of all receipts, concatenated in order. -/
def allLogs : List EvmTxReceipt → List EventData
  | [] => []
  | r :: rs => r.logs ++ allLogs rs

/-- The encoding of an item by a codec, when encoding it succeeds (empty otherwise). -/
def Codec.enc (c : Codec) (it : EvmTxReceiptListItem) : Bytes := (c.marshal it).getD []

/-- Encoding succeeds on the list items that carry the receipt pointer `rc`, whatever the
next hash: `proto.Marshal` returns no error on them. -/
def Codec.Encodes (c : Codec) (rc : Option EvmTxReceipt) : Prop :=
  ∀ nx, ∃ b, c.marshal ⟨rc, nx⟩ = some b

/-- The encodings that a call of `CommitReceipts` with this batch may perform on a store
with the metadata `head`, `tail` succeed: those of the items of the receipts of the batch
that have a non-empty hash and, when the list is not empty, those of the item of the stored
tail node. -/
def EncodesCall (c : Codec) (store : KV) (head tail : Bytes)
    (receipts : List (Option EvmTxReceipt)) : Prop :=
  (∀ r ∈ validReceipts receipts, c.Encodes (some r)) ∧
    (head ≠ [] → ∀ item, c.unmarshal (store.get tail) = some item → c.Encodes item.receipt)

/-- One node write of `CommitReceipts`: `Set` of the encoded node, and the size count
incremented when the key was absent. -/
def writeNode (c : Codec) (p : KV × Nat) (node : Bytes × EvmTxReceiptListItem) : KV × Nat :=
  (p.1.set node.1 (c.enc node.2), if p.1.has node.1 then p.2 else (p.2 + 1) % 2 ^ 64)

/-- The nodes of a list of receipts linked in order, the last one pointing to `fin`. -/
def linkedTo (fin : Bytes) : List EvmTxReceipt → List (Bytes × EvmTxReceiptListItem)
  | [] => []
  | r :: rs => (r.txHash, ⟨some r, (rs.map EvmTxReceipt.txHash).headD fin⟩) :: linkedTo fin rs

/-- The node writes that `CommitReceipts` performs on a non-empty store for the processed
receipts `rs`: the previous tail, now pointing to the first receipt, then the receipts. -/
def nodesToWrite (tailHash : Bytes) (tailItem : EvmTxReceiptListItem) (rs : List EvmTxReceipt) :
    List (Bytes × EvmTxReceiptListItem) :=
  (tailHash, ⟨tailItem.receipt, (rs.map EvmTxReceipt.txHash).headD tailItem.nextTxHash⟩) ::
    linkedTo [] rs

/-- The size recorded in a key-value store: the decoded size key, zero when it is absent. -/
def persistedSize (env : Env) (kv : KV) : Nat :=
  match kv env.currentDbSizeKey with
  | none => 0
  | some b => uint64LE b

/-- The store states reachable from the empty store by calls of `CommitReceipts`, for a
fixed bound. -/
inductive Reachable (env : Env) (maxReceipts : Nat) : EvmAuxStore → Prop where
  | init : Reachable env maxReceipts (EvmAuxStore.init maxReceipts)
  | commit (s : EvmAuxStore) (receipts : List (Option EvmTxReceipt)) (height : Nat) :
      Reachable env maxReceipts s →
      Reachable env maxReceipts (CommitReceipts env s receipts height).2

/-- Whether a call of `CommitReceipts` reaches the eviction step with a size above the
bound, that is, whether it has to evict. -/
def evicts (env : Env) (s : EvmAuxStore) (receipts : List (Option EvmTxReceipt)) : Bool :=
  if receipts.length = 0 ∨ s.maxReceipts = 0 then false
  else
    match getDBParams env s.store with
    | (_, _, _, some _) => false
    | (size, headHash, tailHash, none) =>
      match loadTail env.codec s.store headHash tailHash with
      | Except.error _ => false
      | Except.ok tailReceiptItem =>
        decide (s.maxReceipts <
          (appendPhase env.codec s.store size headHash tailHash tailReceiptItem receipts).size)

/-- The tx-hash list of a batch in the words of the specification: the hashes, in input
order, of the receipts that are present, have a non-empty hash and have status success. -/
def specTxHashList (receipts : List (Option EvmTxReceipt)) : List Bytes :=
  ((receipts.filterMap id).filter
    (fun r => decide (r.txHash ≠ []) && decide (r.status = StatusTxSuccess))).map
    EvmTxReceipt.txHash

/-- The event sequence of a batch in the words of the specification: the logs, concatenated
in input order, of the receipts that are present and have a non-empty hash. -/
def specEvents (receipts : List (Option EvmTxReceipt)) : List EventData :=
  (((receipts.filterMap id).filter (fun r => decide (r.txHash ≠ []))).map
    EvmTxReceipt.logs).flatten

/-- The assumption on the block-metadata interface: a range request `[lo, hi]` within
`1 .. H` is answered with the block hashes of the heights `lo, ..., hi` of the chain
`blockHash`, in ascending order. -/
def AnswersRanges (q : QueryEnv) (blockHash : Nat → Bytes) (H : Nat) : Prop :=
  ∀ lo hi, 1 ≤ lo → lo ≤ hi → hi ≤ H →
    q.BlockchainInfo (toInt64 lo) (toInt64 hi) =
      Except.ok ((List.range' lo (hi + 1 - lo)).map blockHash)

/-- The balance stored for an address; an account never stored counts as balance 0. -/
def balanceOf (ctx : CoinState) (addr : Address) : Nat :=
  match ctx addr with
  | some (Stored.account acct) => acct.balance
  | _ => 0

/-- The sum of the stored balances of the listed addresses. -/
def totalBalance (ctx : CoinState) (addrs : List Address) : Nat :=
  (addrs.map (balanceOf ctx)).sum

/-- Every stored account carries the address of its key in its owner field, as is the case
for the accounts written by `Init` and `saveAccount`. -/
def OwnersMatch (ctx : CoinState) : Prop :=
  ∀ key acct, ctx key = some (Stored.account acct) → acct.owner = key

/-- The number of distinct keys of the list that are absent from the store. -/
def newKeyCount (st : KV) (keys : List Bytes) : Nat :=
  (keys.toFinset.filter (fun k => st k = none)).card

/-- The store that a successful `CommitReceipts` commits: after the eviction step, the
metadata, the per-height hash list and the per-height bloom filter are written. -/
def committedStore (env : Env) (ls : LoopState) (store1 : KV) (size1 : Nat) (headHash1 : Bytes)
    (hashList : Bytes) (height : Nat) : KV :=
  ((setDBParams env store1 size1 headHash1 ls.tailHash).set (env.txHashKey height) hashList).set
    (env.bloomKey height) (env.genBloomFilter ls.events)

/-- Every node of the list is stored under its key and decodes to itself. -/
def NodesStored (c : Codec) (st : KV) (nodes : List (Bytes × EvmTxReceiptListItem)) : Prop :=
  ∀ k it, (k, it) ∈ nodes → ∃ b, st k = some b ∧ c.unmarshal b = some it

/-- One call of `CommitReceipts` in a run: the new store object and the receipts committed
so far, to which the batch is added when the call returns the nil error. -/
def commitStep (env : Env) (p : EvmAuxStore × List EvmTxReceipt)
    (call : List EvmTxReceipt × Nat) : EvmAuxStore × List EvmTxReceipt :=
  ((CommitReceipts env p.1 (call.1.map some) call.2).2,
    if (CommitReceipts env p.1 (call.1.map some) call.2).1 = none then p.2 ++ call.1 else p.2)

/-- A run of `CommitReceipts` calls (batch of non-nil receipts, height) from the empty
store: the final store object and the receipts committed, in commit order. -/
def commitAll (env : Env) (maxReceipts : Nat) (calls : List (List EvmTxReceipt × Nat)) :
    EvmAuxStore × List EvmTxReceipt :=
  calls.foldl (commitStep env) (EvmAuxStore.init maxReceipts, [])

/-- All receipts passed to the calls of a run, in order. -/
def allReceipts : List (List EvmTxReceipt × Nat) → List EvmTxReceipt
  | [] => []
  | call :: calls => call.1 ++ allReceipts calls

/-- The hash is neither a metadata key nor a per-height index key. -/
def KeyFree (env : Env) (h : Bytes) : Prop :=
  h ≠ env.currentDbSizeKey ∧ h ≠ env.headKey ∧ h ≠ env.tailKey ∧
    ∀ height, h ≠ env.txHashKey height ∧ h ≠ env.bloomKey height

/-- The hash of the first receipt, empty for no receipts. -/
def headOf (rs : List EvmTxReceipt) : Bytes := (rs.map EvmTxReceipt.txHash).headD []

/-- The hash of the last receipt, empty for no receipts. -/
def tailOf (rs : List EvmTxReceipt) : Bytes := (rs.map EvmTxReceipt.txHash).getLastD []

/-- The receipts have pairwise distinct, non-empty hashes that are not metadata or index
keys. -/
structure GoodHashes (env : Env) (rs : List EvmTxReceipt) : Prop where
  nodup : (rs.map EvmTxReceipt.txHash).Nodup
  nonempty : ∀ r ∈ rs, r.txHash ≠ []
  keyfree : ∀ r ∈ rs, KeyFree env r.txHash

/-- The store object holds exactly the list `kept`: no open writes, metadata equal to the
length, first hash and last hash of `kept`, every receipt of `kept` stored as a node linked
to the next one, and no key besides the hashes of `kept`, metadata keys and index keys. -/
structure Inv (env : Env) (M : Nat) (s : EvmAuxStore) (kept : List EvmTxReceipt) : Prop where
  clean : s.store = s.db
  max : s.maxReceipts = M
  len : kept.length ≤ M
  params : getDBParams env s.db = (kept.length, headOf kept, tailOf kept, none)
  headRaw : s.db.get env.headKey = headOf kept
  nodes : NodesStored env.codec s.db (linkedTo [] kept)
  keys : ∀ k, s.db k ≠ none → k ∈ kept.map EvmTxReceipt.txHash ∨ ¬ KeyFree env k

/-! ## A concrete environment

A small length-prefixed codec and fixed keys, used to evaluate the definitions on concrete
inputs. -/

/-- Length-prefixed encoding of a byte string. -/
def encBytes (b : Bytes) : Bytes := b.length :: b

/-- Decoder for `encBytes`, returning the rest of the input. -/
def decBytes : Bytes → Option (Bytes × Bytes)
  | [] => none
  | n :: rest => if n ≤ rest.length then some (rest.take n, rest.drop n) else none

/-- Concatenated encodings of the elements of a list. -/
def encSeq {α : Type} (enc : α → Bytes) : List α → Bytes
  | [] => []
  | x :: xs => enc x ++ encSeq enc xs

/-- Decoder for `encSeq`, given the number of elements. -/
def decSeq {α : Type} (dec : Bytes → Option (α × Bytes)) : Nat → Bytes → Option (List α × Bytes)
  | 0, inp => some ([], inp)
  | n + 1, inp =>
    match dec inp with
    | none => none
    | some (x, rest) =>
      match decSeq dec n rest with
      | none => none
      | some (xs, rest1) => some (x :: xs, rest1)

/-- Encoding of a log event. -/
def encEvent (e : EventData) : Bytes :=
  (e.topics.length :: encSeq encBytes e.topics) ++ encBytes e.encodedBody

/-- Decoder for `encEvent`. -/
def decEvent : Bytes → Option (EventData × Bytes)
  | [] => none
  | n :: rest =>
    match decSeq decBytes n rest with
    | none => none
    | some (ts, rest1) =>
      match decBytes rest1 with
      | none => none
      | some (b, rest2) => some (⟨ts, b⟩, rest2)

/-- Encoding of a receipt. -/
def encReceipt (r : EvmTxReceipt) : Bytes :=
  encBytes r.txHash ++ ([r.status.toNat, (-r.status).toNat] ++
    (r.logs.length :: encSeq encEvent r.logs))

/-- Decoder for `encReceipt`. -/
def decReceipt (inp : Bytes) : Option (EvmTxReceipt × Bytes) :=
  match decBytes inp with
  | none => none
  | some (h, rest) =>
    match rest with
    | a :: b :: n :: rest1 =>
      match decSeq decEvent n rest1 with
      | none => none
      | some (ls, rest2) => some (⟨h, (a : Int) - (b : Int), ls⟩, rest2)
    | _ => none

/-- Encoding of a list item; the zero item has the empty encoding. -/
def demoMarshal (it : EvmTxReceiptListItem) : Bytes :=
  match it.receipt with
  | none => if it.nextTxHash = [] then [] else 0 :: encBytes it.nextTxHash
  | some r => 1 :: (encBytes it.nextTxHash ++ encReceipt r)

/-- Decoder for `demoMarshal`. -/
def demoUnmarshal : Bytes → Option EvmTxReceiptListItem
  | [] => some ⟨none, []⟩
  | 0 :: rest =>
    match decBytes rest with
    | some (nx, []) => if nx = [] then none else some ⟨none, nx⟩
    | _ => none
  | 1 :: rest =>
    match decBytes rest with
    | none => none
    | some (nx, rest1) =>
      match decReceipt rest1 with
      | some (r, []) => some ⟨some r, nx⟩
      | _ => none
  | _ => none

theorem decBytes_encBytes (b t : Bytes) : decBytes (encBytes b ++ t) = some (b, t) := by
  simp [encBytes, decBytes]

theorem decSeq_encSeq {α : Type} (enc : α → Bytes) (dec : Bytes → Option (α × Bytes))
    (h : ∀ x t, dec (enc x ++ t) = some (x, t)) (xs : List α) (t : Bytes) :
    decSeq dec xs.length (encSeq enc xs ++ t) = some (xs, t) := by
  induction xs with
  | nil => simp [decSeq, encSeq]
  | cons x xs ih => simp [decSeq, encSeq, List.append_assoc, h, ih]

theorem decEvent_encEvent (e : EventData) (t : Bytes) :
    decEvent (encEvent e ++ t) = some (e, t) := by
  simp [decEvent, encEvent, List.append_assoc, decSeq_encSeq encBytes decBytes decBytes_encBytes,
    decBytes_encBytes]

theorem decReceipt_encReceipt (r : EvmTxReceipt) (t : Bytes) :
    decReceipt (encReceipt r ++ t) = some (r, t) := by
  have hs : ((r.status.toNat : Int) - ((-r.status).toNat : Int)) = r.status := by omega
  simp [decReceipt, encReceipt, List.append_assoc, decBytes_encBytes,
    decSeq_encSeq encEvent decEvent decEvent_encEvent, hs]

theorem demoUnmarshal_demoMarshal (it : EvmTxReceiptListItem) :
    demoUnmarshal (demoMarshal it) = some it := by
  obtain ⟨rc, nx⟩ := it
  cases rc with
  | none =>
    by_cases hnx : nx = []
    · simp [demoMarshal, demoUnmarshal, hnx]
    · have h := decBytes_encBytes nx []
      simp only [List.append_nil] at h
      simp [demoMarshal, demoUnmarshal, hnx, h]
  | some r =>
    have h := decReceipt_encReceipt r []
    simp only [List.append_nil] at h
    simp [demoMarshal, demoUnmarshal, decBytes_encBytes, h]

/-- The concrete codec. -/
def demoCodec : Codec where
  marshal := fun it => some (demoMarshal it)
  unmarshal := demoUnmarshal
  unmarshal_marshal := by
    intro it b h
    simp only [Option.some.injEq] at h
    rw [← h]
    exact demoUnmarshal_demoMarshal it
  unmarshal_nil := rfl
  marshal_ne_nil := by
    intro r nx b h
    simp only [Option.some.injEq] at h
    rw [← h]
    simp [demoMarshal]

/-- The concrete environment: one-byte metadata keys, two-byte index keys, a
length-prefixed hash list and, in place of the bloom filter, the topics of the events. -/
def demoEnv : Env where
  codec := demoCodec
  currentDbSizeKey := [1]
  headKey := [2]
  tailKey := [3]
  txHashKey := fun h => [4, h]
  bloomKey := fun h => [5, h]
  marshalTxHashList := fun hs => some (hs.length :: encSeq encBytes hs)
  genBloomFilter := fun es => encSeq (fun e => encSeq encBytes e.topics) es
  head_ne_size := by decide
  tail_ne_size := by decide
  head_ne_tail := by decide
  txHashKey_ne_meta := by intro h; simp
  bloomKey_ne_meta := by intro h; simp
  txHashKey_ne_bloomKey := by intro h; simp

/-- Whether a receipt has a log topic that holds the byte 255. -/
def hasBadTopic (r : EvmTxReceipt) : Bool :=
  r.logs.any (fun e => e.topics.any (fun t => t.contains 255))

/-- The encoder of a codec that returns an error on the items of receipts with such a topic
and encodes every other item as `demoMarshal` does. -/
def strictMarshal (it : EvmTxReceiptListItem) : Option Bytes :=
  match it.receipt with
  | none => some (demoMarshal it)
  | some r => if hasBadTopic r then none else some (demoMarshal it)

/-- A codec whose encoder can fail. -/
def strictCodec : Codec where
  marshal := strictMarshal
  unmarshal := demoUnmarshal
  unmarshal_marshal := by
    intro it b h
    obtain ⟨rc, nx⟩ := it
    cases rc with
    | none =>
      simp only [strictMarshal, Option.some.injEq] at h
      rw [← h]
      exact demoUnmarshal_demoMarshal _
    | some r =>
      by_cases hb : hasBadTopic r = true
      · simp [strictMarshal, hb] at h
      · simp [strictMarshal, hb] at h
        rw [← h]
        exact demoUnmarshal_demoMarshal _
  unmarshal_nil := rfl
  marshal_ne_nil := by
    intro r nx b h
    by_cases hb : hasBadTopic r = true
    · simp [strictMarshal, hb] at h
    · simp [strictMarshal, hb] at h
      rw [← h]
      simp [demoMarshal]

/-- The concrete environment with the codec whose encoder can fail. -/
def strictEnv : Env := { demoEnv with codec := strictCodec }

/-- A receipt that `strictCodec` does not encode. -/
def rBad : EvmTxReceipt := ⟨[100], 1, [⟨[[255]], []⟩]⟩

/-- Receipts used in the concrete evaluations. -/
def rA : EvmTxReceipt := ⟨[97], 1, [⟨[[84, 49]], []⟩]⟩

/-- A failed receipt without logs. -/
def rB : EvmTxReceipt := ⟨[98], 0, []⟩

/-- A third receipt. -/
def rC : EvmTxReceipt := ⟨[99], 1, []⟩

/-- A store object whose committed store and transaction view are both `kv`. -/
def EvmAuxStore.ofKV (kv : KV) (maxReceipts : Nat) : EvmAuxStore := ⟨kv, kv, maxReceipts⟩

/-- A receipt whose hash is the key of the hash list of height 10 in `demoEnv`. -/
def rK : EvmTxReceipt := ⟨[4, 10], 1, []⟩

/-- A store holding the chain `a -> b -> c` of the three receipts above. -/
def chainStore : KV :=
  ((KV.empty.set [97] (demoMarshal ⟨some rA, [98]⟩)).set [98]
    (demoMarshal ⟨some rB, [99]⟩)).set [99] (demoMarshal ⟨some rC, []⟩)

/-- A store whose metadata records one receipt with head and tail `a`, but with no node
under the key `a`. -/
def tailLessStore : KV := setDBParams demoEnv KV.empty 1 [97] [97]

/-- Block hashes of a small chain: odd heights carry the hash `B`, even heights `A`. -/
def demoBlockHash (h : Nat) : Bytes := [65 + h % 2]

/-- A consensus engine over the chain `demoBlockHash` that answers a range request with the
block hashes of the range in ascending order, and simple serializers. -/
def demoQuery : QueryEnv where
  Block := fun h =>
    if 0 < h then Except.ok ⟨demoBlockHash h.toNat, demoBlockHash (h.toNat - 1), 1000 + h⟩
    else Except.error (Err.text "Height must be greater than 0")
  BlockchainInfo := fun lo hi =>
    Except.ok ((List.range' lo.toNat (hi.toNat + 1 - lo.toNat)).map demoBlockHash)
  marshalReceipt := fun r => Except.ok (encReceipt r)
  marshalBlockInfo := fun bi =>
    Except.ok (encBytes bi.hash ++ encBytes bi.parentHash ++
      [bi.timestamp.toNat, bi.number.toNat] ++ encBytes bi.logsBloom ++
      (bi.transactions.length :: encSeq encBytes bi.transactions))

/-- A node state whose chain head is at height 3. -/
def demoState : ReadOnlyState := ⟨3⟩

/-- A node state whose chain head is at height 250. -/
def demoStateHigh : ReadOnlyState := ⟨250⟩

/-- A receipt reader with the transaction `a` at height 2 and no transaction elsewhere. -/
def demoHandler : ReadReceiptHandler where
  GetTxHash := fun _ h => Except.ok (if h = 2 then [97] else [])
  GetBloomFilter := fun _ _ => Except.ok [7]
  GetReceipt := fun _ k => if k = [97] then Except.ok rA else Except.error ErrTxReceiptNotFound

/-- Two addresses of the concrete coin state. -/
def alice : Address := ⟨[100], [1]⟩

/-- The second address. -/
def bob : Address := ⟨[100], [2]⟩

/-- A coin state in which `alice` holds 10 and `bob` holds 5. -/
def demoCoin : CoinState :=
  saveAccount (saveAccount (fun _ => none) ⟨alice, 10⟩) ⟨bob, 5⟩

/-! ## Basic facts about the key-value store -/

@[simp] theorem KV.set_same (kv : KV) (k v : Bytes) : (kv.set k v) k = some v := by
  simp [KV.set]

theorem KV.set_other (kv : KV) (k v x : Bytes) (h : x ≠ k) : (kv.set k v) x = kv x := by
  simp [KV.set, h]

@[simp] theorem KV.delete_same (kv : KV) (k : Bytes) : (kv.delete k) k = none := by
  simp [KV.delete]

theorem KV.delete_other (kv : KV) (k x : Bytes) (h : x ≠ k) : (kv.delete k) x = kv x := by
  simp [KV.delete, h]

theorem nodeNext_delete_other (c : Codec) (store : KV) (k x : Bytes) (h : x ≠ k) :
    nodeNext c (store.delete k) x = nodeNext c store x := by
  simp [nodeNext, KV.delete_other _ _ _ h]

theorem isChain_delete (c : Codec) (store : KV) (k : Bytes) (ks : List Bytes) (hk : k ∉ ks)
    (h : isChain c store ks = true) : isChain c (store.delete k) ks = true := by
  induction ks with
  | nil => rfl
  | cons x xs ih =>
    simp only [List.mem_cons, not_or] at hk
    simp only [isChain, Bool.and_eq_true, decide_eq_true_eq] at h ⊢
    refine ⟨⟨h.1.1, ?_⟩, ih hk.2 h.2⟩
    rw [nodeNext_delete_other c store k x (Ne.symm hk.1)]
    exact h.1.2

/-! ## Eviction -/

theorem removeLoop_chain (c : Codec) (n : Nat) :
    ∀ (ks : List Bytes) (store : KV) (d : Nat), isChain c store ks = true → ks.Nodup →
      n ≤ ks.length →
      removeLoop c n store (ks.headD []) d =
        (fun k => if k ∈ ks.take n then none else store k, (ks.drop n).headD [], d + n,
          none) := by
  induction n with
  | zero => intro ks store d _ _ _; simp [removeLoop]
  | succ n ih =>
    intro ks store d hc hnd hn
    match ks, hc, hnd, hn with
    | [], _, _, hn => simp at hn
    | x :: xs, hc, hnd, hn =>
      simp only [isChain, Bool.and_eq_true, decide_eq_true_eq] at hc
      obtain ⟨⟨hx, hnext⟩, hrest⟩ := hc
      have hxs : x ∉ xs := (List.nodup_cons.mp hnd).1
      have hlen : ¬ x.length = 0 := by
        intro h0; exact hx (List.length_eq_zero.mp h0)
      simp only [nodeNext] at hnext
      cases hb : store x with
      | none => simp [hb] at hnext
      | some b =>
        simp only [hb] at hnext
        cases hit : c.unmarshal b with
        | none => simp [hit] at hnext
        | some it =>
          simp only [hit, Option.some.injEq] at hnext
          have hget : store.get x = b := by simp [KV.get, hb]
          simp only [removeLoop, List.headD_cons, hlen, if_false, hget, hit, hnext]
          rw [ih xs (store.delete x) (d + 1) (isChain_delete c store x xs hxs hrest)
            (List.nodup_cons.mp hnd).2 (by simpa using hn)]
          refine Prod.ext ?_ (Prod.ext ?_ (Prod.ext ?_ rfl))
          · funext k
            by_cases hk : k = x
            · subst hk; simp
            · simp [hk, KV.delete_other]
          · simp
          · simp only []; omega

theorem removeOldEntries_on_chain (c : Codec) (store : KV) (ks : List Bytes) (n : Nat)
    (hchain : isChain c store ks = true) (hdistinct : ks.Nodup) (hn : n ≤ ks.length) :
    removeOldEntries c store (ks.headD []) n =
      (fun k => if k ∈ ks.take n then none else store k, (ks.drop n).headD [], n, none) := by
  unfold removeOldEntries
  rw [removeLoop_chain c n ks store 0 hchain hdistinct hn]
  simp

/-- Claim C9. On a store holding a well-formed chain `ks` (non-empty pairwise distinct
keys, each holding a decodable node whose successor hash is the next key, the last node
without successor) and for `n` at most the chain length, `removeOldEntries` called on the
first key returns no error, the count `n` and as new head the key of the first surviving
node (empty when the whole chain is consumed); the resulting store has exactly the first
`n` keys of the chain deleted and every other key unchanged. -/
theorem removeOldEntries_chain (c : Codec) (store : KV) (ks : List Bytes) (n : Nat)
    (hchain : isChain c store ks = true) (hdistinct : ks.Nodup) (hn : n ≤ ks.length) :
    removeOldEntries c store (ks.headD []) n =
      (fun k => if k ∈ ks.take n then none else store k, (ks.drop n).headD [], n, none) ∧
    (∀ k ∈ ks.take n, (removeOldEntries c store (ks.headD []) n).1 k = none) ∧
    (∀ k, k ∉ ks.take n → (removeOldEntries c store (ks.headD []) n).1 k = store k) := by
  have h := removeOldEntries_on_chain c store ks n hchain hdistinct hn
  refine ⟨h, ?_, ?_⟩
  · intro k hk
    rw [h]
    simp [hk]
  · intro k hk
    rw [h]
    simp [hk]

/-- Witness of `removeOldEntries_chain`: two evictions on the chain `a -> b -> c`. -/
theorem removeOldEntries_chain_witness :
    isChain demoCodec chainStore [[97], [98], [99]] = true ∧ [[97], [98], [99]].Nodup ∧
      2 ≤ [[97], [98], [99]].length ∧
      removeOldEntries demoCodec chainStore [97] 2 =
        (fun k => if k ∈ [[97], [98]] then none else chainStore k, [99], 2, none) :=
  ⟨by decide, by decide, by decide,
    (removeOldEntries_chain demoCodec chainStore [[97], [98], [99]] 2 (by decide) (by decide)
      (by decide)).1⟩

/-- Claim C10, evaluated: on the empty store, `removeOldEntries` asked to delete one node
from head `a` reports one deleted node, an empty new head and no error, although the key
`a` holds no node and nothing is removed. -/
theorem removeOldEntries_missing_node :
    KV.empty [97] = none ∧
      (removeOldEntries demoCodec KV.empty [97] 1).2 = ([], 1, none) ∧
      ∀ k, (removeOldEntries demoCodec KV.empty [97] 1).1 k = none := by
  refine ⟨rfl, by decide, ?_⟩
  intro k
  by_cases hk : k = [97] <;> simp [removeOldEntries, removeLoop, KV.get, KV.empty, demoCodec,
    demoUnmarshal, KV.delete, hk]

/-! ## Atomicity of `CommitReceipts` -/

theorem CommitReceipts_nil_or_rollback (env : Env) (s : EvmAuxStore)
    (receipts : List (Option EvmTxReceipt)) (height : Nat) :
    (CommitReceipts env s receipts height).1 = none ∨
      (CommitReceipts env s receipts height).2 = s.Rollback := by
  unfold CommitReceipts
  split
  · left; rfl
  · split
    · right; rfl
    · right; rfl
    · split
      · right; rfl
      · dsimp only
        split
        · right; rfl
        · split
          · right; rfl
          · left; rfl

/-- Claim C5. Whenever `CommitReceipts` returns an error, the committed store is the one
from before the call: no receipt node, metadata key or per-height index has changed, and
the transaction view has been rolled back to it. -/
theorem CommitReceipts_error_rolls_back (env : Env) (s : EvmAuxStore)
    (receipts : List (Option EvmTxReceipt)) (height : Nat) (e : Err)
    (herr : (CommitReceipts env s receipts height).1 = some e) :
    (CommitReceipts env s receipts height).2.db = s.db ∧
      (CommitReceipts env s receipts height).2.store = s.db ∧
      (CommitReceipts env s receipts height).2.maxReceipts = s.maxReceipts := by
  rcases CommitReceipts_nil_or_rollback env s receipts height with h | h
  · rw [h] at herr; cases herr
  · rw [h]; exact ⟨rfl, rfl, rfl⟩

/-- Witness of `CommitReceipts_error_rolls_back`: a store whose size key says one receipt
while no head hash is recorded makes the commit fail. -/
theorem CommitReceipts_error_rolls_back_witness :
    (CommitReceipts demoEnv (EvmAuxStore.ofKV (KV.empty.set [1] (putUint64 1)) 5) [some rA]
        10).1 =
      some (Err.wrap (Err.text "no head for non zero size receipt db") "getting db params.") ∧
    (CommitReceipts demoEnv (EvmAuxStore.ofKV (KV.empty.set [1] (putUint64 1)) 5) [some rA]
        10).2.db = KV.empty.set [1] (putUint64 1) :=
  ⟨by decide,
    (CommitReceipts_error_rolls_back demoEnv
      (EvmAuxStore.ofKV (KV.empty.set [1] (putUint64 1)) 5) [some rA] 10
      (Err.wrap (Err.text "no head for non zero size receipt db") "getting db params.")
      (by decide)).1⟩

/-- Claim C6, evaluated: the metadata of `tailLessStore` records one receipt with head and
tail `a`, no payload is stored under `a`, and `CommitReceipts` with a non-empty batch and
`maxReceipts = 1` returns the nil error; nothing of the batch is stored. -/
theorem CommitReceipts_missing_tail_returns_nil :
    getDBParams demoEnv tailLessStore = (1, [97], [97], none) ∧
      tailLessStore [97] = none ∧
      (CommitReceipts demoEnv (EvmAuxStore.ofKV tailLessStore 1) [some rB] 7).1 = none ∧
      (CommitReceipts demoEnv (EvmAuxStore.ofKV tailLessStore 1) [some rB] 7).2.db [98] =
        none := by
  decide

/-- Claim C3, evaluated: from the empty store with `maxReceipts = 5`, committing the batch
`a, b, a` succeeds and persists size 2 with head and tail `a`, but the walk from the head
visits the single node `a`. -/
theorem CommitReceipts_repeated_hash_breaks_list :
    (CommitReceipts demoEnv (EvmAuxStore.init 5) [some rA, some rB, some rA] 10).1 = none ∧
      getDBParams demoEnv
          (CommitReceipts demoEnv (EvmAuxStore.init 5) [some rA, some rB, some rA] 10).2.db =
        (2, [97], [97], none) ∧
      walk demoCodec
          (CommitReceipts demoEnv (EvmAuxStore.init 5) [some rA, some rB, some rA] 10).2.db
          10 [97] = [([97], ⟨some rA, []⟩)] := by
  decide

/-- Claim C4, evaluated: from the empty store with `maxReceipts = 1`, committing the batch
`a, b, a` succeeds and persists size 1 together with an empty head hash and the tail hash
`a`; `getDBParams` rejects this metadata. -/
theorem CommitReceipts_repeated_hash_breaks_metadata :
    (CommitReceipts demoEnv (EvmAuxStore.init 1) [some rA, some rB, some rA] 10).1 = none ∧
      (CommitReceipts demoEnv (EvmAuxStore.init 1) [some rA, some rB, some rA] 10).2.db
          demoEnv.currentDbSizeKey = some (putUint64 1) ∧
      (CommitReceipts demoEnv (EvmAuxStore.init 1) [some rA, some rB, some rA] 10).2.db
          demoEnv.headKey = some [] ∧
      (CommitReceipts demoEnv (EvmAuxStore.init 1) [some rA, some rB, some rA] 10).2.db
          demoEnv.tailKey = some [97] ∧
      getDBParams demoEnv
          (CommitReceipts demoEnv (EvmAuxStore.init 1) [some rA, some rB, some rA] 10).2.db =
        (0, [], [], some (Err.text "no head for non zero size receipt db")) := by
  decide

/-! ## The append loop in closed form -/

theorem Codec.marshal_eq (c : Codec) (rc : Option EvmTxReceipt) (nx : Bytes)
    (h : c.Encodes rc) : c.marshal ⟨rc, nx⟩ = some (c.enc ⟨rc, nx⟩) := by
  obtain ⟨b, hb⟩ := h nx
  simp [Codec.enc, hb]

theorem Codec.unmarshal_enc (c : Codec) (rc : Option EvmTxReceipt) (nx : Bytes)
    (h : c.Encodes rc) : c.unmarshal (c.enc ⟨rc, nx⟩) = some ⟨rc, nx⟩ :=
  c.unmarshal_marshal _ _ (c.marshal_eq rc nx h)

theorem Codec.unmarshal_enc_item (c : Codec) (it : EvmTxReceiptListItem)
    (h : c.Encodes it.receipt) : c.unmarshal (c.enc it) = some it :=
  c.unmarshal_enc it.receipt it.nextTxHash h

theorem Codec.enc_ne_nil (c : Codec) (r : EvmTxReceipt) (nx : Bytes)
    (h : c.Encodes (some r)) : c.enc ⟨some r, nx⟩ ≠ [] :=
  c.marshal_ne_nil r nx _ (c.marshal_eq _ _ h)

theorem foldl_loopStep_valid (c : Codec) (receipts : List (Option EvmTxReceipt)) :
    ∀ ls : LoopState, receipts.foldl (loopStep c) ls =
      ((validReceipts receipts).map some).foldl (loopStep c) ls := by
  induction receipts with
  | nil => intro ls; rfl
  | cons x xs ih =>
    intro ls
    cases x with
    | none => simp only [List.foldl_cons, validReceipts]; rw [ih]; rfl
    | some r =>
      by_cases hr : r.txHash.length = 0
      · simp only [List.foldl_cons, validReceipts, hr, if_true]
        rw [ih]; simp [loopStep, hr]
      · simp only [List.foldl_cons, validReceipts, hr, if_false, List.map_cons]
        rw [ih]

theorem validReceipts_ne_nil (receipts : List (Option EvmTxReceipt)) :
    ∀ r ∈ validReceipts receipts, r.txHash ≠ [] := by
  induction receipts with
  | nil => intro r hr; simp [validReceipts] at hr
  | cons x xs ih =>
    intro r hr
    cases x with
    | none => exact ih r (by simpa [validReceipts] using hr)
    | some y =>
      by_cases hy : y.txHash.length = 0
      · exact ih r (by simpa [validReceipts, hy] using hr)
      · simp only [validReceipts, hy, if_false, List.mem_cons] at hr
        rcases hr with h | h
        · subst h; intro h0; exact hy (by simp [h0])
        · exact ih r h

theorem validReceipts_map_some (rs : List EvmTxReceipt) (h : ∀ r ∈ rs, r.txHash ≠ []) :
    validReceipts (rs.map some) = rs := by
  induction rs with
  | nil => rfl
  | cons r rs ih =>
    have hr : ¬ r.txHash.length = 0 := by
      intro h0; exact h r (List.mem_cons_self _ _) (List.length_eq_zero.mp h0)
    simp only [List.map_cons, validReceipts, hr, if_false]
    rw [ih (fun x hx => h x (List.mem_cons_of_mem _ hx))]

theorem loopStep_linked (c : Codec) (ls : LoopState) (r : EvmTxReceipt) (hr : r.txHash ≠ [])
    (hh : ls.headHash ≠ []) (henc : c.Encodes ls.tailReceiptItem.receipt) :
    loopStep c ls (some r) =
      { store := (writeNode c (ls.store, ls.size)
          (ls.tailHash, ⟨ls.tailReceiptItem.receipt, r.txHash⟩)).1
        size := (writeNode c (ls.store, ls.size)
          (ls.tailHash, ⟨ls.tailReceiptItem.receipt, r.txHash⟩)).2
        headHash := ls.headHash
        tailHash := r.txHash
        tailReceiptItem := ⟨some r, []⟩
        txHashArray := ls.txHashArray ++ successHashes [r]
        events := ls.events ++ r.logs } := by
  have h1 : ¬ r.txHash.length = 0 := fun h0 => hr (List.length_eq_zero.mp h0)
  have h2 : ¬ ls.headHash.length = 0 := fun h0 => hh (List.length_eq_zero.mp h0)
  simp only [loopStep, h1, h2, if_false, Codec.marshal_eq c _ _ henc, writeNode,
    successHashes]
  by_cases hs : r.status = StatusTxSuccess <;> simp [hs]

theorem loopStep_first (c : Codec) (ls : LoopState) (r : EvmTxReceipt) (hr : r.txHash ≠ [])
    (hh : ls.headHash = []) :
    loopStep c ls (some r) =
      { store := ls.store
        size := ls.size
        headHash := r.txHash
        tailHash := r.txHash
        tailReceiptItem := ⟨some r, []⟩
        txHashArray := ls.txHashArray ++ successHashes [r]
        events := ls.events ++ r.logs } := by
  have h1 : ¬ r.txHash.length = 0 := fun h0 => hr (List.length_eq_zero.mp h0)
  simp only [loopStep, h1, hh, List.length_nil, if_true, if_false, successHashes]
  by_cases hs : r.status = StatusTxSuccess <;> simp [hs]

theorem successHashes_append (xs ys : List EvmTxReceipt) :
    successHashes (xs ++ ys) = successHashes xs ++ successHashes ys := by
  induction xs with
  | nil => rfl
  | cons x xs ih =>
    by_cases hs : x.status = StatusTxSuccess <;> simp [successHashes, hs, ih]

theorem allLogs_append (xs ys : List EvmTxReceipt) :
    allLogs (xs ++ ys) = allLogs xs ++ allLogs ys := by
  induction xs with
  | nil => rfl
  | cons x xs ih => simp [allLogs, ih]

theorem getLastD_cons_irrel {α : Type} (a : α) (l : List α) (x y : α) :
    (a :: l).getLast?.getD x = (a :: l).getLast?.getD y := by
  rw [List.getLast?_eq_getLast _ (List.cons_ne_nil a l)]; rfl

/-- The loop and the final tail write on a store that already has a head: the store and
size are those of the node writes `nodesToWrite`, in order. -/
theorem append_linked (c : Codec) (rs : List EvmTxReceipt) :
    ∀ ls : LoopState, (∀ r ∈ rs, r.txHash ≠ []) → ls.headHash ≠ [] → ls.tailHash ≠ [] →
      c.Encodes ls.tailReceiptItem.receipt → (∀ r ∈ rs, c.Encodes (some r)) →
      flushTail c ((rs.map some).foldl (loopStep c) ls) =
        { store := ((nodesToWrite ls.tailHash ls.tailReceiptItem rs).foldl (writeNode c)
            (ls.store, ls.size)).1
          size := ((nodesToWrite ls.tailHash ls.tailReceiptItem rs).foldl (writeNode c)
            (ls.store, ls.size)).2
          headHash := ls.headHash
          tailHash := (rs.map EvmTxReceipt.txHash).getLastD ls.tailHash
          tailReceiptItem := (rs.map (fun r => (⟨some r, []⟩ : EvmTxReceiptListItem))).getLastD
            ls.tailReceiptItem
          txHashArray := ls.txHashArray ++ successHashes rs
          events := ls.events ++ allLogs rs } := by
  induction rs with
  | nil =>
    intro ls _ _ ht het _
    have h2 : ls.tailHash.length > 0 := List.length_pos.mpr ht
    have hm := Codec.marshal_eq c ls.tailReceiptItem.receipt ls.tailReceiptItem.nextTxHash het
    simp [flushTail, h2, hm, nodesToWrite, linkedTo, writeNode, successHashes, allLogs]
  | cons r rs ih =>
    intro ls hv hh ht het her
    have hr : r.txHash ≠ [] := hv r (List.mem_cons_self _ _)
    simp only [List.map_cons, List.foldl_cons]
    rw [loopStep_linked c ls r hr hh het]
    rw [ih]
    · simp only [nodesToWrite, linkedTo, List.foldl_cons, List.map_cons, List.headD_cons]
      have e1 : successHashes (r :: rs) = successHashes [r] ++ successHashes rs :=
        successHashes_append [r] rs
      have e2 : allLogs (r :: rs) = r.logs ++ allLogs rs := rfl
      rw [e1, e2]
      cases rs with
      | nil => simp
      | cons y ys =>
        simp
        exact ⟨getLastD_cons_irrel _ _ _ _, getLastD_cons_irrel _ _ _ _⟩
    · exact fun x hx => hv x (List.mem_cons_of_mem _ hx)
    · exact hh
    · exact hr
    · exact her r (List.mem_cons_self _ _)
    · exact fun x hx => her x (List.mem_cons_of_mem _ hx)

/-! ## Node writes -/

theorem foldl_writeNode_other (c : Codec) (nodes : List (Bytes × EvmTxReceiptListItem)) :
    ∀ (p : KV × Nat) (k : Bytes), k ∉ nodes.map Prod.fst →
      (nodes.foldl (writeNode c) p).1 k = p.1 k := by
  induction nodes with
  | nil => intro p k _; rfl
  | cons x xs ih =>
    intro p k hk
    simp only [List.map_cons, List.mem_cons, not_or] at hk
    simp only [List.foldl_cons]
    rw [ih _ k hk.2]
    simp [writeNode, KV.set_other _ _ _ _ hk.1]

theorem foldl_writeNode_mem (c : Codec) (nodes : List (Bytes × EvmTxReceiptListItem)) :
    ∀ (p : KV × Nat) (k : Bytes) (it : EvmTxReceiptListItem), (nodes.map Prod.fst).Nodup →
      (k, it) ∈ nodes → (nodes.foldl (writeNode c) p).1 k = some (c.enc it) := by
  induction nodes with
  | nil => intro p k it _ h; simp at h
  | cons x xs ih =>
    intro p k it hnd hmem
    simp only [List.map_cons, List.nodup_cons] at hnd
    simp only [List.foldl_cons]
    rcases List.mem_cons.mp hmem with h | h
    · subst h
      rw [foldl_writeNode_other c xs _ _ hnd.1]
      simp [writeNode]
    · exact ih _ k it hnd.2 h

theorem newKeyCount_cons (st : KV) (k v : Bytes) (keys : List Bytes) :
    newKeyCount st (k :: keys) =
      (if st k = none then 1 else 0) + newKeyCount (st.set k v) keys := by
  unfold newKeyCount
  have hset : (keys.toFinset.filter (fun x => (st.set k v) x = none)) =
      (keys.toFinset.filter (fun x => st x = none)).erase k := by
    ext x
    by_cases hx : x = k
    · subst hx; simp
    · simp [KV.set_other _ _ _ _ hx, hx]
  rw [hset, List.toFinset_cons, Finset.filter_insert]
  by_cases hk : st k = none
  · simp only [hk, if_true]
    rw [← Finset.erase_insert_eq_erase, Nat.add_comm]
    exact (Finset.card_erase_add_one (Finset.mem_insert_self _ _)).symm
  · simp only [hk, if_false, Nat.zero_add]
    rw [Finset.erase_eq_of_not_mem]
    simp [hk]

theorem foldl_writeNode_size (c : Codec) (nodes : List (Bytes × EvmTxReceiptListItem)) :
    ∀ (st : KV) (sz : Nat), sz < 2 ^ 64 →
      (nodes.foldl (writeNode c) (st, sz)).2 =
        (sz + newKeyCount st (nodes.map Prod.fst)) % 2 ^ 64 := by
  induction nodes with
  | nil =>
    intro st sz hsz
    have h0 : newKeyCount st [] = 0 := by simp [newKeyCount]
    simp only [List.foldl_nil, List.map_nil, h0, Nat.add_zero]
    exact (Nat.mod_eq_of_lt hsz).symm
  | cons x xs ih =>
    intro st sz hsz
    simp only [List.foldl_cons, List.map_cons]
    rw [newKeyCount_cons st x.1 (c.enc x.2)]
    cases hk : st x.1 with
    | none =>
      have hw : writeNode c (st, sz) x = (st.set x.1 (c.enc x.2), (sz + 1) % 2 ^ 64) := by
        simp [writeNode, KV.has, hk]
      rw [hw, ih _ _ (Nat.mod_lt _ (by norm_num))]
      simp only [if_true]
      rw [Nat.mod_add_mod]
      congr 1
      omega
    | some b =>
      have hw : writeNode c (st, sz) x = (st.set x.1 (c.enc x.2), sz) := by
        simp [writeNode, KV.has, hk]
      rw [hw, ih _ _ hsz]
      simp

/-! ## The eviction step and the shape of a commit -/

theorem removeLoop_count_le (c : Codec) (n : Nat) :
    ∀ (store : KV) (head : Bytes) (d : Nat), (removeLoop c n store head d).2.2.1 ≤ d + n := by
  induction n with
  | zero => intro store head d; simp [removeLoop]
  | succ n ih =>
    intro store head d
    unfold removeLoop
    split
    · simp
    · dsimp only
      split
      · simp
      · have := ih (store.delete head) (by assumption : EvmTxReceiptListItem).nextTxHash (d + 1)
        omega

theorem removeOldEntries_ok (c : Codec) (store : KV) (head : Bytes) (number : Nat)
    (st1 : KV) (h1 : Bytes) (d : Nat)
    (h : removeOldEntries c store head number = (st1, h1, d, none)) : d = number := by
  unfold removeOldEntries at h
  have hle := removeLoop_count_le c number store head 0
  revert h hle
  rcases removeLoop c number store head 0 with ⟨a, b, k, e⟩
  cases e with
  | some e => intro h; simp at h
  | none =>
    intro h hle
    simp only at h hle
    by_cases hlt : k < number
    · simp [hlt] at h
    · simp only [hlt, if_false, Prod.mk.injEq] at h
      omega

theorem evict_ok (c : Codec) (maxReceipts : Nat) (ls : LoopState) (st1 : KV) (sz1 : Nat)
    (h1 : Bytes) (h : evict c maxReceipts ls = Except.ok (st1, sz1, h1)) :
    (¬ maxReceipts < ls.size ∧ st1 = ls.store ∧ sz1 = ls.size ∧ h1 = ls.headHash) ∨
      (maxReceipts < ls.size ∧ sz1 = maxReceipts ∧
        removeOldEntries c ls.store ls.headHash (ls.size - maxReceipts) =
          (st1, h1, ls.size - maxReceipts, none)) := by
  unfold evict at h
  by_cases hlt : maxReceipts < ls.size
  · right
    simp only [hlt, if_true] at h
    rcases hr : removeOldEntries c ls.store ls.headHash (ls.size - maxReceipts) with ⟨a, b, k, e⟩
    rw [hr] at h
    cases e with
    | some e => simp at h
    | none =>
      have hk := removeOldEntries_ok c _ _ _ _ _ _ hr
      subst hk
      have hnot : ¬ ls.size < ls.size - maxReceipts := by omega
      simp only [hnot, if_false, Except.ok.injEq, Prod.mk.injEq] at h
      obtain ⟨ha, hs, hb⟩ := h
      subst ha; subst hb
      exact ⟨hlt, by omega, rfl⟩
  · left
    simp only [hlt, if_false, Except.ok.injEq, Prod.mk.injEq] at h
    exact ⟨hlt, h.1.symm, h.2.1.symm, h.2.2.symm⟩

theorem evict_nil_error_impossible (c : Codec) (maxReceipts : Nat) (ls : LoopState) :
    evict c maxReceipts ls ≠ Except.error none := by
  unfold evict
  by_cases hlt : maxReceipts < ls.size
  · simp only [hlt, if_true]
    rcases hr : removeOldEntries c ls.store ls.headHash (ls.size - maxReceipts) with ⟨a, b, k, e⟩
    cases e with
    | some e => simp [errorsWrap]
    | none =>
      have hk := removeOldEntries_ok c _ _ _ _ _ _ hr
      subst hk
      have hnot : ¬ ls.size < ls.size - maxReceipts := by omega
      simp [hnot]
  · simp [hlt]

/-- The outcomes of `CommitReceipts`: the store object is left as it was or rolled back, or
the call went through every step and committed `committedStore`. -/
theorem CommitReceipts_cases (env : Env) (s : EvmAuxStore)
    (receipts : List (Option EvmTxReceipt)) (height : Nat) :
    ((CommitReceipts env s receipts height).2 = s ∨
        (CommitReceipts env s receipts height).2 = s.Rollback) ∨
      ∃ size head tail item st1 sz1 h1 b,
        ¬ (receipts.length = 0 ∨ s.maxReceipts = 0) ∧
        getDBParams env s.store = (size, head, tail, none) ∧
        loadTail env.codec s.store head tail = Except.ok item ∧
        evict env.codec s.maxReceipts
          (appendPhase env.codec s.store size head tail item receipts) =
            Except.ok (st1, sz1, h1) ∧
        env.marshalTxHashList
          (appendPhase env.codec s.store size head tail item receipts).txHashArray = some b ∧
        CommitReceipts env s receipts height =
          (none, EvmAuxStore.ofKV (committedStore env
            (appendPhase env.codec s.store size head tail item receipts) st1 sz1 h1 b height)
            s.maxReceipts) := by
  unfold CommitReceipts
  split
  · left; left; rfl
  · rename_i hguard
    split
    · left; right; rfl
    · left; right; rfl
    · rename_i size head tail hp
      split
      · left; right; rfl
      · rename_i item hl
        dsimp only
        split
        · left; right; rfl
        · rename_i st1 sz1 h1 he
          cases hm : env.marshalTxHashList
              (appendPhase env.codec s.store size head tail item receipts).txHashArray with
          | none =>
            left; right
            simp [SetTxHashList, hm]
          | some b =>
            right
            refine ⟨size, head, tail, item, st1, sz1, h1, b, hguard, hp, hl, he, hm, ?_⟩
            simp [SetTxHashList, hm, SetBloomFilter, committedStore, EvmAuxStore.Commit,
              EvmAuxStore.Rollback, EvmAuxStore.ofKV]

/-! ## The persisted size -/

theorem leValue_leBytes (k : Nat) : ∀ n, leValue (leBytes k n) = n % 256 ^ k := by
  induction k with
  | zero => intro n; simp [leBytes, leValue, Nat.mod_one]
  | succ k ih =>
    intro n
    simp only [leBytes, leValue, ih, Nat.mod_mod]
    rw [pow_succ', Nat.mod_mul]

theorem length_leBytes (k : Nat) : ∀ n, (leBytes k n).length = k := by
  induction k with
  | zero => intro n; rfl
  | succ k ih => intro n; simp [leBytes, ih]

theorem uint64LE_putUint64 (n : Nat) : uint64LE (putUint64 n) = n % 2 ^ 64 := by
  unfold uint64LE putUint64
  rw [List.take_of_length_le (by rw [length_leBytes]), leValue_leBytes]
  norm_num

theorem committedStore_size (env : Env) (ls : LoopState) (st1 : KV) (sz1 : Nat) (h1 b : Bytes)
    (height : Nat) :
    committedStore env ls st1 sz1 h1 b height env.currentDbSizeKey = some (putUint64 sz1) := by
  unfold committedStore setDBParams
  rw [KV.set_other _ _ _ _ (Ne.symm (env.bloomKey_ne_meta height).1),
    KV.set_other _ _ _ _ (Ne.symm (env.txHashKey_ne_meta height).1)]
  simp

theorem committedStore_head (env : Env) (ls : LoopState) (st1 : KV) (sz1 : Nat) (h1 b : Bytes)
    (height : Nat) :
    committedStore env ls st1 sz1 h1 b height env.headKey = some h1 := by
  unfold committedStore setDBParams
  rw [KV.set_other _ _ _ _ (Ne.symm (env.bloomKey_ne_meta height).2.1),
    KV.set_other _ _ _ _ (Ne.symm (env.txHashKey_ne_meta height).2.1),
    KV.set_other _ _ _ _ env.head_ne_size, KV.set_other _ _ _ _ env.head_ne_tail]
  simp

theorem committedStore_tail (env : Env) (ls : LoopState) (st1 : KV) (sz1 : Nat) (h1 b : Bytes)
    (height : Nat) :
    committedStore env ls st1 sz1 h1 b height env.tailKey = some ls.tailHash := by
  unfold committedStore setDBParams
  rw [KV.set_other _ _ _ _ (Ne.symm (env.bloomKey_ne_meta height).2.2),
    KV.set_other _ _ _ _ (Ne.symm (env.txHashKey_ne_meta height).2.2),
    KV.set_other _ _ _ _ env.tail_ne_size]
  simp

theorem committedStore_other (env : Env) (ls : LoopState) (st1 : KV) (sz1 : Nat) (h1 b : Bytes)
    (height : Nat) (k : Bytes) (h1k : k ≠ env.currentDbSizeKey) (h2k : k ≠ env.headKey)
    (h3k : k ≠ env.tailKey) (h4k : k ≠ env.txHashKey height) (h5k : k ≠ env.bloomKey height) :
    committedStore env ls st1 sz1 h1 b height k = st1 k := by
  unfold committedStore setDBParams
  rw [KV.set_other _ _ _ _ h5k, KV.set_other _ _ _ _ h4k, KV.set_other _ _ _ _ h1k,
    KV.set_other _ _ _ _ h3k, KV.set_other _ _ _ _ h2k]

theorem persistedSize_committedStore (env : Env) (ls : LoopState) (st1 : KV) (sz1 : Nat)
    (h1 b : Bytes) (height : Nat) :
    persistedSize env (committedStore env ls st1 sz1 h1 b height) = sz1 % 2 ^ 64 := by
  simp [persistedSize, committedStore_size, uint64LE_putUint64]

/-- The result of `CommitReceipts` once the guard, the metadata and the tail are passed. -/
theorem CommitReceipts_of_steps (env : Env) (s : EvmAuxStore)
    (receipts : List (Option EvmTxReceipt)) (height : Nat) (size : Nat) (head tail : Bytes)
    (item : EvmTxReceiptListItem)
    (hguard : ¬ (receipts.length = 0 ∨ s.maxReceipts = 0))
    (hp : getDBParams env s.store = (size, head, tail, none))
    (hl : loadTail env.codec s.store head tail = Except.ok item) :
    CommitReceipts env s receipts height =
      match evict env.codec s.maxReceipts
          (appendPhase env.codec s.store size head tail item receipts) with
      | Except.error e => (e, s.Rollback)
      | Except.ok (st1, sz1, h1) =>
        match env.marshalTxHashList
            (appendPhase env.codec s.store size head tail item receipts).txHashArray with
        | none =>
          (some (Err.wrap (Err.wrap Err.protoEncode "marshal tx hash list") "append tx list"),
            s.Rollback)
        | some b =>
          (none, EvmAuxStore.ofKV (committedStore env
            (appendPhase env.codec s.store size head tail item receipts) st1 sz1 h1 b height)
            s.maxReceipts) := by
  unfold CommitReceipts
  rw [if_neg hguard]
  simp only [hp, hl]
  split
  · rfl
  · rename_i st1 sz1 h1 he
    cases hm : env.marshalTxHashList
        (appendPhase env.codec s.store size head tail item receipts).txHashArray with
    | none => simp [SetTxHashList, hm, errorsWrap]
    | some b =>
      simp [SetTxHashList, hm, SetBloomFilter, committedStore, EvmAuxStore.Commit,
        EvmAuxStore.Rollback, EvmAuxStore.ofKV]

theorem evicts_true (env : Env) (s : EvmAuxStore) (receipts : List (Option EvmTxReceipt))
    (h : evicts env s receipts = true) :
    ∃ size head tail item,
      ¬ (receipts.length = 0 ∨ s.maxReceipts = 0) ∧
      getDBParams env s.store = (size, head, tail, none) ∧
      loadTail env.codec s.store head tail = Except.ok item ∧
      s.maxReceipts < (appendPhase env.codec s.store size head tail item receipts).size := by
  unfold evicts at h
  split at h
  · simp at h
  · rename_i hguard
    split at h
    · simp at h
    · rename_i size head tail hp
      split at h
      · simp at h
      · rename_i item hl
        exact ⟨size, head, tail, item, hguard, hp, hl, by simpa using h⟩

theorem CommitReceipts_clean (env : Env) (s : EvmAuxStore)
    (receipts : List (Option EvmTxReceipt)) (height : Nat) (hclean : s.store = s.db) :
    (CommitReceipts env s receipts height).2.store =
      (CommitReceipts env s receipts height).2.db := by
  rcases CommitReceipts_cases env s receipts height with (h | h) | h
  · rw [h]; exact hclean
  · rw [h]; rfl
  · obtain ⟨_, _, _, _, _, _, _, _, _, _, _, _, _, h⟩ := h
    rw [h]; rfl

theorem CommitReceipts_maxReceipts (env : Env) (s : EvmAuxStore)
    (receipts : List (Option EvmTxReceipt)) (height : Nat) :
    (CommitReceipts env s receipts height).2.maxReceipts = s.maxReceipts := by
  rcases CommitReceipts_cases env s receipts height with (h | h) | h
  · rw [h]
  · rw [h]; rfl
  · obtain ⟨_, _, _, _, _, _, _, _, _, _, _, _, _, h⟩ := h
    rw [h]; rfl

theorem Reachable.maxReceipts_eq {env : Env} {M : Nat} {s : EvmAuxStore}
    (hs : Reachable env M s) : s.maxReceipts = M := by
  induction hs with
  | init => rfl
  | commit s receipts height _ ih => rw [CommitReceipts_maxReceipts, ih]

theorem Reachable.size_le {env : Env} {M : Nat} {s : EvmAuxStore}
    (hs : Reachable env M s) : persistedSize env s.db ≤ M := by
  induction hs with
  | init => simp [persistedSize, EvmAuxStore.init, KV.empty]
  | commit s receipts height hs ih =>
    have hM := hs.maxReceipts_eq
    rcases CommitReceipts_cases env s receipts height with (h | h) | h
    · rw [h]; exact ih
    · rw [h]; exact ih
    · obtain ⟨size, head, tail, item, st1, sz1, h1, b, _, _, _, he, _, h⟩ := h
      rw [h]
      simp only [EvmAuxStore.ofKV, persistedSize_committedStore]
      have hle : sz1 % 2 ^ 64 ≤ sz1 := Nat.mod_le _ _
      rcases evict_ok _ _ _ _ _ _ he with h2 | h2
      · omega
      · omega

/-- Claim C2. For a fixed bound `M`, in every store state reachable from the empty store
by calls of `CommitReceipts` with arbitrary batches the persisted size is at most `M`, and
every call from such a state that has to evict and returns success persists exactly the
size `M`. -/
theorem persisted_size_le_maxReceipts (env : Env) (M : Nat) (hM : M < 2 ^ 64)
    (s : EvmAuxStore) (hs : Reachable env M s) :
    persistedSize env s.db ≤ M ∧
      ∀ (receipts : List (Option EvmTxReceipt)) (height : Nat),
        evicts env s receipts = true →
        (CommitReceipts env s receipts height).1 = none →
        persistedSize env (CommitReceipts env s receipts height).2.db = M := by
  refine ⟨hs.size_le, ?_⟩
  intro receipts height hev hok
  have hmax := hs.maxReceipts_eq
  obtain ⟨size, head, tail, item, hguard, hp, hl, hlt⟩ := evicts_true env s receipts hev
  rw [CommitReceipts_of_steps env s receipts height size head tail item hguard hp hl] at hok ⊢
  cases he : evict env.codec s.maxReceipts
      (appendPhase env.codec s.store size head tail item receipts) with
  | error e =>
    rw [he] at hok
    simp only at hok
    subst hok
    exact absurd he (evict_nil_error_impossible _ _ _)
  | ok r =>
    obtain ⟨st1, sz1, h1⟩ := r
    rw [he] at hok
    simp only at hok ⊢
    cases hm : env.marshalTxHashList
        (appendPhase env.codec s.store size head tail item receipts).txHashArray with
    | none => rw [hm] at hok; simp at hok
    | some b =>
      simp only [EvmAuxStore.ofKV, persistedSize_committedStore]
      rcases evict_ok _ _ _ _ _ _ he with h2 | h2
      · exact absurd hlt h2.1
      · rw [h2.2.1, hmax]
        exact Nat.mod_eq_of_lt hM

/-- Witness of `persisted_size_le_maxReceipts`: the state after committing `a` with bound 1;
committing `b` next has to evict. -/
theorem persisted_size_le_maxReceipts_witness :
    Reachable demoEnv 1 (CommitReceipts demoEnv (EvmAuxStore.init 1) [some rA] 10).2 ∧
      evicts demoEnv (CommitReceipts demoEnv (EvmAuxStore.init 1) [some rA] 10).2 [some rB] =
        true ∧
      (CommitReceipts demoEnv (CommitReceipts demoEnv (EvmAuxStore.init 1) [some rA] 10).2
        [some rB] 11).1 = none ∧
      persistedSize demoEnv
        (CommitReceipts demoEnv (CommitReceipts demoEnv (EvmAuxStore.init 1) [some rA] 10).2
          [some rB] 11).2.db = 1 :=
  ⟨Reachable.commit _ _ _ Reachable.init, by decide, by decide,
    (persisted_size_le_maxReceipts demoEnv 1 (by norm_num)
      (CommitReceipts demoEnv (EvmAuxStore.init 1) [some rA] 10).2
      (Reachable.commit _ _ _ Reachable.init)).2 [some rB] 11 (by decide) (by decide)⟩

/-! ## The append phase of a commit -/

theorem linkedTo_keys (fin : Bytes) (rs : List EvmTxReceipt) :
    (linkedTo fin rs).map Prod.fst = rs.map EvmTxReceipt.txHash := by
  induction rs with
  | nil => rfl
  | cons r rs ih => simp [linkedTo, ih]

theorem appendPhase_linked (c : Codec) (st : KV) (size : Nat) (head tail : Bytes)
    (item : EvmTxReceiptListItem) (receipts : List (Option EvmTxReceipt))
    (hh : head ≠ []) (ht : tail ≠ []) (het : c.Encodes item.receipt)
    (her : ∀ r ∈ validReceipts receipts, c.Encodes (some r)) :
    appendPhase c st size head tail item receipts =
      { store := ((nodesToWrite tail item (validReceipts receipts)).foldl (writeNode c)
          (st, size)).1
        size := ((nodesToWrite tail item (validReceipts receipts)).foldl (writeNode c)
          (st, size)).2
        headHash := head
        tailHash := ((validReceipts receipts).map EvmTxReceipt.txHash).getLastD tail
        tailReceiptItem := ((validReceipts receipts).map
          (fun r => (⟨some r, []⟩ : EvmTxReceiptListItem))).getLastD item
        txHashArray := successHashes (validReceipts receipts)
        events := allLogs (validReceipts receipts) } := by
  unfold appendPhase
  rw [foldl_loopStep_valid, append_linked c _ _ (validReceipts_ne_nil receipts) hh ht het her]
  simp

theorem appendPhase_fresh (c : Codec) (st : KV) (size : Nat)
    (item : EvmTxReceiptListItem) (receipts : List (Option EvmTxReceipt))
    (her : ∀ r ∈ validReceipts receipts, c.Encodes (some r)) :
    appendPhase c st size [] [] item receipts =
      { store := ((linkedTo [] (validReceipts receipts)).foldl (writeNode c) (st, size)).1
        size := ((linkedTo [] (validReceipts receipts)).foldl (writeNode c) (st, size)).2
        headHash := ((validReceipts receipts).map EvmTxReceipt.txHash).headD []
        tailHash := ((validReceipts receipts).map EvmTxReceipt.txHash).getLastD []
        tailReceiptItem := ((validReceipts receipts).map
          (fun r => (⟨some r, []⟩ : EvmTxReceiptListItem))).getLastD item
        txHashArray := successHashes (validReceipts receipts)
        events := allLogs (validReceipts receipts) } := by
  unfold appendPhase
  rw [foldl_loopStep_valid]
  have hv := validReceipts_ne_nil receipts
  revert hv her
  cases validReceipts receipts with
  | nil => intro _ _; simp [flushTail, linkedTo, successHashes, allLogs]
  | cons r rs =>
    intro her hv
    have hr : r.txHash ≠ [] := hv r (List.mem_cons_self _ _)
    simp only [List.map_cons, List.foldl_cons]
    rw [loopStep_first c _ r hr rfl, append_linked c rs _
      (fun x hx => hv x (List.mem_cons_of_mem _ hx)) hr hr (her r (List.mem_cons_self _ _))
      (fun x hx => her x (List.mem_cons_of_mem _ hx))]
    simp only [nodesToWrite, linkedTo, List.map_cons, List.headD_cons, List.nil_append]
    have e1 : successHashes (r :: rs) = successHashes [r] ++ successHashes rs :=
      successHashes_append [r] rs
    have e2 : allLogs (r :: rs) = r.logs ++ allLogs rs := rfl
    rw [e1, e2]
    cases rs with
    | nil => simp
    | cons y ys =>
      simp
      exact ⟨getLastD_cons_irrel _ _ _ _, getLastD_cons_irrel _ _ _ _⟩

/-- What a nil error of `getDBParams` says about its results. -/
theorem getDBParams_ok (env : Env) (st : KV) (size : Nat) (head tail : Bytes)
    (h : getDBParams env st = (size, head, tail, none)) :
    size = persistedSize env st ∧ size < 2 ^ 64 ∧
      ((size = 0 ∧ head = [] ∧ tail = []) ∨
        (size ≠ 0 ∧ head ≠ [] ∧ tail ≠ [] ∧ head = st.get env.headKey ∧
          tail = st.get env.tailKey)) := by
  unfold getDBParams at h
  unfold persistedSize
  cases hk : st env.currentDbSizeKey with
  | none =>
    simp only [KV.has, hk, Option.isSome_none, Bool.not_false, if_true, Prod.mk.injEq] at h
    obtain ⟨h1, h2, h3, _⟩ := h
    subst h1; subst h2; subst h3
    simp
  | some b =>
    have hlt : uint64LE b < 2 ^ 64 := by
      unfold uint64LE
      have hlen : (b.take 8).length ≤ 8 := by simp
      generalize b.take 8 = l at hlen
      have key : ∀ (l : Bytes), leValue l < 256 ^ l.length := by
        intro l
        induction l with
        | nil => simp [leValue]
        | cons x xs ih =>
          simp only [leValue, List.length_cons, pow_succ]
          have := Nat.mod_lt x (by norm_num : 256 > 0)
          omega
      calc leValue l < 256 ^ l.length := key l
        _ ≤ 256 ^ 8 := Nat.pow_le_pow_right (by norm_num) hlen
        _ = 2 ^ 64 := by norm_num
    simp only [KV.has, KV.get, hk, Option.isSome_some, Bool.not_true, Option.getD_some] at h
    simp only [Bool.false_eq_true, if_false] at h
    by_cases h8 : b.length < 8
    · simp [h8] at h
    · simp only [h8, if_false] at h
      by_cases h0 : uint64LE b = 0
      · simp only [h0, if_true, Prod.mk.injEq] at h
        obtain ⟨h1, h2, h3, _⟩ := h
        subst h1; subst h2; subst h3
        simp [h0]
      · simp only [h0, if_false] at h
        by_cases hh : ((st env.headKey).getD []).length = 0
        · simp [hh] at h
        · simp only [hh, if_false] at h
          by_cases ht : ((st env.tailKey).getD []).length = 0
          · simp [ht] at h
          · simp only [ht, if_false, Prod.mk.injEq] at h
            obtain ⟨h1, h2, h3, _⟩ := h
            subst h1; subst h2; subst h3
            refine ⟨rfl, hlt, Or.inr ⟨h0, ?_, ?_, rfl, rfl⟩⟩
            · intro e; exact hh (by rw [e]; rfl)
            · intro e; exact ht (by rw [e]; rfl)

theorem newKeyCount_cons_present (st : KV) (k : Bytes) (keys : List Bytes) (hk : st k ≠ none) :
    newKeyCount st (k :: keys) = newKeyCount st keys := by
  unfold newKeyCount
  rw [List.toFinset_cons, Finset.filter_insert]
  simp [hk]

/-- The size after the append phase: the size read from the metadata plus the number of
distinct processed hashes that were not keys of the store. -/
theorem appendPhase_size (env : Env) (st : KV) (size : Nat) (head tail : Bytes)
    (item : EvmTxReceiptListItem) (receipts : List (Option EvmTxReceipt))
    (hp : getDBParams env st = (size, head, tail, none))
    (htail : head ≠ [] → st.get tail ≠ [])
    (het : head ≠ [] → env.codec.Encodes item.receipt)
    (her : ∀ r ∈ validReceipts receipts, env.codec.Encodes (some r)) :
    (appendPhase env.codec st size head tail item receipts).size =
      (size + newKeyCount st ((validReceipts receipts).map EvmTxReceipt.txHash)) % 2 ^ 64 := by
  obtain ⟨_, hlt, hcase⟩ := getDBParams_ok env st size head tail hp
  rcases hcase with ⟨_, hh, ht⟩ | ⟨_, hh, ht, _, _⟩
  · subst hh; subst ht
    rw [appendPhase_fresh _ _ _ _ _ her]
    simp only
    rw [foldl_writeNode_size _ _ _ _ hlt, linkedTo_keys]
  · rw [appendPhase_linked _ _ _ _ _ _ _ hh ht (het hh) her]
    simp only
    rw [foldl_writeNode_size _ _ _ _ hlt]
    simp only [nodesToWrite, List.map_cons, linkedTo_keys]
    rw [newKeyCount_cons_present]
    intro hnone
    exact htail hh (by simp [KV.get, hnone])

theorem CommitReceipts_of_loadTail_error (env : Env) (s : EvmAuxStore)
    (receipts : List (Option EvmTxReceipt)) (height : Nat) (size : Nat) (head tail : Bytes)
    (e : Option Err)
    (hguard : ¬ (receipts.length = 0 ∨ s.maxReceipts = 0))
    (hp : getDBParams env s.store = (size, head, tail, none))
    (hl : loadTail env.codec s.store head tail = Except.error e) :
    CommitReceipts env s receipts height = (e, s.Rollback) := by
  unfold CommitReceipts
  rw [if_neg hguard]
  simp only [hp, hl]

theorem loadTail_ok_of_present (c : Codec) (st : KV) (head tail : Bytes) (e : Option Err)
    (htail : head ≠ [] → st.get tail ≠ [])
    (hl : loadTail c st head tail = Except.error e) : e ≠ none := by
  unfold loadTail at hl
  by_cases hh : head = []
  · simp [hh] at hl
  · have h1 : head.length > 0 := List.length_pos.mpr hh
    have h2 : ¬ (st.get tail).length = 0 := fun h0 => htail hh (List.length_eq_zero.mp h0)
    simp only [h1, if_true, h2, if_false] at hl
    cases hu : c.unmarshal (st.get tail) with
    | none =>
      rw [hu] at hl
      simp only [errorsWrap, Except.error.injEq] at hl
      rw [← hl]; simp
    | some it => rw [hu] at hl; simp at hl

theorem evicts_false (env : Env) (s : EvmAuxStore) (receipts : List (Option EvmTxReceipt))
    (size : Nat) (head tail : Bytes) (item : EvmTxReceiptListItem)
    (hguard : ¬ (receipts.length = 0 ∨ s.maxReceipts = 0))
    (hp : getDBParams env s.store = (size, head, tail, none))
    (hl : loadTail env.codec s.store head tail = Except.ok item)
    (h : evicts env s receipts = false) :
    ¬ s.maxReceipts < (appendPhase env.codec s.store size head tail item receipts).size := by
  unfold evicts at h
  rw [if_neg hguard] at h
  simp only [hp, hl] at h
  simpa using h

theorem evict_of_not_lt (c : Codec) (maxReceipts : Nat) (ls : LoopState)
    (h : ¬ maxReceipts < ls.size) :
    evict c maxReceipts ls = Except.ok (ls.store, ls.size, ls.headHash) := by
  simp [evict, h]

/-- The store committed by a call of `CommitReceipts` that passes the guard, reads the
metadata without error, finds its tail, does not evict and returns the nil error. -/
theorem CommitReceipts_no_eviction (env : Env) (s : EvmAuxStore)
    (receipts : List (Option EvmTxReceipt)) (height : Nat) (size : Nat) (head tail : Bytes)
    (hne : receipts ≠ []) (hmax : 0 < s.maxReceipts)
    (hp : getDBParams env s.store = (size, head, tail, none))
    (htail : head ≠ [] → s.store.get tail ≠ [])
    (hok : (CommitReceipts env s receipts height).1 = none)
    (hnoev : evicts env s receipts = false) :
    ∃ item b, loadTail env.codec s.store head tail = Except.ok item ∧
      (CommitReceipts env s receipts height).2.db =
        committedStore env (appendPhase env.codec s.store size head tail item receipts)
          (appendPhase env.codec s.store size head tail item receipts).store
          (appendPhase env.codec s.store size head tail item receipts).size
          (appendPhase env.codec s.store size head tail item receipts).headHash b height := by
  have hguard : ¬ (receipts.length = 0 ∨ s.maxReceipts = 0) := by
    intro h
    rcases h with h | h
    · exact hne (List.length_eq_zero.mp h)
    · omega
  cases hl : loadTail env.codec s.store head tail with
  | error e =>
    rw [CommitReceipts_of_loadTail_error env s receipts height size head tail e hguard hp hl]
      at hok
    exact absurd hok (loadTail_ok_of_present _ _ _ _ _ htail hl)
  | ok item =>
    have hnl := evicts_false env s receipts size head tail item hguard hp hl hnoev
    rw [CommitReceipts_of_steps env s receipts height size head tail item hguard hp hl,
      evict_of_not_lt _ _ _ hnl] at hok ⊢
    simp only at hok ⊢
    cases hm : env.marshalTxHashList
        (appendPhase env.codec s.store size head tail item receipts).txHashArray with
    | none => rw [hm] at hok; simp at hok
    | some b => exact ⟨item, b, rfl, rfl⟩

theorem loadTail_ok (c : Codec) (st : KV) (head tail : Bytes) (item : EvmTxReceiptListItem)
    (hh : head ≠ []) (hl : loadTail c st head tail = Except.ok item) :
    st.get tail ≠ [] ∧ c.unmarshal (st.get tail) = some item := by
  unfold loadTail at hl
  have h1 : head.length > 0 := List.length_pos.mpr hh
  simp only [h1, if_true] at hl
  by_cases h2 : (st.get tail).length = 0
  · simp [h2] at hl
  · simp only [h2, if_false] at hl
    cases hu : c.unmarshal (st.get tail) with
    | none => rw [hu] at hl; simp at hl
    | some it =>
      rw [hu] at hl
      simp only [Except.ok.injEq] at hl
      exact ⟨fun h0 => h2 (by rw [h0]; rfl), by rw [hl]⟩

theorem EncodesCall.item {c : Codec} {st : KV} {head tail : Bytes}
    {receipts : List (Option EvmTxReceipt)} (h : EncodesCall c st head tail receipts)
    (item : EvmTxReceiptListItem) (hl : loadTail c st head tail = Except.ok item)
    (hh : head ≠ []) : c.Encodes item.receipt :=
  h.2 hh item (loadTail_ok c st head tail item hh hl).2

theorem demoCodec_encodes (rc : Option EvmTxReceipt) : demoCodec.Encodes rc :=
  fun _ => ⟨_, rfl⟩

theorem demoEnv_encodesCall (st : KV) (head tail : Bytes)
    (receipts : List (Option EvmTxReceipt)) :
    EncodesCall demoEnv.codec st head tail receipts :=
  ⟨fun _ _ => demoCodec_encodes _, fun _ _ _ => demoCodec_encodes _⟩

/-- Claim C7, amended. Take a store object with a positive bound and no open writes whose
metadata reads without error and which is empty or has its tail node present, and a batch
such that `proto.Marshal` fails on no list item of the call (`EncodesCall`: the items of
the receipts of the batch and of the stored tail node). A call of `CommitReceipts` that
returns success without eviction persists the previous size plus the number of distinct
non-empty transaction hashes of the batch that were not keys of the store before the call
(in 64-bit arithmetic; the plain sum when it stays below `2 ^ 64`). A hash already present
or repeated in the batch is counted at most once, since the count is the size of a set of
absent keys. -/
theorem CommitReceipts_size_growth (env : Env) (s : EvmAuxStore)
    (receipts : List (Option EvmTxReceipt)) (height : Nat) (size : Nat) (head tail : Bytes)
    (hclean : s.store = s.db) (hmax : 0 < s.maxReceipts)
    (hp : getDBParams env s.store = (size, head, tail, none))
    (htail : head ≠ [] → s.store.get tail ≠ [])
    (henc : EncodesCall env.codec s.store head tail receipts)
    (hok : (CommitReceipts env s receipts height).1 = none)
    (hnoev : evicts env s receipts = false) :
    size = persistedSize env s.db ∧
      persistedSize env (CommitReceipts env s receipts height).2.db =
        (size + newKeyCount s.db ((validReceipts receipts).map EvmTxReceipt.txHash)) %
          2 ^ 64 ∧
      (size + newKeyCount s.db ((validReceipts receipts).map EvmTxReceipt.txHash) < 2 ^ 64 →
        persistedSize env (CommitReceipts env s receipts height).2.db =
          size + newKeyCount s.db ((validReceipts receipts).map EvmTxReceipt.txHash)) := by
  obtain ⟨hsz, hlt, _⟩ := getDBParams_ok env s.store size head tail hp
  have hmain : persistedSize env (CommitReceipts env s receipts height).2.db =
      (size + newKeyCount s.db ((validReceipts receipts).map EvmTxReceipt.txHash)) %
        2 ^ 64 := by
    by_cases hne : receipts = []
    · subst hne
      have hc : CommitReceipts env s [] height = (none, s) := by simp [CommitReceipts]
      have h0 : newKeyCount s.db [] = 0 := by simp [newKeyCount]
      rw [hc]
      simp only [validReceipts, List.map_nil, h0, Nat.add_zero]
      rw [Nat.mod_eq_of_lt hlt, hsz, hclean]
    · obtain ⟨item, b, hl, hdb⟩ := CommitReceipts_no_eviction env s receipts height size head
        tail hne hmax hp htail hok hnoev
      have hsize := appendPhase_size env s.store size head tail item receipts hp htail
        (henc.item item hl) henc.1
      rw [hdb, persistedSize_committedStore, hsize, Nat.mod_mod, hclean]
  refine ⟨by rw [hsz, hclean], hmain, ?_⟩
  intro hlt2
  rw [hmain, Nat.mod_eq_of_lt hlt2]

/-- Witness of `CommitReceipts_size_growth`: on the store holding `a`, the batch
`b, a, b, nil` adds the single new hash `b`, and the size goes from 1 to 2. -/
theorem CommitReceipts_size_growth_witness :
    newKeyCount (CommitReceipts demoEnv (EvmAuxStore.init 5) [some rA] 10).2.db
        ((validReceipts [some rB, some rA, some rB, none]).map EvmTxReceipt.txHash) = 1 ∧
      persistedSize demoEnv
        (CommitReceipts demoEnv (CommitReceipts demoEnv (EvmAuxStore.init 5) [some rA] 10).2
          [some rB, some rA, some rB, none] 11).2.db =
        (1 + newKeyCount (CommitReceipts demoEnv (EvmAuxStore.init 5) [some rA] 10).2.db
          ((validReceipts [some rB, some rA, some rB, none]).map EvmTxReceipt.txHash)) %
            2 ^ 64 :=
  ⟨by decide,
    (CommitReceipts_size_growth demoEnv
      (CommitReceipts demoEnv (EvmAuxStore.init 5) [some rA] 10).2
      [some rB, some rA, some rB, none] 11 1 [97] [97] (CommitReceipts_clean _ _ _ _ rfl)
      (by decide) (by decide) (by decide) (demoEnv_encodesCall _ _ _ _) (by decide)
      (by decide)).2.1⟩

/-- Claim C7 as stated fails, in two ways. With `maxReceipts = 0` on the store holding `a`
(size 1, tail node present), committing the batch `b` returns success without eviction,
`b` is a non-empty hash that is not a key of the store, and the persisted size stays 1.
And with bound 5 and a codec that fails on the receipt `rBad`, committing the batch
`rBad, c` on the store holding `a` returns success without eviction, both hashes are new,
and the persisted size stays 1: the node of `rBad` cannot be encoded and `c` is skipped. -/
theorem CommitReceipts_size_growth_zero_bound :
    (getDBParams strictEnv (CommitReceipts strictEnv (EvmAuxStore.init 5) [some rA] 10).2.db =
        (1, [97], [97], none) ∧
      (CommitReceipts strictEnv (EvmAuxStore.init 5) [some rA] 10).2.db [97] ≠ none ∧
      (CommitReceipts strictEnv (CommitReceipts strictEnv (EvmAuxStore.init 5) [some rA] 10).2
        [some rBad, some rC] 11).1 = none ∧
      evicts strictEnv (CommitReceipts strictEnv (EvmAuxStore.init 5) [some rA] 10).2
        [some rBad, some rC] = false ∧
      newKeyCount (CommitReceipts strictEnv (EvmAuxStore.init 5) [some rA] 10).2.db
        ((validReceipts [some rBad, some rC]).map EvmTxReceipt.txHash) = 2 ∧
      persistedSize strictEnv (CommitReceipts strictEnv
        (CommitReceipts strictEnv (EvmAuxStore.init 5) [some rA] 10).2
        [some rBad, some rC] 11).2.db = 1) ∧
    getDBParams demoEnv (CommitReceipts demoEnv (EvmAuxStore.init 5) [some rA] 10).2.db =
        (1, [97], [97], none) ∧
      (CommitReceipts demoEnv (EvmAuxStore.init 5) [some rA] 10).2.db [97] ≠ none ∧
      (CommitReceipts demoEnv
        (EvmAuxStore.ofKV (CommitReceipts demoEnv (EvmAuxStore.init 5) [some rA] 10).2.db 0)
        [some rB] 11).1 = none ∧
      evicts demoEnv
        (EvmAuxStore.ofKV (CommitReceipts demoEnv (EvmAuxStore.init 5) [some rA] 10).2.db 0)
        [some rB] = false ∧
      newKeyCount (CommitReceipts demoEnv (EvmAuxStore.init 5) [some rA] 10).2.db
        ((validReceipts [some rB]).map EvmTxReceipt.txHash) = 1 ∧
      persistedSize demoEnv (CommitReceipts demoEnv
        (EvmAuxStore.ofKV (CommitReceipts demoEnv (EvmAuxStore.init 5) [some rA] 10).2.db 0)
        [some rB] 11).2.db = 1 := by
  decide

/-! ## Linked nodes -/

theorem linkedNodes_eq (rs : List EvmTxReceipt) : linkedNodes rs = linkedTo [] rs := by
  induction rs with
  | nil => rfl
  | cons r rs ih => simp [linkedNodes, linkedTo, ih]

theorem linkedTo_append (fin : Bytes) (xs ys : List EvmTxReceipt) :
    linkedTo fin (xs ++ ys) =
      linkedTo ((ys.map EvmTxReceipt.txHash).headD fin) xs ++ linkedTo fin ys := by
  induction xs with
  | nil => rfl
  | cons x xs ih =>
    have hhead : ((xs ++ ys).map EvmTxReceipt.txHash).headD fin =
        (xs.map EvmTxReceipt.txHash).headD ((ys.map EvmTxReceipt.txHash).headD fin) := by
      cases xs with
      | nil => rfl
      | cons z zs => rfl
    show (x.txHash, (⟨some x, ((xs ++ ys).map EvmTxReceipt.txHash).headD fin⟩ :
        EvmTxReceiptListItem)) :: linkedTo fin (xs ++ ys) = _
    rw [ih, hhead]
    rfl

theorem linkedTo_drop (fin : Bytes) (n : Nat) :
    ∀ rs : List EvmTxReceipt, linkedTo fin (rs.drop n) = (linkedTo fin rs).drop n := by
  induction n with
  | zero => intro rs; rfl
  | succ n ih =>
    intro rs
    cases rs with
    | nil => rfl
    | cons r rs => simp [linkedTo, ih]

theorem mem_linkedTo (fin : Bytes) (rs : List EvmTxReceipt) (r : EvmTxReceipt) (hr : r ∈ rs) :
    ∃ nx, (r.txHash, (⟨some r, nx⟩ : EvmTxReceiptListItem)) ∈ linkedTo fin rs := by
  induction rs with
  | nil => simp at hr
  | cons x xs ih =>
    rcases List.mem_cons.mp hr with h | h
    · subst h
      exact ⟨_, List.mem_cons_self _ _⟩
    · obtain ⟨nx, hnx⟩ := ih h
      exact ⟨nx, List.mem_cons_of_mem _ hnx⟩

theorem mem_linkedTo_key (fin : Bytes) (rs : List EvmTxReceipt) (k : Bytes)
    (it : EvmTxReceiptListItem) (h : (k, it) ∈ linkedTo fin rs) :
    k ∈ rs.map EvmTxReceipt.txHash := by
  rw [← linkedTo_keys fin rs]
  exact List.mem_map_of_mem Prod.fst h

theorem mem_linkedTo_receipt (fin : Bytes) (rs : List EvmTxReceipt) (k : Bytes)
    (it : EvmTxReceiptListItem) (h : (k, it) ∈ linkedTo fin rs) :
    ∃ r, r ∈ rs ∧ k = r.txHash ∧ it.receipt = some r := by
  induction rs with
  | nil => simp [linkedTo] at h
  | cons x xs ih =>
    simp only [linkedTo, List.mem_cons, Prod.mk.injEq] at h
    rcases h with ⟨h1, h2⟩ | h
    · exact ⟨x, List.mem_cons_self _ _, h1, by rw [h2]⟩
    · obtain ⟨r, hr, hk, hi⟩ := ih h
      exact ⟨r, List.mem_cons_of_mem _ hr, hk, hi⟩

theorem mem_nodesToWrite_receipt (tail : Bytes) (item : EvmTxReceiptListItem)
    (rs : List EvmTxReceipt) (k : Bytes) (it : EvmTxReceiptListItem)
    (h : (k, it) ∈ nodesToWrite tail item rs) :
    it.receipt = item.receipt ∨ ∃ r, r ∈ rs ∧ it.receipt = some r := by
  simp only [nodesToWrite, List.mem_cons, Prod.mk.injEq] at h
  rcases h with ⟨_, h2⟩ | h
  · left; rw [h2]
  · obtain ⟨r, hr, _, hi⟩ := mem_linkedTo_receipt _ _ _ _ h
    exact Or.inr ⟨r, hr, hi⟩

theorem isChain_of_nodes (c : Codec) (st : KV) (rs : List EvmTxReceipt)
    (hn : NodesStored c st (linkedTo [] rs)) (hne : ∀ r ∈ rs, r.txHash ≠ []) :
    isChain c st (rs.map EvmTxReceipt.txHash) = true := by
  induction rs with
  | nil => rfl
  | cons r rs ih =>
    simp only [List.map_cons, isChain, Bool.and_eq_true, decide_eq_true_eq]
    obtain ⟨b, hb, hu⟩ := hn _ _ (List.mem_cons_self _ _)
    refine ⟨⟨hne r (List.mem_cons_self _ _), ?_⟩, ih ?_ ?_⟩
    · simp [nodeNext, hb, hu]
    · intro k it hk
      exact hn k it (List.mem_cons_of_mem _ hk)
    · intro x hx
      exact hne x (List.mem_cons_of_mem _ hx)

theorem walk_of_nodes (c : Codec) (st : KV) (rs : List EvmTxReceipt) :
    NodesStored c st (linkedTo [] rs) → (∀ r ∈ rs, r.txHash ≠ []) →
      ∀ fuel, rs.length < fuel →
        walk c st fuel ((rs.map EvmTxReceipt.txHash).headD []) = linkedTo [] rs := by
  induction rs with
  | nil =>
    intro _ _ fuel hf
    cases fuel with
    | zero => omega
    | succ f => simp [walk, linkedTo]
  | cons r rs ih =>
    intro hn hne fuel hf
    cases fuel with
    | zero => omega
    | succ f =>
      obtain ⟨b, hb, hu⟩ := hn _ _ (List.mem_cons_self _ _)
      have hr : ¬ r.txHash.length = 0 := fun h0 =>
        hne r (List.mem_cons_self _ _) (List.length_eq_zero.mp h0)
      simp only [List.map_cons, List.headD_cons, walk, hr, if_false, hb, hu, linkedTo]
      rw [ih (fun k it hk => hn k it (List.mem_cons_of_mem _ hk))
        (fun x hx => hne x (List.mem_cons_of_mem _ hx)) f (by simpa using hf)]

theorem newKeyCount_all_new (st : KV) (keys : List Bytes) (hnd : keys.Nodup)
    (hnew : ∀ k ∈ keys, st k = none) : newKeyCount st keys = keys.length := by
  unfold newKeyCount
  rw [Finset.filter_true_of_mem (by simpa using hnew), List.toFinset_card_of_nodup hnd]

theorem Codec.ne_nil_of_unmarshal_some (c : Codec) (b : Bytes) (r : EvmTxReceipt) (nx : Bytes)
    (h : c.unmarshal b = some ⟨some r, nx⟩) : b ≠ [] := by
  intro hb
  rw [hb, c.unmarshal_nil] at h
  simp at h

theorem Codec.enc_ne_nil_of_next (c : Codec) (rc : Option EvmTxReceipt) (nx : Bytes)
    (henc : c.Encodes rc) (hnx : nx ≠ []) : c.enc ⟨rc, nx⟩ ≠ [] := by
  intro hb
  have h := c.unmarshal_enc rc nx henc
  rw [hb, c.unmarshal_nil] at h
  simp only [Option.some.injEq, EvmTxReceiptListItem.mk.injEq] at h
  exact hnx h.2.symm

/-! ## Reading back committed receipts -/

theorem GetReceipt_congr (env : Env) (s1 s2 : EvmAuxStore) (k : Bytes)
    (h : s1.db k = s2.db k) : GetReceipt env s1 k = GetReceipt env s2 k := by
  simp [GetReceipt, KV.get, h]

theorem GetReceipt_of_node (env : Env) (s : EvmAuxStore) (k b : Bytes)
    (it : EvmTxReceiptListItem) (hb : s.db k = some b) (hne : b ≠ [])
    (hu : env.codec.unmarshal b = some it) :
    GetReceipt env s k =
      match it.receipt with
      | none => Except.error Err.panic
      | some r => Except.ok r := by
  have hlen : ¬ b.length = 0 := fun h0 => hne (List.length_eq_zero.mp h0)
  simp [GetReceipt, KV.get, hb, hlen, hu]

/-- Claim C8, amended. Take a store with no open writes whose metadata reads without error
and which is empty or has its tail node present, and a batch whose receipts have pairwise
distinct non-empty hashes that are neither keys of the store nor equal to a metadata key or
to an index key of the committed height, such that `proto.Marshal` fails on no list item of
the call (`EncodesCall`: the items of the receipts of the batch and of the stored tail
node). After a call of `CommitReceipts` that returns success without eviction, `GetReceipt`
returns each receipt of the batch itself, and for every key stored before the call, other
than those metadata and index keys, `GetReceipt` returns what it returned before. -/
theorem CommitReceipts_then_GetReceipt (env : Env) (s : EvmAuxStore)
    (batch : List EvmTxReceipt) (height : Nat) (size : Nat) (head tail : Bytes)
    (hclean : s.store = s.db) (hmax : 0 < s.maxReceipts)
    (hp : getDBParams env s.store = (size, head, tail, none))
    (htail : head ≠ [] → s.store.get tail ≠ [])
    (hdist : (batch.map EvmTxReceipt.txHash).Nodup)
    (hnonempty : ∀ r ∈ batch, r.txHash ≠ [])
    (hnew : ∀ r ∈ batch, s.store r.txHash = none)
    (hkeys : ∀ r ∈ batch, r.txHash ≠ env.currentDbSizeKey ∧ r.txHash ≠ env.headKey ∧
      r.txHash ≠ env.tailKey ∧ r.txHash ≠ env.txHashKey height ∧
      r.txHash ≠ env.bloomKey height)
    (henc : EncodesCall env.codec s.store head tail (batch.map some))
    (hok : (CommitReceipts env s (batch.map some) height).1 = none)
    (hnoev : evicts env s (batch.map some) = false) :
    (∀ r ∈ batch,
        GetReceipt env (CommitReceipts env s (batch.map some) height).2 r.txHash =
          Except.ok r) ∧
      ∀ k, s.db k ≠ none → k ≠ env.currentDbSizeKey → k ≠ env.headKey → k ≠ env.tailKey →
        k ≠ env.txHashKey height → k ≠ env.bloomKey height →
        GetReceipt env (CommitReceipts env s (batch.map some) height).2 k =
          GetReceipt env s k := by
  by_cases hb : batch = []
  · subst hb
    refine ⟨fun r hr => absurd hr (List.not_mem_nil r), fun k _ _ _ _ _ _ => ?_⟩
    simp [CommitReceipts]
  · have hne : batch.map some ≠ [] := by simpa using hb
    obtain ⟨item, b, hl, hdb⟩ := CommitReceipts_no_eviction env s (batch.map some) height size
      head tail hne hmax hp htail hok hnoev
    have hvalid := validReceipts_map_some batch hnonempty
    have her : ∀ r ∈ batch, env.codec.Encodes (some r) := by
      intro r hr
      exact henc.1 r (by rw [hvalid]; exact hr)
    have her2 := henc.1
    obtain ⟨_, _, hcase⟩ := getDBParams_ok env s.store size head tail hp
    -- the nodes written by the append phase, with distinct keys
    have hwritten : ∃ nodes : List (Bytes × EvmTxReceiptListItem),
        (appendPhase env.codec s.store size head tail item (batch.map some)).store =
          (nodes.foldl (writeNode env.codec) (s.store, size)).1 ∧
        (nodes.map Prod.fst).Nodup ∧
        (∀ x, x ∈ linkedTo [] batch → x ∈ nodes) ∧
        (∀ k, k ∈ nodes.map Prod.fst → k ∉ batch.map EvmTxReceipt.txHash →
          k = tail ∧ head ≠ [] ∧
          (tail, (⟨item.receipt, (batch.map EvmTxReceipt.txHash).headD []⟩ :
            EvmTxReceiptListItem)) ∈ nodes) := by
      rcases hcase with ⟨_, hh, ht⟩ | ⟨_, hh, ht, _, _⟩
      · subst hh; subst ht
        refine ⟨linkedTo [] batch, ?_, ?_, fun x hx => hx, ?_⟩
        · rw [appendPhase_fresh _ _ _ _ _ her2, hvalid]
        · rw [linkedTo_keys]; exact hdist
        · intro k hk hk2
          rw [linkedTo_keys] at hk
          exact absurd hk hk2
      · refine ⟨nodesToWrite tail item batch, ?_, ?_, ?_, ?_⟩
        · rw [appendPhase_linked _ _ _ _ _ _ _ hh ht (henc.item item hl hh) her2, hvalid]
        · simp only [nodesToWrite, List.map_cons, linkedTo_keys, List.nodup_cons]
          refine ⟨?_, hdist⟩
          intro hmem
          obtain ⟨r, hr, hrk⟩ := List.mem_map.mp hmem
          have h1 := hnew r hr
          rw [hrk] at h1
          exact htail hh (by simp [KV.get, h1])
        · intro x hx
          exact List.mem_cons_of_mem _ hx
        · intro k hk hk2
          simp only [nodesToWrite, List.map_cons, linkedTo_keys, List.mem_cons] at hk
          rcases hk with hk | hk
          · refine ⟨hk, hh, ?_⟩
            simp only [nodesToWrite]
            cases batch with
            | nil => exact absurd rfl hb
            | cons y ys => exact List.mem_cons_self _ _
          · exact absurd hk hk2
    obtain ⟨nodes, hstore, hnd, hsub, hrest⟩ := hwritten
    constructor
    · intro r hr
      obtain ⟨nx, hnx⟩ := mem_linkedTo [] batch r hr
      obtain ⟨h1, h2, h3, h4, h5⟩ := hkeys r hr
      have hval : (CommitReceipts env s (batch.map some) height).2.db r.txHash =
          some (env.codec.enc ⟨some r, nx⟩) := by
        rw [hdb, committedStore_other _ _ _ _ _ _ _ _ h1 h2 h3 h4 h5, hstore]
        exact foldl_writeNode_mem _ _ _ _ _ hnd (hsub _ hnx)
      rw [GetReceipt_of_node env _ _ _ _ hval (env.codec.enc_ne_nil r nx (her r hr))
        (env.codec.unmarshal_enc _ _ (her r hr))]
    · intro k hk h1 h2 h3 h4 h5
      have hknew : k ∉ batch.map EvmTxReceipt.txHash := by
        intro hmem
        obtain ⟨r, hr, hrk⟩ := List.mem_map.mp hmem
        have := hnew r hr
        rw [hrk, hclean] at this
        exact hk this
      have hval : (CommitReceipts env s (batch.map some) height).2.db k =
          (nodes.foldl (writeNode env.codec) (s.store, size)).1 k := by
        rw [hdb, committedStore_other _ _ _ _ _ _ _ _ h1 h2 h3 h4 h5, hstore]
      by_cases hkn : k ∈ nodes.map Prod.fst
      · obtain ⟨hkt, hh, hmem⟩ := hrest k hkn hknew
        subst hkt
        obtain ⟨hget, hun⟩ := loadTail_ok _ _ _ _ _ hh hl
        rw [foldl_writeNode_mem _ _ _ _ _ hnd hmem] at hval
        have hfirst : (batch.map EvmTxReceipt.txHash).headD [] ≠ [] := by
          cases batch with
          | nil => exact absurd rfl hb
          | cons y ys => exact hnonempty y (List.mem_cons_self _ _)
        rw [GetReceipt_of_node env _ _ _ _ hval
          (env.codec.enc_ne_nil_of_next _ _ (henc.item item hl hh) hfirst)
          (env.codec.unmarshal_enc _ _ (henc.item item hl hh))]
        cases hsk : s.db k with
        | none => exact absurd hsk hk
        | some b0 =>
          have hb0 : s.store.get k = b0 := by simp [KV.get, hclean, hsk]
          rw [hb0] at hget hun
          rw [GetReceipt_of_node env s k b0 item hsk hget hun]
      · rw [foldl_writeNode_other _ _ _ _ hkn] at hval
        apply GetReceipt_congr
        rw [hval, hclean]

/-- Witness of `CommitReceipts_then_GetReceipt`: on the store holding `a`, committing the
batch `b, c` makes `b` readable and leaves the lookup of `a` as it was. -/
theorem CommitReceipts_then_GetReceipt_witness :
    GetReceipt demoEnv
        (CommitReceipts demoEnv (CommitReceipts demoEnv (EvmAuxStore.init 5) [some rA] 10).2
          ([rB, rC].map some) 11).2 rB.txHash = Except.ok rB ∧
      GetReceipt demoEnv
        (CommitReceipts demoEnv (CommitReceipts demoEnv (EvmAuxStore.init 5) [some rA] 10).2
          ([rB, rC].map some) 11).2 [97] =
        GetReceipt demoEnv (CommitReceipts demoEnv (EvmAuxStore.init 5) [some rA] 10).2 [97] :=
  ⟨(CommitReceipts_then_GetReceipt demoEnv
      (CommitReceipts demoEnv (EvmAuxStore.init 5) [some rA] 10).2 [rB, rC] 11 1 [97] [97]
      (CommitReceipts_clean _ _ _ _ rfl) (by decide) (by decide) (by decide) (by decide)
      (by decide) (by decide) (by decide) (demoEnv_encodesCall _ _ _ _) (by decide)
      (by decide)).1 rB (by decide),
    (CommitReceipts_then_GetReceipt demoEnv
      (CommitReceipts demoEnv (EvmAuxStore.init 5) [some rA] 10).2 [rB, rC] 11 1 [97] [97]
      (CommitReceipts_clean _ _ _ _ rfl) (by decide) (by decide) (by decide) (by decide)
      (by decide) (by decide) (by decide) (demoEnv_encodesCall _ _ _ _) (by decide)
      (by decide)).2 [97] (by decide)
      (by decide) (by decide) (by decide) (by decide) (by decide)⟩

/-- Claim C8 as stated fails, in three ways. On the empty store the receipt `rK` has a
non-empty hash that is not a key of the store, the commit at height 10 succeeds with
resulting size 1 below the bound 5, and `GetReceipt` of that hash does not return the
receipt, because the hash list of height 10 is written under the same key. With
`maxReceipts = 0` the commit of `a` on the empty store succeeds with resulting size 0, and
`GetReceipt` of `a` finds nothing. And with a codec that fails on the receipt `rBad`, the
commit of the batch `rBad, c` (distinct non-empty hashes, not keys of the empty store)
succeeds with resulting size 0 below the bound 5, and `GetReceipt` finds neither receipt. -/
theorem GetReceipt_after_commit_not_found :
    (rK.txHash ≠ [] ∧ (EvmAuxStore.init 5).store rK.txHash = none ∧
      (CommitReceipts demoEnv (EvmAuxStore.init 5) [some rK] 10).1 = none ∧
      persistedSize demoEnv (CommitReceipts demoEnv (EvmAuxStore.init 5) [some rK] 10).2.db =
        1 ∧
      GetReceipt demoEnv (CommitReceipts demoEnv (EvmAuxStore.init 5) [some rK] 10).2
        rK.txHash = Except.error Err.protoDecode) ∧
    (rA.txHash ≠ [] ∧ (EvmAuxStore.init 0).store rA.txHash = none ∧
      (CommitReceipts demoEnv (EvmAuxStore.init 0) [some rA] 10).1 = none ∧
      persistedSize demoEnv (CommitReceipts demoEnv (EvmAuxStore.init 0) [some rA] 10).2.db =
        0 ∧
      GetReceipt demoEnv (CommitReceipts demoEnv (EvmAuxStore.init 0) [some rA] 10).2
        rA.txHash = Except.error ErrTxReceiptNotFound) ∧
    (([rBad, rC].map EvmTxReceipt.txHash).Nodup ∧ rBad.txHash ≠ [] ∧ rC.txHash ≠ [] ∧
      (EvmAuxStore.init 5).store rBad.txHash = none ∧
      (EvmAuxStore.init 5).store rC.txHash = none ∧
      (CommitReceipts strictEnv (EvmAuxStore.init 5) [some rBad, some rC] 10).1 = none ∧
      persistedSize strictEnv
        (CommitReceipts strictEnv (EvmAuxStore.init 5) [some rBad, some rC] 10).2.db = 0 ∧
      GetReceipt strictEnv (CommitReceipts strictEnv (EvmAuxStore.init 5) [some rBad, some rC]
        10).2 rBad.txHash = Except.error ErrTxReceiptNotFound ∧
      GetReceipt strictEnv (CommitReceipts strictEnv (EvmAuxStore.init 5) [some rBad, some rC]
        10).2 rC.txHash = Except.error ErrTxReceiptNotFound) := by
  refine ⟨⟨by decide, by decide, by decide, by decide, ?_⟩,
    ⟨by decide, by decide, by decide, by decide, ?_⟩,
    ⟨by decide, by decide, by decide, by decide, by decide, by decide, by decide, ?_, ?_⟩⟩
  · rfl
  · rfl
  · rfl
  · rfl

/-! ## The retained list as an invariant of commits -/

theorem GoodHashes.sublist {env : Env} {xs ys : List EvmTxReceipt} (h : GoodHashes env ys)
    (hs : xs.Sublist ys) : GoodHashes env xs :=
  ⟨h.nodup.sublist (hs.map _), fun r hr => h.nonempty r (hs.subset hr),
    fun r hr => h.keyfree r (hs.subset hr)⟩

theorem getLastD_append {α : Type} (xs ys : List α) (d : α) :
    (xs ++ ys).getLastD d = ys.getLastD (xs.getLastD d) := by
  simp only [List.getLastD_eq_getLast?, List.getLast?_append]
  cases ys.getLast? <;> rfl

theorem tailOf_append (xs ys : List EvmTxReceipt) :
    tailOf (xs ++ ys) = (ys.map EvmTxReceipt.txHash).getLastD (tailOf xs) := by
  simp only [tailOf, List.map_append]
  exact getLastD_append _ _ _

theorem headOf_append (xs ys : List EvmTxReceipt) :
    headOf (xs ++ ys) = (xs.map EvmTxReceipt.txHash).headD (headOf ys) := by
  cases xs with
  | nil => rfl
  | cons x xs => rfl

theorem headOf_ne_nil {env : Env} {rs : List EvmTxReceipt} (h : GoodHashes env rs)
    (hne : rs ≠ []) : headOf rs ≠ [] := by
  cases rs with
  | nil => exact absurd rfl hne
  | cons r rs => exact h.nonempty r (List.mem_cons_self _ _)

theorem linkedTo_snoc (fin : Bytes) (xs : List EvmTxReceipt) (t : EvmTxReceipt) :
    linkedTo fin (xs ++ [t]) = linkedTo t.txHash xs ++ [(t.txHash, ⟨some t, fin⟩)] := by
  rw [linkedTo_append]
  rfl

theorem linkedTo_snoc_append (xs ys : List EvmTxReceipt) (t : EvmTxReceipt) :
    linkedTo [] (xs ++ [t] ++ ys) =
      linkedTo t.txHash xs ++ nodesToWrite t.txHash ⟨some t, []⟩ ys := by
  rw [linkedTo_append, linkedTo_snoc]
  simp [nodesToWrite]

theorem Inv.absent {env : Env} {M : Nat} {s : EvmAuxStore} {kept batch : List EvmTxReceipt}
    (hinv : Inv env M s kept) (hgood : GoodHashes env (kept ++ batch))
    (r : EvmTxReceipt) (hr : r ∈ batch) : s.db r.txHash = none := by
  by_contra hne
  rcases hinv.keys _ hne with h | h
  · have hnd := hgood.nodup
    rw [List.map_append] at hnd
    exact (List.nodup_append.mp hnd).2.2 h (List.mem_map_of_mem _ hr)
  · exact h (hgood.keyfree r (List.mem_append_right _ hr))

/-- The append phase of a commit on a store that holds the list `kept`, for a non-empty
batch of fresh receipts: the store then holds the list `kept ++ batch`. -/
theorem appendPhase_inv (env : Env) (M : Nat) (s : EvmAuxStore)
    (kept batch : List EvmTxReceipt) (hinv : Inv env M s kept)
    (hgood : GoodHashes env (kept ++ batch))
    (hent : ∀ t, kept.getLast? = some t → env.codec.Encodes (some t))
    (her : ∀ r ∈ batch, env.codec.Encodes (some r))
    (hsum : kept.length + batch.length < 2 ^ 64) :
    ∃ item, loadTail env.codec s.store (headOf kept) (tailOf kept) = Except.ok item ∧
      (appendPhase env.codec s.store kept.length (headOf kept) (tailOf kept) item
        (batch.map some)).size = kept.length + batch.length ∧
      (appendPhase env.codec s.store kept.length (headOf kept) (tailOf kept) item
        (batch.map some)).headHash = headOf (kept ++ batch) ∧
      (appendPhase env.codec s.store kept.length (headOf kept) (tailOf kept) item
        (batch.map some)).tailHash = tailOf (kept ++ batch) ∧
      (appendPhase env.codec s.store kept.length (headOf kept) (tailOf kept) item
        (batch.map some)).txHashArray = successHashes batch ∧
      NodesStored env.codec (appendPhase env.codec s.store kept.length (headOf kept)
        (tailOf kept) item (batch.map some)).store (linkedTo [] (kept ++ batch)) ∧
      ∀ k, (appendPhase env.codec s.store kept.length (headOf kept) (tailOf kept) item
          (batch.map some)).store k ≠ none →
        s.db k ≠ none ∨ k ∈ (kept ++ batch).map EvmTxReceipt.txHash := by
  have hclean := hinv.clean
  have hbgood : GoodHashes env batch := hgood.sublist (List.sublist_append_right _ _)
  have hvalid := validReceipts_map_some batch hbgood.nonempty
  have her2 : ∀ r ∈ validReceipts (batch.map some), env.codec.Encodes (some r) := by
    rw [hvalid]; exact her
  have habsent : ∀ k ∈ batch.map EvmTxReceipt.txHash, s.store k = none := by
    intro k hk
    obtain ⟨r, hr, hrk⟩ := List.mem_map.mp hk
    rw [← hrk, hclean]
    exact hinv.absent hgood r hr
  have hp : getDBParams env s.store =
      (kept.length, headOf kept, tailOf kept, none) := by rw [hclean]; exact hinv.params
  have hcount : newKeyCount s.store (batch.map EvmTxReceipt.txHash) = batch.length := by
    rw [newKeyCount_all_new _ _ hbgood.nodup habsent, List.length_map]
  have hlast : (batch.map EvmTxReceipt.txHash).getLastD (tailOf kept) =
      tailOf (kept ++ batch) := (tailOf_append kept batch).symm
  rcases List.eq_nil_or_concat kept with hk | ⟨init, t, hk⟩
  · subst hk
    refine ⟨⟨none, []⟩, by simp [loadTail, headOf], ?_⟩
    have hform := appendPhase_fresh env.codec s.store 0 ⟨none, []⟩ (batch.map some) her2
    rw [hvalid] at hform
    simp only [List.length_nil, headOf, tailOf, List.map_nil, List.headD_nil,
      List.getLastD_nil, List.nil_append, Nat.zero_add] at hform ⊢
    rw [hform]
    refine ⟨?_, rfl, rfl, rfl, ?_, ?_⟩
    · simp only
      rw [foldl_writeNode_size _ _ _ _ (by norm_num), linkedTo_keys, hcount,
        Nat.zero_add, Nat.mod_eq_of_lt (by simpa using hsum)]
    · intro k it hmem
      obtain ⟨r, hr, _, hi⟩ := mem_linkedTo_receipt _ _ _ _ hmem
      refine ⟨_, foldl_writeNode_mem _ _ _ _ _ ?_ hmem,
        env.codec.unmarshal_enc_item it (by rw [hi]; exact her r hr)⟩
      rw [linkedTo_keys]; exact hbgood.nodup
    · intro k hk
      by_cases hmem : k ∈ (linkedTo [] batch).map Prod.fst
      · right; rw [linkedTo_keys] at hmem; exact hmem
      · left
        simp only at hk
        rw [foldl_writeNode_other _ _ _ _ hmem] at hk
        rw [← hclean]; exact hk
  · rw [List.concat_eq_append] at hk
    subst hk
    have hkgood : GoodHashes env (init ++ [t]) := hgood.sublist (List.sublist_append_left _ _)
    have hhead : headOf (init ++ [t]) ≠ [] := headOf_ne_nil hkgood (by simp)
    have htl : tailOf (init ++ [t]) = t.txHash := by simp [tailOf]
    have ht : t.txHash ≠ [] := hkgood.nonempty t (by simp)
    obtain ⟨b0, hb0, hu0⟩ := hinv.nodes t.txHash ⟨some t, []⟩ (by
      rw [linkedTo_snoc]; simp)
    have hb0ne : b0 ≠ [] := env.codec.ne_nil_of_unmarshal_some b0 t [] hu0
    have hget : s.store.get t.txHash = b0 := by simp [KV.get, hclean, hb0]
    have hl : loadTail env.codec s.store (headOf (init ++ [t])) (tailOf (init ++ [t])) =
        Except.ok ⟨some t, []⟩ := by
      have h1 : (headOf (init ++ [t])).length > 0 := List.length_pos.mpr hhead
      have h2 : ¬ b0.length = 0 := fun h0 => hb0ne (List.length_eq_zero.mp h0)
      simp [loadTail, h1, htl, hget, h2, hu0]
    refine ⟨⟨some t, []⟩, hl, ?_⟩
    have het : env.codec.Encodes (some t) := hent t (by simp)
    have hsize := appendPhase_size env s.store _ _ _ ⟨some t, []⟩ (batch.map some) hp
      (fun _ => by rw [htl, hget]; exact hb0ne) (fun _ => het) her2
    rw [hvalid, hcount, Nat.mod_eq_of_lt hsum] at hsize
    have hform := appendPhase_linked env.codec s.store (init ++ [t]).length
      (headOf (init ++ [t])) (tailOf (init ++ [t])) ⟨some t, []⟩ (batch.map some) hhead
      (by rw [htl]; exact ht) het her2
    rw [hvalid] at hform
    have hnd : ((nodesToWrite t.txHash ⟨some t, []⟩ batch).map Prod.fst).Nodup := by
      have h := hgood.nodup
      rw [List.append_assoc, List.map_append] at h
      have h2 := (List.nodup_append.mp h).2.1
      simpa [nodesToWrite, linkedTo_keys] using h2
    have hdisj : ∀ k, k ∈ init.map EvmTxReceipt.txHash →
        k ∉ (nodesToWrite t.txHash ⟨some t, []⟩ batch).map Prod.fst := by
      intro k hk1 hk2
      have h := hgood.nodup
      rw [List.append_assoc, List.map_append] at h
      refine (List.nodup_append.mp h).2.2 hk1 ?_
      simpa [nodesToWrite, linkedTo_keys] using hk2
    refine ⟨hsize, ?_, ?_, ?_, ?_, ?_⟩
    · rw [hform]
      simp only
      rw [List.append_assoc, headOf_append, headOf_append]
      cases init with
      | nil => rfl
      | cons x xs => rfl
    · rw [hform]; exact hlast
    · rw [hform]
    · rw [hform]
      simp only
      rw [htl, linkedTo_snoc_append]
      intro k it hmem
      rcases List.mem_append.mp hmem with h | h
      · have hk1 := mem_linkedTo_key _ _ _ _ h
        rw [foldl_writeNode_other _ _ _ _ (hdisj k hk1), hclean]
        exact hinv.nodes k it (by rw [linkedTo_snoc]; exact List.mem_append_left _ h)
      · refine ⟨_, foldl_writeNode_mem _ _ _ _ _ hnd h, env.codec.unmarshal_enc_item it ?_⟩
        rcases mem_nodesToWrite_receipt _ _ _ _ _ h with hi | ⟨r, hr, hi⟩
        · rw [hi]; exact het
        · rw [hi]; exact her r hr
    · rw [hform]
      simp only
      rw [htl]
      intro k hk
      by_cases hmem : k ∈ (nodesToWrite t.txHash ⟨some t, []⟩ batch).map Prod.fst
      · right
        simp only [nodesToWrite, List.map_cons, linkedTo_keys, List.mem_cons] at hmem
        simp only [List.map_append, List.mem_append, List.map_cons, List.map_nil,
          List.mem_singleton]
        rcases hmem with h | h
        · left; right; exact h
        · right; exact h
      · left
        rw [foldl_writeNode_other _ _ _ _ hmem] at hk
        rw [← hclean]; exact hk

theorem getDBParams_of_meta (env : Env) (st : KV) (sz : Nat) (h t : Bytes)
    (hsz : st env.currentDbSizeKey = some (putUint64 sz)) (hlt : sz < 2 ^ 64) (h0 : sz ≠ 0)
    (hh : st env.headKey = some h) (hhne : h ≠ []) (ht : st env.tailKey = some t)
    (htne : t ≠ []) : getDBParams env st = (sz, h, t, none) := by
  have h8 : ¬ (putUint64 sz).length < 8 := by simp [putUint64, length_leBytes]
  have hval : uint64LE (putUint64 sz) = sz := by
    rw [uint64LE_putUint64, Nat.mod_eq_of_lt hlt]
  have h1 : ¬ h.length = 0 := fun e => hhne (List.length_eq_zero.mp e)
  have h2 : ¬ t.length = 0 := fun e => htne (List.length_eq_zero.mp e)
  simp [getDBParams, KV.has, KV.get, hsz, h8, hval, h0, hh, ht, h1, h2]

theorem Inv.rollback {env : Env} {M : Nat} {s : EvmAuxStore} {kept : List EvmTxReceipt}
    (hinv : Inv env M s kept) : Inv env M s.Rollback kept :=
  ⟨rfl, hinv.max, hinv.len, hinv.params, hinv.headRaw, hinv.nodes, hinv.keys⟩

theorem evict_inv (env : Env) (M : Nat) (ls : LoopState) (K : List EvmTxReceipt)
    (hgood : GoodHashes env K) (hsize : ls.size = K.length) (hhead : ls.headHash = headOf K)
    (hnodes : NodesStored env.codec ls.store (linkedTo [] K)) :
    evict env.codec M ls =
      Except.ok (fun k => if k ∈ (K.map EvmTxReceipt.txHash).take (K.length - M) then none
        else ls.store k, K.length - (K.length - M), headOf (K.drop (K.length - M))) := by
  unfold evict
  rw [hsize, hhead]
  by_cases hlt : M < K.length
  · have hchain := isChain_of_nodes env.codec ls.store K hnodes hgood.nonempty
    have hrem := removeOldEntries_on_chain env.codec ls.store (K.map EvmTxReceipt.txHash)
      (K.length - M) hchain hgood.nodup (by simp)
    have hnot : ¬ K.length < K.length - M := by omega
    simp only [hlt, if_true, headOf, hrem, hnot, if_false, List.map_drop]
  · have hz : K.length - M = 0 := by omega
    simp only [hlt, if_false, hz, List.take_zero, List.not_mem_nil, List.drop_zero, Nat.sub_zero]

/-- One call of `CommitReceipts` with a batch of fresh receipts on a store holding the list
`kept`: the call either commits, and the store holds the last `M` receipts of
`kept ++ batch`, or fails because the hash list cannot be encoded, and the store still
holds `kept`. -/
theorem commit_step_inv (env : Env) (M : Nat) (s : EvmAuxStore)
    (kept batch : List EvmTxReceipt) (height : Nat) (h0 : 0 < M) (hM : M < 2 ^ 64)
    (hinv : Inv env M s kept) (hgood : GoodHashes env (kept ++ batch))
    (hent : ∀ t, kept.getLast? = some t → env.codec.Encodes (some t))
    (her : ∀ r ∈ batch, env.codec.Encodes (some r))
    (hsum : kept.length + batch.length < 2 ^ 64) :
    ((CommitReceipts env s (batch.map some) height).1 = none ∧
        Inv env M (CommitReceipts env s (batch.map some) height).2
          ((kept ++ batch).drop (kept.length + batch.length - M))) ∨
      ((CommitReceipts env s (batch.map some) height).1 ≠ none ∧
        env.marshalTxHashList (successHashes batch) = none ∧
        Inv env M (CommitReceipts env s (batch.map some) height).2 kept) := by
  by_cases hb : batch = []
  · subst hb
    left
    have hz : kept.length + ([] : List EvmTxReceipt).length - M = 0 := by
      have := hinv.len
      simp only [List.length_nil, Nat.add_zero]
      omega
    have hc : CommitReceipts env s (List.map some []) height = (none, s) := by
      simp [CommitReceipts]
    rw [hc, hz]
    exact ⟨rfl, by simpa using hinv⟩
  · have hguard : ¬ ((batch.map some).length = 0 ∨ s.maxReceipts = 0) := by
      rw [hinv.max]
      simp only [List.length_map, not_or]
      exact ⟨fun h => hb (List.length_eq_zero.mp h), by omega⟩
    have hp : getDBParams env s.store =
        (kept.length, headOf kept, tailOf kept, none) := by
      rw [hinv.clean]; exact hinv.params
    obtain ⟨item, hl, hsize, hhead, htailh, htx, hnodes, hkeys⟩ :=
      appendPhase_inv env M s kept batch hinv hgood hent her hsum
    rw [CommitReceipts_of_steps env s (batch.map some) height _ _ _ item hguard hp hl]
    generalize appendPhase env.codec s.store kept.length (headOf kept) (tailOf kept) item
      (batch.map some) = ls at hsize hhead htailh htx hnodes hkeys ⊢
    have hlenK : (kept ++ batch).length = kept.length + batch.length := List.length_append _ _
    rw [hinv.max, evict_inv env M ls (kept ++ batch) hgood (by rw [hsize, hlenK]) hhead hnodes,
      htx, hlenK]
    simp only
    cases hm : env.marshalTxHashList (successHashes batch) with
    | none =>
      right
      exact ⟨by simp, rfl, hinv.rollback⟩
    | some b =>
      left
      refine ⟨rfl, ?_⟩
      simp only
      have hbpos : 0 < batch.length := List.length_pos.mpr hb
      have hn : kept.length + batch.length - M < (kept ++ batch).length := by
        rw [hlenK]; omega
      have hdropne : (kept ++ batch).drop (kept.length + batch.length - M) ≠ [] := by
        intro h
        have := congrArg List.length h
        simp only [List.length_drop, List.length_nil] at this
        omega
      have hdgood : GoodHashes env ((kept ++ batch).drop (kept.length + batch.length - M)) :=
        hgood.sublist (List.drop_sublist _ _)
      have hsplit : (kept ++ batch).map EvmTxReceipt.txHash =
          ((kept ++ batch).map EvmTxReceipt.txHash).take (kept.length + batch.length - M) ++
          ((kept ++ batch).drop (kept.length + batch.length - M)).map EvmTxReceipt.txHash := by
        rw [List.map_drop, List.take_append_drop]
      have hnd := hgood.nodup
      rw [hsplit] at hnd
      have hdisj := (List.nodup_append.mp hnd).2.2
      refine ⟨rfl, rfl, ?_, ?_, ?_, ?_, ?_⟩
      · simp only [List.length_drop]; omega
      · simp only [EvmAuxStore.ofKV]
        apply getDBParams_of_meta
        · rw [committedStore_size]
          congr 1
          simp only [List.length_drop, hlenK]
        · simp only [List.length_drop]; omega
        · simp only [List.length_drop]; omega
        · exact committedStore_head _ _ _ _ _ _ _
        · exact headOf_ne_nil hdgood hdropne
        · rw [committedStore_tail, htailh]
          congr 1
          simp only [tailOf, List.getLastD_eq_getLast?, List.map_drop, List.getLast?_drop]
          rw [if_neg (by simpa using hn)]
        · have hne2 := hdgood.nonempty
          have : tailOf ((kept ++ batch).drop (kept.length + batch.length - M)) ≠ [] := by
            obtain ⟨l, t, hlt⟩ := (List.eq_nil_or_concat _).resolve_left hdropne
            rw [hlt, List.concat_eq_append] at hne2 ⊢
            simp only [tailOf, List.map_append, List.map_cons, List.map_nil]
            rw [getLastD_append]
            exact hne2 t (by simp)
          exact this
      · simp only [EvmAuxStore.ofKV, KV.get, committedStore_head]
        rfl
      · intro k it hmem
        have hk := mem_linkedTo_key _ _ _ _ hmem
        rw [linkedTo_drop] at hmem
        obtain ⟨b1, hb1, hu1⟩ := hnodes k it (List.mem_of_mem_drop hmem)
        obtain ⟨r, hr, hrk⟩ := List.mem_map.mp hk
        obtain ⟨k1, k2, k3, k4⟩ := hdgood.keyfree r hr
        rw [hrk] at k1 k2 k3 k4
        refine ⟨b1, ?_, hu1⟩
        simp only [EvmAuxStore.ofKV]
        rw [committedStore_other _ _ _ _ _ _ _ _ k1 k2 k3 (k4 height).1 (k4 height).2]
        have hnot : k ∉ ((kept ++ batch).map EvmTxReceipt.txHash).take
            (kept.length + batch.length - M) := fun hin => hdisj hin hk
        simp only [hnot, if_false]
        exact hb1
      · intro k hk
        by_cases hfree : KeyFree env k
        · left
          obtain ⟨k1, k2, k3, k4⟩ := hfree
          simp only [EvmAuxStore.ofKV] at hk
          rw [committedStore_other _ _ _ _ _ _ _ _ k1 k2 k3 (k4 height).1 (k4 height).2] at hk
          by_cases hin : k ∈ ((kept ++ batch).map EvmTxReceipt.txHash).take
              (kept.length + batch.length - M)
          · exact absurd (if_pos hin) hk
          · simp only [hin, if_false] at hk
            have hK : k ∈ (kept ++ batch).map EvmTxReceipt.txHash := by
              rcases hkeys k hk with h | h
              · rcases hinv.keys k h with h2 | h2
                · rw [List.map_append]; exact List.mem_append_left _ h2
                · exact absurd ⟨k1, k2, k3, k4⟩ h2
              · exact h
            rw [hsplit] at hK
            rcases List.mem_append.mp hK with h | h
            · exact absurd h hin
            · exact h
        · right; exact hfree

/-! ## Runs of commits: the FIFO bound -/

theorem allReceipts_append (xs ys : List (List EvmTxReceipt × Nat)) :
    allReceipts (xs ++ ys) = allReceipts xs ++ allReceipts ys := by
  induction xs with
  | nil => rfl
  | cons x xs ih => simp [allReceipts, ih]

theorem allReceipts_take_sublist (calls : List (List EvmTxReceipt × Nat)) (k : Nat) :
    (allReceipts (calls.take k)).Sublist (allReceipts calls) := by
  have h := allReceipts_append (calls.take k) (calls.drop k)
  rw [List.take_append_drop] at h
  rw [h]
  exact List.sublist_append_left _ _

theorem drop_append_drop {α : Type} (log batch : List α) (M : Nat) :
    (log.drop (log.length - M) ++ batch).drop
        ((log.drop (log.length - M)).length + batch.length - M) =
      (log ++ batch).drop ((log ++ batch).length - M) := by
  have hidx : (log ++ batch).length - M =
      (log.length - M) + ((log.drop (log.length - M)).length + batch.length - M) := by
    simp only [List.length_append, List.length_drop]
    omega
  rw [hidx, ← List.drop_drop, List.drop_append_of_le_length (Nat.sub_le _ _)]

theorem Inv.init (env : Env) (M : Nat) : Inv env M (EvmAuxStore.init M) [] := by
  refine ⟨rfl, rfl, Nat.zero_le _, ?_, rfl, ?_, ?_⟩
  · simp [getDBParams, EvmAuxStore.init, KV.has, KV.empty, headOf, tailOf]
  · intro k it h
    simp [linkedTo] at h
  · intro k h
    exact absurd rfl h

/-- The invariant of a run of commits with fresh receipts: the store holds the last `M`
committed receipts, the committed receipts are among those passed, and they are all of
them when the hash list can always be encoded. -/
theorem commitAll_inv (env : Env) (M : Nat) (h0 : 0 < M) (hM : M < 2 ^ 64)
    (calls : List (List EvmTxReceipt × Nat)) :
    GoodHashes env (allReceipts calls) →
      (∀ r ∈ allReceipts calls, env.codec.Encodes (some r)) →
      (allReceipts calls).length < 2 ^ 64 →
      Inv env M (commitAll env M calls).1
          ((commitAll env M calls).2.drop ((commitAll env M calls).2.length - M)) ∧
        (commitAll env M calls).2.Sublist (allReceipts calls) ∧
        ((∀ l, env.marshalTxHashList l ≠ none) →
          (commitAll env M calls).2 = allReceipts calls) := by
  induction calls using List.reverseRecOn with
  | nil =>
    intro _ _ _
    exact ⟨by simpa [commitAll] using Inv.init env M, List.Sublist.refl _, fun _ => rfl⟩
  | append_singleton l a ih =>
    intro hgood henc htotal
    have hall : allReceipts (l ++ [a]) = allReceipts l ++ a.1 := by
      rw [allReceipts_append]; simp [allReceipts]
    rw [hall] at hgood henc htotal ⊢
    obtain ⟨hinv, hsub, hfull⟩ := ih (hgood.sublist (List.sublist_append_left _ _))
      (fun r hr => henc r (List.mem_append_left _ hr))
      (by rw [List.length_append] at htotal; omega)
    have hrun : commitAll env M (l ++ [a]) = commitStep env (commitAll env M l) a := by
      simp [commitAll, List.foldl_append]
    rw [hrun]
    generalize commitAll env M l = p at hinv hsub hfull ⊢
    obtain ⟨s, log⟩ := p
    simp only at hinv hsub hfull
    have hlb : (log ++ a.1).Sublist (allReceipts l ++ a.1) :=
      List.Sublist.append hsub (List.Sublist.refl _)
    have hgood2 : GoodHashes env (log.drop (log.length - M) ++ a.1) :=
      hgood.sublist ((List.Sublist.append (List.drop_sublist _ _) (List.Sublist.refl _)).trans hlb)
    have henc2 : ∀ r ∈ log.drop (log.length - M) ++ a.1, env.codec.Encodes (some r) :=
      fun r hr => henc r (((List.Sublist.append (List.drop_sublist _ _)
        (List.Sublist.refl _)).trans hlb).subset hr)
    have hsum : (log.drop (log.length - M)).length + a.1.length < 2 ^ 64 := by
      have h1 := hlb.length_le
      simp only [List.length_append, List.length_drop] at h1 htotal ⊢
      omega
    simp only [commitStep]
    rcases commit_step_inv env M s _ a.1 a.2 h0 hM hinv hgood2
        (fun t ht => henc2 t (List.mem_append_left _ (List.mem_of_getLast?_eq_some ht)))
        (fun r hr => henc2 r (List.mem_append_right _ hr)) hsum with
      ⟨hok, hinv2⟩ | ⟨herr, hm, hinv2⟩
    · rw [if_pos hok]
      refine ⟨?_, hlb, fun hf => ?_⟩
      · rw [drop_append_drop] at hinv2
        exact hinv2
      · rw [hfull hf]
    · rw [if_neg herr]
      refine ⟨hinv2, hsub.trans (List.sublist_append_left _ _), fun hf => ?_⟩
      exact absurd hm (hf _)

/-- Claim C1, amended. Start from the empty store with bound `M`, `0 < M < 2 ^ 64`, and run
any sequence of `CommitReceipts` calls whose receipts are non-nil and have pairwise
distinct, non-empty hashes, none equal to a metadata key or a per-height index key, fewer
than `2 ^ 64` receipts in all, and such that `proto.Marshal` fails on no list item of
these receipts. After each call (after the first `k` calls, for every `k`), with
`log` the receipts committed so far, the walk along the successor hashes from the
persisted head hash yields exactly the last `min log.length M` receipts of `log`, in
commit order, each linked to the next and the last one without successor, and the key of
every older receipt of `log` is absent from the store. The receipts committed so far are
those of the calls that returned no error, which are all calls when the per-height hash
list can always be encoded. -/
theorem fifo_retention (env : Env) (M : Nat) (h0 : 0 < M) (hM : M < 2 ^ 64)
    (calls : List (List EvmTxReceipt × Nat))
    (hgood : GoodHashes env (allReceipts calls))
    (henc : ∀ r ∈ allReceipts calls, env.codec.Encodes (some r))
    (htotal : (allReceipts calls).length < 2 ^ 64) (k : Nat) :
    (∀ fuel,
        ((commitAll env M (calls.take k)).2.drop
          ((commitAll env M (calls.take k)).2.length - M)).length < fuel →
        walk env.codec (commitAll env M (calls.take k)).1.db fuel
            ((commitAll env M (calls.take k)).1.db.get env.headKey) =
          linkedNodes ((commitAll env M (calls.take k)).2.drop
            ((commitAll env M (calls.take k)).2.length - M))) ∧
      ((commitAll env M (calls.take k)).2.drop
          ((commitAll env M (calls.take k)).2.length - M)).length =
        min (commitAll env M (calls.take k)).2.length M ∧
      (∀ r ∈ (commitAll env M (calls.take k)).2.take
          ((commitAll env M (calls.take k)).2.length - M),
        (commitAll env M (calls.take k)).1.db r.txHash = none) ∧
      ((∀ l, env.marshalTxHashList l ≠ none) →
        (commitAll env M (calls.take k)).2 = allReceipts (calls.take k)) := by
  have hsubl := allReceipts_take_sublist calls k
  obtain ⟨hinv, hsub, hfull⟩ := commitAll_inv env M h0 hM (calls.take k)
    (hgood.sublist hsubl) (fun r hr => henc r (hsubl.subset hr))
    (lt_of_le_of_lt hsubl.length_le htotal)
  generalize commitAll env M (calls.take k) = p at hinv hsub hfull ⊢
  obtain ⟨s, log⟩ := p
  simp only at hinv hsub hfull ⊢
  have hlog : GoodHashes env log := hgood.sublist (hsub.trans hsubl)
  have hkept : GoodHashes env (log.drop (log.length - M)) :=
    hlog.sublist (List.drop_sublist _ _)
  refine ⟨?_, ?_, ?_, hfull⟩
  · intro fuel hf
    rw [hinv.headRaw, linkedNodes_eq]
    exact walk_of_nodes env.codec s.db _ hinv.nodes hkept.nonempty fuel hf
  · simp only [List.length_drop]
    omega
  · intro r hr
    by_contra hne
    rcases hinv.keys _ hne with h | h
    · have hnd := hlog.nodup
      rw [← List.take_append_drop (log.length - M) log, List.map_append] at hnd
      exact (List.nodup_append.mp hnd).2.2 (List.mem_map_of_mem _ hr) h
    · exact h (hlog.keyfree r (List.mem_of_mem_take hr))

/-- Witness of `fifo_retention`: with bound 2, after committing `a, b` and then `c`, the
committed receipts are `a, b, c` and the walk from the head yields `b, c`. -/
theorem fifo_retention_witness :
    (commitAll demoEnv 2 ([([rA, rB], 10), ([rC], 11)].take 2)).2 = [rA, rB, rC] ∧
      walk demoEnv.codec (commitAll demoEnv 2 ([([rA, rB], 10), ([rC], 11)].take 2)).1.db 3
          ((commitAll demoEnv 2 ([([rA, rB], 10), ([rC], 11)].take 2)).1.db.get
            demoEnv.headKey) =
        linkedNodes [rB, rC] ∧
      ∀ fuel,
        ((commitAll demoEnv 2 ([([rA, rB], 10), ([rC], 11)].take 2)).2.drop
          ((commitAll demoEnv 2 ([([rA, rB], 10), ([rC], 11)].take 2)).2.length - 2)).length <
            fuel →
        walk demoEnv.codec (commitAll demoEnv 2 ([([rA, rB], 10), ([rC], 11)].take 2)).1.db fuel
            ((commitAll demoEnv 2 ([([rA, rB], 10), ([rC], 11)].take 2)).1.db.get
              demoEnv.headKey) =
          linkedNodes ((commitAll demoEnv 2 ([([rA, rB], 10), ([rC], 11)].take 2)).2.drop
            ((commitAll demoEnv 2 ([([rA, rB], 10), ([rC], 11)].take 2)).2.length - 2)) :=
  ⟨by decide, by decide,
    (fifo_retention demoEnv 2 (by decide) (by norm_num) [([rA, rB], 10), ([rC], 11)]
      ⟨by decide, by decide, by
        intro r hr
        simp only [allReceipts, List.append_nil, List.cons_append, List.nil_append,
          List.mem_cons, List.mem_singleton, List.not_mem_nil, or_false] at hr
        rcases hr with h | h | h <;> subst h <;>
          simp [KeyFree, demoEnv, rA, rB, rC]⟩
      (fun _ _ => demoCodec_encodes _) (by decide) 2).1⟩

/-- Claim C1 as stated fails. With a codec that fails on the receipt `rBad` and bound 5,
the single call with the batch `rBad, c` (non-nil receipts with distinct non-empty hashes
that are no metadata or index keys) returns success, so two receipts are committed; the
persisted head hash is the hash of `rBad`, but no node is stored under it or under the
hash of `c`, and the walk from the head yields nothing instead of the two receipts. With
the batch `a, rBad, c` the call returns success as well, and the walk from the head yields
the single node `a`, whose successor hash is that of `rBad`, under which nothing is
stored: neither the three receipts of the batch nor any list of committed receipts. -/
theorem fifo_retention_encoding_failure :
    ((CommitReceipts strictEnv (EvmAuxStore.init 5) ([rBad, rC].map some) 10).1 = none ∧
      (commitAll strictEnv 5 [([rBad, rC], 10)]).2 = [rBad, rC] ∧
      (commitAll strictEnv 5 [([rBad, rC], 10)]).1.db.get strictEnv.headKey = rBad.txHash ∧
      (commitAll strictEnv 5 [([rBad, rC], 10)]).1.db rBad.txHash = none ∧
      (commitAll strictEnv 5 [([rBad, rC], 10)]).1.db rC.txHash = none ∧
      walk strictEnv.codec (commitAll strictEnv 5 [([rBad, rC], 10)]).1.db 3
          ((commitAll strictEnv 5 [([rBad, rC], 10)]).1.db.get strictEnv.headKey) = [] ∧
      linkedNodes [rBad, rC] ≠ []) ∧
    ((CommitReceipts strictEnv (EvmAuxStore.init 5) ([rA, rBad, rC].map some) 10).1 = none ∧
      (commitAll strictEnv 5 [([rA, rBad, rC], 10)]).2 = [rA, rBad, rC] ∧
      walk strictEnv.codec (commitAll strictEnv 5 [([rA, rBad, rC], 10)]).1.db 4
          ((commitAll strictEnv 5 [([rA, rBad, rC], 10)]).1.db.get strictEnv.headKey) =
        [([97], ⟨some rA, [100]⟩)] ∧
      (commitAll strictEnv 5 [([rA, rBad, rC], 10)]).1.db rBad.txHash = none ∧
      linkedNodes [rA, rBad, rC] ≠ [([97], ⟨some rA, [100]⟩)] ∧
      linkedNodes [rA] ≠ [([97], ⟨some rA, [100]⟩)]) := by
  decide

/-! ## Point lookups and the guard of `CommitReceipts` -/

/-- Claim C16. `GetReceipt` returns `ErrTxReceiptNotFound` exactly when the committed store
holds no payload or an empty payload under the key `txHash`. Its result depends on the
value under that key only, and, being a function of the store object that returns nothing
but the result, it changes nothing in the store. -/
theorem GetReceipt_not_found_iff (env : Env) (s : EvmAuxStore) (txHash : Bytes) :
    (GetReceipt env s txHash = Except.error ErrTxReceiptNotFound ↔
        (s.db txHash = none ∨ s.db txHash = some [])) ∧
      ∀ s2 : EvmAuxStore, s2.db txHash = s.db txHash →
        GetReceipt env s2 txHash = GetReceipt env s txHash := by
  constructor
  · unfold GetReceipt KV.get
    cases hv : s.db txHash with
    | none => simp
    | some b =>
      cases b with
      | nil => simp
      | cons x xs =>
        simp only [Option.getD_some, List.length_cons, Nat.add_one_ne_zero, if_false]
        cases env.codec.unmarshal (x :: xs) with
        | none => simp [ErrTxReceiptNotFound]
        | some it =>
          obtain ⟨rc, nx⟩ := it
          cases rc with
          | none => simp [ErrTxReceiptNotFound]
          | some r => simp
  · intro s2 h
    exact GetReceipt_congr env s2 s txHash h

/-- Claim C18. If the batch is empty or `maxReceipts` is 0, `CommitReceipts` returns the nil
error and the store object is the one from before the call: the committed store and the
transaction view are unchanged, so no receipt node, no metadata and no per-height index is
written, whatever the prior state. -/
theorem CommitReceipts_noop (env : Env) (s : EvmAuxStore)
    (receipts : List (Option EvmTxReceipt)) (height : Nat)
    (h : receipts = [] ∨ s.maxReceipts = 0) :
    CommitReceipts env s receipts height = (none, s) := by
  have hg : receipts.length = 0 ∨ s.maxReceipts = 0 := by
    rcases h with h | h
    · left; rw [h]; rfl
    · right; exact h
  unfold CommitReceipts
  rw [if_pos hg]

/-- Witness of `CommitReceipts_noop`: with `maxReceipts = 0` the store holding `a -> b -> c`
is left as it is by a commit of `a`. -/
theorem CommitReceipts_noop_witness :
    ([some rA] = [] ∨ (EvmAuxStore.ofKV chainStore 0).maxReceipts = 0) ∧
      CommitReceipts demoEnv (EvmAuxStore.ofKV chainStore 0) [some rA] 10 =
        (none, EvmAuxStore.ofKV chainStore 0) :=
  ⟨Or.inr rfl, CommitReceipts_noop demoEnv (EvmAuxStore.ofKV chainStore 0) [some rA] 10
    (Or.inr rfl)⟩

/-! ## Block descriptors -/

/-- What a successful construction of the descriptor in `GetBlockByNumber` says about the
calls it made and the fields it set. -/
theorem blockInfo_ok (q : QueryEnv) (state : ReadOnlyState) (height : Nat) (full : Bool)
    (rr : ReadReceiptHandler) (bi : EthBlockInfo)
    (h : blockInfo q state height full rr = Except.ok bi) :
    ∃ br txHash, q.Block (toInt64 height) = Except.ok br ∧
      rr.GetTxHash state height = Except.ok txHash ∧
      bi.hash = br.hash ∧ bi.parentHash = br.parentHash ∧ bi.timestamp = br.timeUnix ∧
      bi.number = (if toUint64 state.blockHeight = height then 0 else toInt64 height) ∧
      (txHash = [] → bi.logsBloom = [] ∧ bi.transactions = []) ∧
      (txHash ≠ [] →
        rr.GetBloomFilter state height = Except.ok bi.logsBloom ∧
        (full = true → ∃ r p, rr.GetReceipt state txHash = Except.ok r ∧
          q.marshalReceipt r = Except.ok p ∧ bi.transactions = [p]) ∧
        (full = false → bi.transactions = [txHash])) := by
  unfold blockInfo at h
  cases hb : q.Block (toInt64 height) with
  | error e => rw [hb] at h; simp at h
  | ok br =>
    rw [hb] at h
    simp only at h
    cases ht : rr.GetTxHash state height with
    | error e => rw [ht] at h; simp at h
    | ok txHash =>
      rw [ht] at h
      simp only at h
      refine ⟨br, txHash, rfl, rfl, ?_⟩
      by_cases hlen : txHash.length > 0
      · have hne : txHash ≠ [] := List.length_pos.mp hlen
        rw [if_pos hlen] at h
        cases hbf : rr.GetBloomFilter state height with
        | error e => rw [hbf] at h; simp at h
        | ok bloom =>
          rw [hbf] at h
          simp only at h
          cases full with
          | false =>
            simp only [Bool.false_eq_true, if_false, Except.ok.injEq] at h
            subst h
            exact ⟨rfl, rfl, rfl, rfl, fun h0 => absurd h0 hne,
              fun _ => ⟨rfl, fun hf => by simp at hf, fun _ => rfl⟩⟩
          | true =>
            simp only [if_true] at h
            cases hr : rr.GetReceipt state txHash with
            | error e => rw [hr] at h; simp at h
            | ok r =>
              rw [hr] at h
              simp only at h
              cases hm : q.marshalReceipt r with
              | error e => rw [hm] at h; simp at h
              | ok p =>
                rw [hm] at h
                simp only [Except.ok.injEq] at h
                subst h
                exact ⟨rfl, rfl, rfl, rfl, fun h0 => absurd h0 hne,
                  fun _ => ⟨rfl, fun _ => ⟨r, p, rfl, hm, rfl⟩, fun hf => by simp at hf⟩⟩
      · have he : txHash = [] := by
          cases txHash with
          | nil => rfl
          | cons x xs => simp at hlen
        rw [if_neg hlen] at h
        simp only [Except.ok.injEq] at h
        subst h
        exact ⟨rfl, rfl, rfl, rfl, fun _ => ⟨rfl, rfl⟩, fun hne => absurd he hne⟩

theorem GetBlockByNumber_ok (q : QueryEnv) (state : ReadOnlyState) (height : Nat) (full : Bool)
    (rr : ReadReceiptHandler) (out : Bytes)
    (h : GetBlockByNumber q state height full rr = Except.ok out) :
    ∃ bi, blockInfo q state height full rr = Except.ok bi ∧
      q.marshalBlockInfo bi = Except.ok out := by
  unfold GetBlockByNumber at h
  cases hb : blockInfo q state height full rr with
  | error e => rw [hb] at h; simp at h
  | ok bi => rw [hb] at h; exact ⟨bi, rfl, h⟩

theorem toInt64_of_lt (n : Nat) (h : n < 2 ^ 63) : toInt64 n = (n : Int) := by
  have h1 : n % 2 ^ 64 = n := Nat.mod_eq_of_lt (by omega)
  unfold toInt64
  rw [h1, if_pos h]

/-- Claim C14. When `GetBlockByNumber` succeeds for a height in the range of block heights
(below `2 ^ 63`, so that `int64(height)` is the height), the result is the serialization
of a descriptor whose number is 0 if the height equals the current chain head height, and
is the height itself for every other height. -/
theorem GetBlockByNumber_number (q : QueryEnv) (state : ReadOnlyState) (height : Nat)
    (full : Bool) (rr : ReadReceiptHandler) (out : Bytes) (hh : height < 2 ^ 63)
    (h : GetBlockByNumber q state height full rr = Except.ok out) :
    ∃ bi, blockInfo q state height full rr = Except.ok bi ∧
      q.marshalBlockInfo bi = Except.ok out ∧
      (height = toUint64 state.blockHeight → bi.number = 0) ∧
      (height ≠ toUint64 state.blockHeight → bi.number = (height : Int)) := by
  obtain ⟨bi, hbi, hm⟩ := GetBlockByNumber_ok q state height full rr out h
  obtain ⟨_, _, _, _, _, _, _, hnum, _, _⟩ := blockInfo_ok q state height full rr bi hbi
  refine ⟨bi, hbi, hm, ?_, ?_⟩
  · intro he
    rw [hnum, if_pos he.symm]
  · intro hne
    rw [hnum, if_neg (fun he => hne he.symm), toInt64_of_lt height hh]

/-- Witness of `GetBlockByNumber_number`: with the chain head at height 3, the descriptor
of height 3 has number 0 and the descriptor of height 2 has number 2. -/
theorem GetBlockByNumber_number_witness :
    (∃ bi, blockInfo demoQuery demoState 3 false demoHandler = Except.ok bi ∧
      bi.number = 0) ∧
    (∃ bi, blockInfo demoQuery demoState 2 false demoHandler = Except.ok bi ∧
      bi.number = 2) := by
  obtain ⟨b3, h3, _, hz, _⟩ := GetBlockByNumber_number demoQuery demoState 3 false demoHandler
    _ (by norm_num) rfl
  obtain ⟨b2, h2, _, _, hn⟩ := GetBlockByNumber_number demoQuery demoState 2 false demoHandler
    _ (by norm_num) rfl
  exact ⟨⟨b3, h3, hz (by decide)⟩, ⟨b2, h2, hn (by decide)⟩⟩

/-- Claim C17. When `GetBlockByNumber` succeeds, the result is the serialization of a
descriptor such that, with `txHash` the result of the per-height tx-hash lookup: if
`txHash` is empty, the descriptor has no transactions and no logsBloom; if it is non-empty,
logsBloom is the filter that `GetBloomFilter` returns for the height, and the transactions
are the one serialized receipt that `GetReceipt` returns for `txHash` when `full` is true,
and the bare `txHash` when `full` is false. -/
theorem GetBlockByNumber_transactions (q : QueryEnv) (state : ReadOnlyState) (height : Nat)
    (full : Bool) (rr : ReadReceiptHandler) (out : Bytes)
    (h : GetBlockByNumber q state height full rr = Except.ok out) :
    ∃ bi txHash, blockInfo q state height full rr = Except.ok bi ∧
      q.marshalBlockInfo bi = Except.ok out ∧
      rr.GetTxHash state height = Except.ok txHash ∧
      (txHash = [] → bi.logsBloom = [] ∧ bi.transactions = []) ∧
      (txHash ≠ [] →
        rr.GetBloomFilter state height = Except.ok bi.logsBloom ∧
        (full = true → ∃ r p, rr.GetReceipt state txHash = Except.ok r ∧
          q.marshalReceipt r = Except.ok p ∧ bi.transactions = [p]) ∧
        (full = false → bi.transactions = [txHash])) := by
  obtain ⟨bi, hbi, hm⟩ := GetBlockByNumber_ok q state height full rr out h
  obtain ⟨_, txHash, _, ht, _, _, _, _, hempty, hfull⟩ :=
    blockInfo_ok q state height full rr bi hbi
  exact ⟨bi, txHash, hbi, hm, ht, hempty, hfull⟩

/-- Witness of `GetBlockByNumber_transactions`: at height 2, where the lookup gives the hash
`a`, the full descriptor carries the serialized receipt of `a` and the filter of the
height. -/
theorem GetBlockByNumber_transactions_witness :
    ∃ bi, blockInfo demoQuery demoState 2 true demoHandler = Except.ok bi ∧
      bi.logsBloom = [7] ∧ bi.transactions = [encReceipt rA] := by
  obtain ⟨bi, txHash, hbi, _, ht, _, hfull⟩ :=
    GetBlockByNumber_transactions demoQuery demoState 2 true demoHandler _ rfl
  have htx : txHash = [97] := by
    have : (Except.ok [97] : Except Err Bytes) = Except.ok txHash := ht
    simpa using this.symm
  subst htx
  obtain ⟨hbloom, hf, _⟩ := hfull (by decide)
  obtain ⟨r, p, hr, hp, htr⟩ := hf rfl
  have hr2 : (Except.ok rA : Except Err EvmTxReceipt) = Except.ok r := hr
  have hrA : r = rA := by simpa using hr2.symm
  subst hrA
  have hp2 : (Except.ok (encReceipt rA) : Except Err Bytes) = Except.ok p := hp
  have hpe : p = encReceipt rA := by simpa using hp2.symm
  have hb2 : (Except.ok [7] : Except Err Bytes) = Except.ok bi.logsBloom := hbloom
  exact ⟨bi, hbi, by simpa using hb2.symm, by rw [htr, hpe]⟩

/-! ## The per-height indexes and the metadata written by a commit -/

theorem validReceipts_eq_filter (receipts : List (Option EvmTxReceipt)) :
    validReceipts receipts =
      (receipts.filterMap id).filter (fun r => decide (r.txHash ≠ [])) := by
  induction receipts with
  | nil => rfl
  | cons x xs ih =>
    cases x with
    | none => simpa [validReceipts] using ih
    | some r =>
      by_cases hr : r.txHash = []
      · simp [validReceipts, hr, ih]
      · have hlen : ¬ r.txHash.length = 0 := fun h0 => hr (List.length_eq_zero.mp h0)
        simp [validReceipts, hr, hlen, ih]

theorem successHashes_eq_filter (rs : List EvmTxReceipt) :
    successHashes rs =
      (rs.filter (fun r => decide (r.status = StatusTxSuccess))).map EvmTxReceipt.txHash := by
  induction rs with
  | nil => rfl
  | cons r rs ih =>
    by_cases hs : r.status = StatusTxSuccess <;> simp [successHashes, hs, ih]

theorem allLogs_eq_flatten (rs : List EvmTxReceipt) :
    allLogs rs = (rs.map EvmTxReceipt.logs).flatten := by
  induction rs with
  | nil => rfl
  | cons r rs ih => simp [allLogs, ih]

theorem successHashes_valid (receipts : List (Option EvmTxReceipt)) :
    successHashes (validReceipts receipts) = specTxHashList receipts := by
  rw [successHashes_eq_filter, validReceipts_eq_filter, List.filter_filter]
  unfold specTxHashList
  congr 2
  funext r
  exact Bool.and_comm _ _

theorem allLogs_valid (receipts : List (Option EvmTxReceipt)) :
    allLogs (validReceipts receipts) = specEvents receipts := by
  rw [allLogs_eq_flatten, validReceipts_eq_filter]
  rfl

theorem committedStore_txHash (env : Env) (ls : LoopState) (st1 : KV) (sz1 : Nat) (h1 b : Bytes)
    (height : Nat) :
    committedStore env ls st1 sz1 h1 b height (env.txHashKey height) = some b := by
  unfold committedStore
  rw [KV.set_other _ _ _ _ (env.txHashKey_ne_bloomKey height)]
  simp

theorem committedStore_bloom (env : Env) (ls : LoopState) (st1 : KV) (sz1 : Nat) (h1 b : Bytes)
    (height : Nat) :
    committedStore env ls st1 sz1 h1 b height (env.bloomKey height) =
      some (env.genBloomFilter ls.events) := by
  simp [committedStore]

/-- A call of `CommitReceipts` with a non-empty batch and a positive bound that reads the
metadata without error, on a store that is empty or has its tail node, and that returns
the nil error, went through every step and committed `committedStore`. -/
theorem CommitReceipts_committed (env : Env) (s : EvmAuxStore)
    (receipts : List (Option EvmTxReceipt)) (height : Nat) (size : Nat) (head tail : Bytes)
    (hne : receipts ≠ []) (hmax : 0 < s.maxReceipts)
    (hp : getDBParams env s.store = (size, head, tail, none))
    (htail : head ≠ [] → s.store.get tail ≠ [])
    (hok : (CommitReceipts env s receipts height).1 = none) :
    ∃ item st1 sz1 h1 b, loadTail env.codec s.store head tail = Except.ok item ∧
      evict env.codec s.maxReceipts
        (appendPhase env.codec s.store size head tail item receipts) =
          Except.ok (st1, sz1, h1) ∧
      env.marshalTxHashList
        (appendPhase env.codec s.store size head tail item receipts).txHashArray = some b ∧
      (CommitReceipts env s receipts height).2.db =
        committedStore env (appendPhase env.codec s.store size head tail item receipts)
          st1 sz1 h1 b height := by
  have hguard : ¬ (receipts.length = 0 ∨ s.maxReceipts = 0) := by
    intro h
    rcases h with h | h
    · exact hne (List.length_eq_zero.mp h)
    · omega
  cases hl : loadTail env.codec s.store head tail with
  | error e =>
    rw [CommitReceipts_of_loadTail_error env s receipts height size head tail e hguard hp hl]
      at hok
    exact absurd hok (loadTail_ok_of_present _ _ _ _ _ htail hl)
  | ok item =>
    rw [CommitReceipts_of_steps env s receipts height size head tail item hguard hp hl]
      at hok ⊢
    cases he : evict env.codec s.maxReceipts
        (appendPhase env.codec s.store size head tail item receipts) with
    | error e =>
      rw [he] at hok
      simp only at hok
      subst hok
      exact absurd he (evict_nil_error_impossible _ _ _)
    | ok r =>
      obtain ⟨st1, sz1, h1⟩ := r
      rw [he] at hok
      simp only at hok
      cases hm : env.marshalTxHashList
          (appendPhase env.codec s.store size head tail item receipts).txHashArray with
      | none => rw [hm] at hok; simp at hok
      | some b =>
        refine ⟨item, st1, sz1, h1, b, rfl, he, hm, ?_⟩
        rfl

/-- The variables after the append phase, for metadata that read without error. -/
theorem appendPhase_fields (env : Env) (st : KV) (size : Nat) (head tail : Bytes)
    (item : EvmTxReceiptListItem) (receipts : List (Option EvmTxReceipt))
    (hp : getDBParams env st = (size, head, tail, none))
    (het : head ≠ [] → env.codec.Encodes item.receipt)
    (her : ∀ r ∈ validReceipts receipts, env.codec.Encodes (some r)) :
    (appendPhase env.codec st size head tail item receipts).txHashArray =
        successHashes (validReceipts receipts) ∧
      (appendPhase env.codec st size head tail item receipts).events =
        allLogs (validReceipts receipts) ∧
      (appendPhase env.codec st size head tail item receipts).tailHash =
        ((validReceipts receipts).map EvmTxReceipt.txHash).getLastD tail ∧
      (appendPhase env.codec st size head tail item receipts).headHash =
        (if head = [] then ((validReceipts receipts).map EvmTxReceipt.txHash).headD []
          else head) ∧
      ∃ nodes : List (Bytes × EvmTxReceiptListItem),
        (appendPhase env.codec st size head tail item receipts).store =
          ((nodes ++ linkedTo [] (validReceipts receipts)).foldl (writeNode env.codec)
            (st, size)).1 := by
  obtain ⟨_, _, hcase⟩ := getDBParams_ok env st size head tail hp
  rcases hcase with ⟨_, hh, ht⟩ | ⟨_, hh, ht, _, _⟩
  · subst hh; subst ht
    rw [appendPhase_fresh _ _ _ _ _ her]
    exact ⟨rfl, rfl, rfl, by simp, [], rfl⟩
  · rw [appendPhase_linked _ _ _ _ _ _ _ hh ht (het hh) her]
    refine ⟨rfl, rfl, rfl, by simp [hh], [(tail, ⟨item.receipt,
      ((validReceipts receipts).map EvmTxReceipt.txHash).headD item.nextTxHash⟩)], rfl⟩

/-- Claim C11, amended. Take a call of `CommitReceipts` with a non-empty batch and a
positive bound that reads the metadata without error, on a store that is empty or has its
tail node, such that `proto.Marshal` fails on no list item of the call (`EncodesCall`: the
items of the receipts of the batch and of the stored tail node), and that returns success.
It persists under the tx-hash-list key of `height` the encoding of exactly the list of the
hashes, in input order, of those receipts of the batch that are present, have a non-empty
hash and have status success. A hash is in that list exactly when it is the hash of such a
receipt: a failed receipt contributes no entry, and its hash appears only when a successful
receipt of the batch carries the same hash. -/
theorem CommitReceipts_txHashList (env : Env) (s : EvmAuxStore)
    (receipts : List (Option EvmTxReceipt)) (height : Nat) (size : Nat) (head tail : Bytes)
    (hne : receipts ≠ []) (hmax : 0 < s.maxReceipts)
    (hp : getDBParams env s.store = (size, head, tail, none))
    (htail : head ≠ [] → s.store.get tail ≠ [])
    (henc : EncodesCall env.codec s.store head tail receipts)
    (hok : (CommitReceipts env s receipts height).1 = none) :
    (∃ b, (CommitReceipts env s receipts height).2.db (env.txHashKey height) = some b ∧
        env.marshalTxHashList (specTxHashList receipts) = some b) ∧
      (specTxHashList receipts).Sublist
        ((receipts.filterMap id).map EvmTxReceipt.txHash) ∧
      ∀ h, h ∈ specTxHashList receipts ↔
        ∃ r, some r ∈ receipts ∧ r.txHash ≠ [] ∧ r.status = StatusTxSuccess ∧ r.txHash = h := by
  obtain ⟨item, st1, sz1, h1, b, hl, _, hm, hdb⟩ :=
    CommitReceipts_committed env s receipts height size head tail hne hmax hp htail hok
  have hf := (appendPhase_fields env s.store size head tail item receipts hp
    (henc.item item hl) henc.1).1
  rw [hf, successHashes_valid] at hm
  refine ⟨⟨b, ?_, hm⟩, ?_, ?_⟩
  · rw [hdb, committedStore_txHash]
  · exact (List.filter_sublist _).map _
  · intro h
    simp only [specTxHashList, List.mem_map, List.mem_filter, List.mem_filterMap, id,
      Bool.and_eq_true, decide_eq_true_eq]
    constructor
    · rintro ⟨r, ⟨⟨x, hx, hxr⟩, h1, h2⟩, h3⟩
      subst hxr
      exact ⟨r, hx, h1, h2, h3⟩
    · rintro ⟨r, hr, h1, h2, h3⟩
      exact ⟨r, ⟨⟨some r, hr, rfl⟩, h1, h2⟩, h3⟩

/-- Witness of `CommitReceipts_txHashList`: the batch `a` (success), `b` (failed), nil, `c`
(success) at height 10 persists the list `a, c`. -/
theorem CommitReceipts_txHashList_witness :
    specTxHashList [some rA, some rB, none, some rC] = [[97], [99]] ∧
      ∃ b, (CommitReceipts demoEnv (EvmAuxStore.init 5) [some rA, some rB, none, some rC]
          10).2.db (demoEnv.txHashKey 10) = some b ∧
        demoEnv.marshalTxHashList (specTxHashList [some rA, some rB, none, some rC]) =
          some b :=
  ⟨by decide,
    (CommitReceipts_txHashList demoEnv (EvmAuxStore.init 5) [some rA, some rB, none, some rC]
      10 0 [] [] (by decide) (by decide) (by decide) (by decide) (demoEnv_encodesCall _ _ _ _)
      (by decide)).1⟩

/-- Claim C11 as stated fails, in two ways. With a codec that fails on the receipt `rBad`,
the commit of the batch `rBad, c` (both with status success) on the empty store returns
success and persists the hash list holding the hash of `rBad` only, not the two hashes:
`c` is skipped when the node of `rBad` cannot be encoded. And with the concrete codec, the
batch of a failed receipt and a successful receipt that share the hash `a` persists the
list `a`, so the hash of a failed receipt does appear in it. -/
theorem CommitReceipts_txHashList_incomplete :
    ((CommitReceipts strictEnv (EvmAuxStore.init 5) [some rBad, some rC] 10).1 = none ∧
      specTxHashList [some rBad, some rC] = [[100], [99]] ∧
      (CommitReceipts strictEnv (EvmAuxStore.init 5) [some rBad, some rC] 10).2.db
        (strictEnv.txHashKey 10) = strictEnv.marshalTxHashList [[100]] ∧
      strictEnv.marshalTxHashList [[100]] ≠ strictEnv.marshalTxHashList [[100], [99]]) ∧
    ((CommitReceipts demoEnv (EvmAuxStore.init 5) [some ⟨[97], 0, []⟩, some rA] 10).1 = none ∧
      (CommitReceipts demoEnv (EvmAuxStore.init 5) [some ⟨[97], 0, []⟩, some rA] 10).2.db
        (demoEnv.txHashKey 10) = demoEnv.marshalTxHashList [[97]]) := by
  decide

/-- Claim C20, amended. In a call of `CommitReceipts` as in claim C11 (non-empty batch,
positive bound, metadata read without error, store empty or with its tail node,
`proto.Marshal` failing on no list item of the call, success returned), the event sequence
from which the per-height bloom filter is built is the concatenation, in input order, of
the logs of every receipt of the batch that is present and has a non-empty hash, whatever
its status, and the filter generated from that sequence is what the call persists under
the bloom key of `height`. The selection of the logs does not look at the status, while the tx-hash list
keeps the hashes of the successful receipts only. -/
theorem CommitReceipts_bloom_events (env : Env) (s : EvmAuxStore)
    (receipts : List (Option EvmTxReceipt)) (height : Nat) (size : Nat) (head tail : Bytes)
    (hne : receipts ≠ []) (hmax : 0 < s.maxReceipts)
    (hp : getDBParams env s.store = (size, head, tail, none))
    (htail : head ≠ [] → s.store.get tail ≠ [])
    (henc : EncodesCall env.codec s.store head tail receipts)
    (hok : (CommitReceipts env s receipts height).1 = none) :
    (∃ item, loadTail env.codec s.store head tail = Except.ok item ∧
        (appendPhase env.codec s.store size head tail item receipts).events =
          specEvents receipts ∧
        (appendPhase env.codec s.store size head tail item receipts).txHashArray =
          specTxHashList receipts) ∧
      (CommitReceipts env s receipts height).2.db (env.bloomKey height) =
        some (env.genBloomFilter (specEvents receipts)) ∧
      ∀ r, some r ∈ receipts → r.txHash ≠ [] → ∀ e ∈ r.logs, e ∈ specEvents receipts := by
  obtain ⟨item, st1, sz1, h1, b, hl, _, _, hdb⟩ :=
    CommitReceipts_committed env s receipts height size head tail hne hmax hp htail hok
  obtain ⟨htx, hev, _⟩ := appendPhase_fields env s.store size head tail item receipts hp
    (henc.item item hl) henc.1
  rw [successHashes_valid] at htx
  rw [allLogs_valid] at hev
  refine ⟨⟨item, hl, hev, htx⟩, ?_, ?_⟩
  · rw [hdb, committedStore_bloom, hev]
  · intro r hr hne2 e he
    simp only [specEvents, List.mem_flatten, List.mem_map, List.mem_filter,
      List.mem_filterMap, id, decide_eq_true_eq]
    exact ⟨r.logs, ⟨r, ⟨⟨some r, hr, rfl⟩, hne2⟩, rfl⟩, he⟩

/-- Witness of `CommitReceipts_bloom_events`: the logs of the failed receipt `b` are part of
the event sequence of the batch `a, b`, while its hash is not in the tx-hash list. -/
theorem CommitReceipts_bloom_events_witness :
    specEvents [some rA, some ⟨[98], 0, [⟨[[70]], []⟩]⟩] = [⟨[[84, 49]], []⟩, ⟨[[70]], []⟩] ∧
      specTxHashList [some rA, some ⟨[98], 0, [⟨[[70]], []⟩]⟩] = [[97]] ∧
      (CommitReceipts demoEnv (EvmAuxStore.init 5) [some rA, some ⟨[98], 0, [⟨[[70]], []⟩]⟩]
          10).2.db (demoEnv.bloomKey 10) =
        some (demoEnv.genBloomFilter (specEvents [some rA, some ⟨[98], 0, [⟨[[70]], []⟩]⟩])) :=
  ⟨by decide, by decide,
    (CommitReceipts_bloom_events demoEnv (EvmAuxStore.init 5)
      [some rA, some ⟨[98], 0, [⟨[[70]], []⟩]⟩] 10 0 [] [] (by decide) (by decide) (by decide)
      (by decide) (demoEnv_encodesCall _ _ _ _) (by decide)).2.1⟩

/-- Claim C20 as stated fails. With a codec that fails on the receipt `rBad`, the commit of
the batch `rBad, a` on the empty store returns success, but the event sequence of the loop
and the persisted filter are built from the logs of `rBad` only: `a`, which has a
non-empty hash, is skipped when the node of `rBad` cannot be encoded, and its logs are
left out. -/
theorem CommitReceipts_bloom_events_incomplete :
    (CommitReceipts strictEnv (EvmAuxStore.init 5) [some rBad, some rA] 10).1 = none ∧
      specEvents [some rBad, some rA] = rBad.logs ++ rA.logs ∧
      (appendPhase strictEnv.codec (EvmAuxStore.init 5).store 0 [] [] ⟨none, []⟩
        [some rBad, some rA]).events = rBad.logs ∧
      (CommitReceipts strictEnv (EvmAuxStore.init 5) [some rBad, some rA] 10).2.db
        (strictEnv.bloomKey 10) = some (strictEnv.genBloomFilter rBad.logs) ∧
      strictEnv.genBloomFilter rBad.logs ≠
        strictEnv.genBloomFilter (specEvents [some rBad, some rA]) := by
  decide

theorem foldl_writeNode_last (c : Codec) (nodes : List (Bytes × EvmTxReceiptListItem))
    (p : KV × Nat) (k : Bytes) (it : EvmTxReceiptListItem) :
    ((nodes ++ [(k, it)]).foldl (writeNode c) p).1 k = some (c.enc it) := by
  rw [List.foldl_append]
  simp [writeNode]

/-- A commit of a non-empty batch of fresh receipts on a store that holds the list `kept`
leaves the last receipt of the batch stored as a node without successor, whether or not the
call evicts. -/
theorem commit_keeps_tail_node (env : Env) (M : Nat) (s : EvmAuxStore)
    (kept batch : List EvmTxReceipt) (height : Nat) (last : EvmTxReceipt)
    (h0 : 0 < M) (hM : M < 2 ^ 64)
    (hinv : Inv env M s kept) (hgood : GoodHashes env (kept ++ batch))
    (hent : ∀ t, kept.getLast? = some t → env.codec.Encodes (some t))
    (her : ∀ r ∈ batch, env.codec.Encodes (some r))
    (hsum : kept.length + batch.length < 2 ^ 64)
    (hlast : batch.getLast? = some last)
    (hok : (CommitReceipts env s (batch.map some) height).1 = none) :
    ∃ b, (CommitReceipts env s (batch.map some) height).2.db last.txHash = some b ∧
      env.codec.unmarshal b = some ⟨some last, []⟩ := by
  rcases commit_step_inv env M s kept batch height h0 hM hinv hgood hent her hsum with
    ⟨_, hinv2⟩ | ⟨herr, _, _⟩
  · obtain ⟨ys, hys⟩ := List.getLast?_eq_some_iff.mp hlast
    subst hys
    have hle : kept.length + (ys ++ [last]).length - M ≤ (kept ++ ys).length := by
      simp only [List.length_append, List.length_singleton]
      omega
    have hdrop : (kept ++ (ys ++ [last])).drop (kept.length + (ys ++ [last]).length - M) =
        (kept ++ ys).drop (kept.length + (ys ++ [last]).length - M) ++ [last] := by
      rw [← List.append_assoc, List.drop_append_of_le_length hle]
    exact hinv2.nodes last.txHash ⟨some last, []⟩ (by rw [hdrop, linkedTo_snoc]; simp)
  · exact absurd hok herr

/-- The receipt held by the stored tail node of a store that holds the list `kept`. -/
theorem Inv.tail_encodes {env : Env} {M : Nat} {s : EvmAuxStore} {kept : List EvmTxReceipt}
    (hinv : Inv env M s kept) (size : Nat) (head tail : Bytes)
    (receipts : List (Option EvmTxReceipt))
    (hp : getDBParams env s.store = (size, head, tail, none))
    (henc : EncodesCall env.codec s.store head tail receipts)
    (hne : ∀ r ∈ kept, r.txHash ≠ []) (t : EvmTxReceipt) (ht : kept.getLast? = some t) :
    env.codec.Encodes (some t) := by
  obtain ⟨init, hk⟩ := List.getLast?_eq_some_iff.mp ht
  subst hk
  have hp2 := hinv.params
  rw [← hinv.clean, hp] at hp2
  simp only [Prod.mk.injEq] at hp2
  obtain ⟨_, hh, htl, _⟩ := hp2
  have hhead : head ≠ [] := by
    rw [hh]
    cases init with
    | nil => simpa [headOf] using hne t (by simp)
    | cons x xs => simpa [headOf] using hne x (by simp)
  have htail : tail = t.txHash := by rw [htl]; simp [tailOf]
  obtain ⟨b, hb, hu⟩ := hinv.nodes t.txHash ⟨some t, []⟩ (by rw [linkedTo_snoc]; simp)
  have hget : s.store.get tail = b := by simp [KV.get, hinv.clean, htail, hb]
  exact henc.2 hhead ⟨some t, []⟩ (by rw [hget]; exact hu)

/-- Claim C19, amended. Take a call of `CommitReceipts` with a positive bound that reads the
metadata without error, on a store that is empty or has its tail node, such that
`proto.Marshal` fails on no list item of the call (`EncodesCall`), that returns success and
whose batch contains a receipt with a non-empty hash, `last` being the last such receipt.
The persisted tail hash is the hash of `last`. The node stored under it is `last` with an
empty nextHash in two cases: when no eviction occurs and that hash is not a metadata key
or an index key of the committed height; and, whether or not the call evicts, when the
store before the call holds a well-formed list `kept` (the invariant `Inv`, which every
run of commits of fresh receipts from the empty store maintains) and the batch consists
of non-nil receipts whose hashes are non-empty, pairwise distinct, not in that list and
not metadata or index keys. When no eviction occurs, the persisted head hash is the hash
of the first receipt with a non-empty hash if the store was empty before, and is the
previous head hash if the store was non-empty before. -/
theorem CommitReceipts_tail_and_head (env : Env) (s : EvmAuxStore)
    (receipts : List (Option EvmTxReceipt)) (height : Nat) (size : Nat) (head tail : Bytes)
    (last : EvmTxReceipt) (hmax : 0 < s.maxReceipts)
    (hp : getDBParams env s.store = (size, head, tail, none))
    (htail : head ≠ [] → s.store.get tail ≠ [])
    (henc : EncodesCall env.codec s.store head tail receipts)
    (hok : (CommitReceipts env s receipts height).1 = none)
    (hlast : (validReceipts receipts).getLast? = some last) :
    (CommitReceipts env s receipts height).2.db env.tailKey = some last.txHash ∧
      (evicts env s receipts = false →
        last.txHash ≠ env.currentDbSizeKey → last.txHash ≠ env.headKey →
        last.txHash ≠ env.tailKey → last.txHash ≠ env.txHashKey height →
        last.txHash ≠ env.bloomKey height →
        (CommitReceipts env s receipts height).2.db last.txHash =
            some (env.codec.enc ⟨some last, []⟩) ∧
          nodeNext env.codec (CommitReceipts env s receipts height).2.db last.txHash =
            some []) ∧
      (∀ kept batch, receipts = batch.map some → s.maxReceipts < 2 ^ 64 →
        Inv env s.maxReceipts s kept → GoodHashes env (kept ++ batch) →
        kept.length + batch.length < 2 ^ 64 →
        (∃ b, (CommitReceipts env s receipts height).2.db last.txHash = some b ∧
            env.codec.unmarshal b = some ⟨some last, []⟩) ∧
          nodeNext env.codec (CommitReceipts env s receipts height).2.db last.txHash =
            some []) ∧
      (evicts env s receipts = false →
        (head = [] → (CommitReceipts env s receipts height).2.db env.headKey =
          some (((validReceipts receipts).map EvmTxReceipt.txHash).headD [])) ∧
        (head ≠ [] → (CommitReceipts env s receipts height).2.db env.headKey = some head)) := by
  have hne : receipts ≠ [] := by
    intro h
    rw [h] at hlast
    simp [validReceipts] at hlast
  have hguard : ¬ (receipts.length = 0 ∨ s.maxReceipts = 0) := by
    intro h
    rcases h with h | h
    · exact hne (List.length_eq_zero.mp h)
    · omega
  obtain ⟨item, st1, sz1, h1, b, hl, he, _, hdb⟩ :=
    CommitReceipts_committed env s receipts height size head tail hne hmax hp htail hok
  obtain ⟨_, _, htl, hhd, nodes, hst⟩ :=
    appendPhase_fields env s.store size head tail item receipts hp (henc.item item hl) henc.1
  obtain ⟨xs, hxs⟩ := List.getLast?_eq_some_iff.mp hlast
  have hlastenc : env.codec.Encodes (some last) :=
    henc.1 last (List.mem_of_getLast?_eq_some hlast)
  have htl2 : (appendPhase env.codec s.store size head tail item receipts).tailHash =
      last.txHash := by
    rw [htl, hxs]
    simp
  have hnoev : evicts env s receipts = false →
      st1 = (appendPhase env.codec s.store size head tail item receipts).store ∧
      h1 = (appendPhase env.codec s.store size head tail item receipts).headHash := by
    intro hno
    have hnl := evicts_false env s receipts size head tail item hguard hp hl hno
    rw [evict_of_not_lt _ _ _ hnl] at he
    simp only [Except.ok.injEq, Prod.mk.injEq] at he
    exact ⟨he.1.symm, he.2.2.symm⟩
  refine ⟨?_, ?_, ?_, ?_⟩
  · rw [hdb, committedStore_tail, htl2]
  · intro hno k1 k2 k3 k4 k5
    have hval : (CommitReceipts env s receipts height).2.db last.txHash =
        some (env.codec.enc ⟨some last, []⟩) := by
      rw [hdb, committedStore_other _ _ _ _ _ _ _ _ k1 k2 k3 k4 k5, (hnoev hno).1, hst, hxs,
        linkedTo_snoc, ← List.append_assoc]
      exact foldl_writeNode_last _ _ _ _ _
    refine ⟨hval, ?_⟩
    simp [nodeNext, hval, env.codec.unmarshal_enc _ _ hlastenc]
  · intro kept batch hrb hM hinv hgood hsum
    subst hrb
    have hbgood : GoodHashes env batch := hgood.sublist (List.sublist_append_right _ _)
    have hkgood : GoodHashes env kept := hgood.sublist (List.sublist_append_left _ _)
    have hvalid := validReceipts_map_some batch hbgood.nonempty
    rw [hvalid] at hlast
    have her : ∀ r ∈ batch, env.codec.Encodes (some r) := by
      intro r hr
      exact henc.1 r (by rw [hvalid]; exact hr)
    obtain ⟨b1, hb1, hu1⟩ := commit_keeps_tail_node env s.maxReceipts s kept batch height last
      hmax hM hinv hgood
      (fun t ht => hinv.tail_encodes size head tail _ hp henc hkgood.nonempty t ht)
      her hsum hlast hok
    refine ⟨⟨b1, hb1, hu1⟩, ?_⟩
    simp [nodeNext, hb1, hu1]
  · intro hno
    constructor
    · intro hh
      rw [hdb, committedStore_head, (hnoev hno).2, hhd, if_pos hh]
    · intro hh
      rw [hdb, committedStore_head, (hnoev hno).2, hhd, if_neg hh]

theorem demo_goodHashes_ab : GoodHashes demoEnv ([rA] ++ [rB]) :=
  ⟨by decide, by decide, by
    intro r hr
    simp only [List.cons_append, List.nil_append, List.mem_cons, List.mem_singleton,
      List.not_mem_nil, or_false] at hr
    rcases hr with h | h <;> subst h <;> simp [KeyFree, demoEnv, rA, rB]⟩

theorem demo_inv_a :
    Inv demoEnv 1 (CommitReceipts demoEnv (EvmAuxStore.init 1) [some rA] 10).2 [rA] :=
  (commitAll_inv demoEnv 1 (by decide) (by norm_num) [([rA], 10)]
    (demo_goodHashes_ab.sublist (List.sublist_append_left _ _))
    (fun _ _ => demoCodec_encodes _) (by decide)).1

/-- Witness of `CommitReceipts_tail_and_head`. On the empty store with bound 5 the batch
`a, nil, b` persists the tail hash `b` and stores `b` as a node without successor. With
bound 1, on the store that holds `a`, the commit of `b` evicts `a`, persists the tail hash
`b` and leaves `b` stored as a node without successor. -/
theorem CommitReceipts_tail_and_head_witness :
    (validReceipts [some rA, none, some rB]).getLast? = some rB ∧
      (CommitReceipts demoEnv (EvmAuxStore.init 5) [some rA, none, some rB] 10).2.db
        demoEnv.tailKey = some rB.txHash ∧
      nodeNext demoEnv.codec
        (CommitReceipts demoEnv (EvmAuxStore.init 5) [some rA, none, some rB] 10).2.db
        rB.txHash = some [] ∧
      evicts demoEnv (CommitReceipts demoEnv (EvmAuxStore.init 1) [some rA] 10).2 [some rB] =
        true ∧
      nodeNext demoEnv.codec
        (CommitReceipts demoEnv (CommitReceipts demoEnv (EvmAuxStore.init 1) [some rA] 10).2
          [some rB] 11).2.db rB.txHash = some [] :=
  ⟨by decide,
    (CommitReceipts_tail_and_head demoEnv (EvmAuxStore.init 5) [some rA, none, some rB] 10 0
      [] [] rB (by decide) (by decide) (by decide) (demoEnv_encodesCall _ _ _ _) (by decide)
      (by decide)).1,
    ((CommitReceipts_tail_and_head demoEnv (EvmAuxStore.init 5) [some rA, none, some rB] 10 0
      [] [] rB (by decide) (by decide) (by decide) (demoEnv_encodesCall _ _ _ _) (by decide)
      (by decide)).2.1 (by decide) (by decide) (by decide) (by decide) (by decide)
      (by decide)).2,
    by decide,
    ((CommitReceipts_tail_and_head demoEnv
      (CommitReceipts demoEnv (EvmAuxStore.init 1) [some rA] 10).2 [some rB] 11 1 [97] [97] rB
      (by decide) (by decide) (by decide) (demoEnv_encodesCall _ _ _ _) (by decide)
      (by decide)).2.2.1 [rA] [rB] rfl (by decide) demo_inv_a
      demo_goodHashes_ab (by decide)).2⟩

/-- Claim C19 as stated fails, in three ways. On the empty store with bound 5, the commit
of `rK` at height 10 succeeds and persists the tail hash of `rK`, but the value under that
hash is the hash list of height 10, not a node. With bound 1 the commit of `a, b, a`
succeeds and persists the tail hash `a`, while the eviction has deleted the node `a`. And
with a codec that fails on the receipt `rBad`, the commit of `rBad, c` on the empty store
with bound 5 succeeds and persists the tail hash of `rBad`, not that of the last receipt
`c`, and no node is stored under it. -/
theorem CommitReceipts_tail_node_missing :
    ((CommitReceipts demoEnv (EvmAuxStore.init 5) [some rK] 10).1 = none ∧
      (CommitReceipts demoEnv (EvmAuxStore.init 5) [some rK] 10).2.db demoEnv.tailKey =
        some rK.txHash ∧
      nodeNext demoEnv.codec (CommitReceipts demoEnv (EvmAuxStore.init 5) [some rK] 10).2.db
        rK.txHash = none) ∧
    ((CommitReceipts demoEnv (EvmAuxStore.init 1) [some rA, some rB, some rA] 10).1 = none ∧
      (CommitReceipts demoEnv (EvmAuxStore.init 1) [some rA, some rB, some rA] 10).2.db
        demoEnv.tailKey = some rA.txHash ∧
      (CommitReceipts demoEnv (EvmAuxStore.init 1) [some rA, some rB, some rA] 10).2.db
        rA.txHash = none) ∧
    ((CommitReceipts strictEnv (EvmAuxStore.init 5) [some rBad, some rC] 10).1 = none ∧
      (validReceipts [some rBad, some rC]).getLast? = some rC ∧
      (CommitReceipts strictEnv (EvmAuxStore.init 5) [some rBad, some rC] 10).2.db
        strictEnv.tailKey = some rBad.txHash ∧
      (CommitReceipts strictEnv (EvmAuxStore.init 5) [some rBad, some rC] 10).2.db
        rBad.txHash = none ∧
      (CommitReceipts strictEnv (EvmAuxStore.init 5) [some rBad, some rC] 10).2.db
        rC.txHash = none) := by
  decide

/-! ## The search of a block by hash -/

theorem scanMetas_some (hash : Bytes) (metas : List Bytes) (n : Nat) :
    ∀ i, scanMetas hash metas n = some i →
      i < n ∧ hash = metas.getD i [] ∧ ∀ j, i < j → j < n → hash ≠ metas.getD j [] := by
  induction n with
  | zero => intro i h; simp [scanMetas] at h
  | succ n ih =>
    intro i h
    unfold scanMetas at h
    by_cases hm : hash = metas.getD n []
    · rw [if_pos hm] at h
      simp only [Option.some.injEq] at h
      subst h
      exact ⟨Nat.lt_succ_self _, hm, fun j h1 h2 => by omega⟩
    · rw [if_neg hm] at h
      obtain ⟨h1, h2, h3⟩ := ih i h
      refine ⟨by omega, h2, ?_⟩
      intro j hj1 hj2
      by_cases hjn : j = n
      · rw [hjn]; exact hm
      · exact h3 j hj1 (by omega)

theorem scanMetas_none (hash : Bytes) (metas : List Bytes) (n : Nat) :
    scanMetas hash metas n = none → ∀ j, j < n → hash ≠ metas.getD j [] := by
  induction n with
  | zero => intro _ j hj; omega
  | succ n ih =>
    intro h j hj
    unfold scanMetas at h
    by_cases hm : hash = metas.getD n []
    · rw [if_pos hm] at h; simp at h
    · rw [if_neg hm] at h
      by_cases hjn : j = n
      · rw [hjn]; exact hm
      · exact ih h j (by omega)

theorem windowEnd_cases (start : Nat) :
    (start ≤ 100 ∧ windowEnd start = 1) ∨ (100 < start ∧ windowEnd start = start - 100) := by
  unfold windowEnd searchBlockSize
  by_cases h : start > 100
  · right; exact ⟨h, if_pos h⟩
  · left; exact ⟨by omega, if_neg h⟩

theorem searchLoop_succ (q : QueryEnv) (hash : Bytes) (fuel start endH : Nat)
    (requests : List (Nat × Nat)) (hs : 0 < start) :
    searchLoop q hash (fuel + 1) start endH requests =
      match q.BlockchainInfo (toInt64 endH) (toInt64 start) with
      | Except.error err => some (SearchOutcome.engineError err, requests ++ [(endH, start)])
      | Except.ok metas =>
        match scanMetas hash metas metas.length with
        | some i => some (SearchOutcome.found ((endH + i) % 2 ^ 64), requests ++ [(endH, start)])
        | none =>
          if endH = 1 then some (SearchOutcome.notFound, requests ++ [(endH, start)])
          else searchLoop q hash fuel endH (windowEnd endH) (requests ++ [(endH, start)]) := by
  rw [searchLoop]
  simp only [gt_iff_lt, hs, if_true]

theorem searchLoop_zero (q : QueryEnv) (hash : Bytes) (fuel endH : Nat)
    (requests : List (Nat × Nat)) :
    searchLoop q hash fuel 0 endH requests = some (SearchOutcome.notFound, requests) := by
  cases fuel <;> simp [searchLoop]

theorem getD_range_map (blockHash : Nat → Bytes) (lo n j : Nat) (hj : j < n) :
    ((List.range' lo n).map blockHash).getD j [] = blockHash (lo + j) := by
  rw [List.getD_eq_getElem?_getD, List.getElem?_map, List.getElem?_range' _ _ hj]
  simp

/-- The number of range requests of the search loop, for any behaviour of the engine. -/
theorem searchLoop_requests (q : QueryEnv) (hash : Bytes) (fuel : Nat) :
    ∀ (start : Nat) (requests : List (Nat × Nat)), start ≤ fuel →
      ∃ out reqs, searchLoop q hash fuel start (windowEnd start) requests = some (out, reqs) ∧
        reqs.length ≤ requests.length + (start + 99) / 100 := by
  induction fuel with
  | zero =>
    intro start requests hs
    have h0 : start = 0 := by omega
    subst h0
    exact ⟨_, _, searchLoop_zero q hash 0 _ requests, by omega⟩
  | succ fuel ih =>
    intro start requests hs
    by_cases h0 : start = 0
    · subst h0
      exact ⟨_, _, searchLoop_zero q hash _ _ requests, by omega⟩
    · have hpos : 0 < start := Nat.pos_of_ne_zero h0
      rw [searchLoop_succ q hash fuel start _ requests hpos]
      have hone : requests.length + 1 ≤ requests.length + (start + 99) / 100 := by omega
      cases q.BlockchainInfo (toInt64 (windowEnd start)) (toInt64 start) with
      | error e => exact ⟨_, _, rfl, by simpa using hone⟩
      | ok metas =>
        simp only
        cases scanMetas hash metas metas.length with
        | some i => exact ⟨_, _, rfl, by simpa using hone⟩
        | none =>
          simp only
          by_cases h1 : windowEnd start = 1
          · rw [if_pos h1]
            exact ⟨_, _, rfl, by simpa using hone⟩
          · rw [if_neg h1]
            rcases windowEnd_cases start with ⟨_, hw⟩ | ⟨hgt, hw⟩
            · exact absurd hw h1
            · obtain ⟨out, reqs, hr, hlen⟩ :=
                ih (windowEnd start) (requests ++ [(windowEnd start, start)]) (by omega)
              refine ⟨out, reqs, hr, ?_⟩
              simp only [List.length_append, List.length_singleton] at hlen
              omega

/-- The loop of `GetBlockByHash` ends within the iterations allowed by the embedding. -/
theorem GetBlockByHash_terminates (q : QueryEnv) (state : ReadOnlyState) (hash : Bytes)
    (full : Bool) (rr : ReadReceiptHandler) :
    ∃ r, GetBlockByHash q state hash full rr = some r := by
  obtain ⟨out, reqs, hr, _⟩ :=
    searchLoop_requests q hash (toUint64 state.blockHeight) (toUint64 state.blockHeight) []
      (Nat.le_refl _)
  unfold GetBlockByHash
  simp only [hr]
  cases out <;> exact ⟨_, rfl⟩

/-- Claim C15. For every current height and every hash, whatever the consensus engine
answers, `GetBlockByHash` ends and issues at most `⌈currentHeight / W⌉` block-range
requests, `W = 100`: the number of requests is at most `(currentHeight + 99) / 100` in
integer division, that is, a hundred times the number is below `currentHeight + 100`. -/
theorem GetBlockByHash_request_bound (q : QueryEnv) (state : ReadOnlyState) (hash : Bytes)
    (full : Bool) (rr : ReadReceiptHandler) :
    ∃ res reqs, GetBlockByHash q state hash full rr = some (res, reqs) ∧
      reqs.length ≤ (toUint64 state.blockHeight + (searchBlockSize - 1)) / searchBlockSize ∧
      searchBlockSize * reqs.length < toUint64 state.blockHeight + searchBlockSize := by
  obtain ⟨out, reqs, hr, hlen⟩ :=
    searchLoop_requests q hash (toUint64 state.blockHeight) (toUint64 state.blockHeight) []
      (Nat.le_refl _)
  simp only [List.length_nil, Nat.zero_add] at hlen
  have hb : reqs.length ≤
      (toUint64 state.blockHeight + (searchBlockSize - 1)) / searchBlockSize ∧
      searchBlockSize * reqs.length < toUint64 state.blockHeight + searchBlockSize := by
    unfold searchBlockSize
    constructor
    · exact hlen
    · omega
  unfold GetBlockByHash
  simp only [hr]
  cases out <;> exact ⟨_, reqs, rfl, hb⟩

theorem windowEnd_bounds (start : Nat) (hs : 0 < start) :
    1 ≤ windowEnd start ∧ windowEnd start ≤ start ∧ start - windowEnd start ≤ 100 := by
  rcases windowEnd_cases start with ⟨h1, h2⟩ | ⟨h1, h2⟩ <;> rw [h2] <;> omega

/-- The search loop on a chain that carries the hash at some height up to `start`, when no
height above `start` carries it: the loop finds the greatest height carrying the hash. -/
theorem searchLoop_found (q : QueryEnv) (hash : Bytes) (blockHash : Nat → Bytes) (H : Nat)
    (hq : AnswersRanges q blockHash H) (hH : H < 2 ^ 64) (fuel : Nat) :
    ∀ (start : Nat) (requests : List (Nat × Nat)), start ≤ fuel → start ≤ H →
      (∀ h, start < h → h ≤ H → blockHash h ≠ hash) →
      (∃ h, 1 ≤ h ∧ h ≤ start ∧ blockHash h = hash) →
      ∃ g reqs, searchLoop q hash fuel start (windowEnd start) requests =
          some (SearchOutcome.found g, reqs) ∧
        1 ≤ g ∧ g ≤ H ∧ blockHash g = hash ∧ ∀ h, g < h → h ≤ H → blockHash h ≠ hash := by
  induction fuel with
  | zero =>
    intro start requests hs _ _ hex
    obtain ⟨h, h1, h2, _⟩ := hex
    omega
  | succ fuel ih =>
    intro start requests hs hsH habove hex
    have hpos : 0 < start := by
      obtain ⟨h, h1, h2, _⟩ := hex
      omega
    obtain ⟨hw1, hw2, hw3⟩ := windowEnd_bounds start hpos
    rw [searchLoop_succ q hash fuel start _ requests hpos, hq _ _ hw1 hw2 hsH]
    simp only [List.length_map, List.length_range']
    cases hscan : scanMetas hash ((List.range' (windowEnd start)
        (start + 1 - windowEnd start)).map blockHash) (start + 1 - windowEnd start) with
    | some i =>
      obtain ⟨hi, hmatch, hgreater⟩ := scanMetas_some _ _ _ i hscan
      rw [getD_range_map blockHash _ _ i hi] at hmatch
      simp only
      have hmod : (windowEnd start + i) % 2 ^ 64 = windowEnd start + i :=
        Nat.mod_eq_of_lt (by omega)
      rw [hmod]
      refine ⟨windowEnd start + i, _, rfl, by omega, by omega, hmatch.symm, ?_⟩
      intro h hgt hle
      by_cases hin : h ≤ start
      · have hj := hgreater (h - windowEnd start) (by omega) (by omega)
        rw [getD_range_map blockHash _ _ _ (by omega)] at hj
        have he : windowEnd start + (h - windowEnd start) = h := by omega
        rw [he] at hj
        exact fun e => hj e.symm
      · exact habove h (by omega) hle
    | none =>
      have hnone := scanMetas_none _ _ _ hscan
      have hwin : ∀ h, windowEnd start ≤ h → h ≤ start → blockHash h ≠ hash := by
        intro h h1 h2
        have hj := hnone (h - windowEnd start) (by omega)
        rw [getD_range_map blockHash _ _ _ (by omega)] at hj
        have he : windowEnd start + (h - windowEnd start) = h := by omega
        rw [he] at hj
        exact fun e => hj e.symm
      obtain ⟨h, h1, h2, h3⟩ := hex
      have hlt : h < windowEnd start := by
        by_contra hge
        exact hwin h (by omega) h2 h3
      have hne1 : windowEnd start ≠ 1 := by omega
      simp only [if_neg hne1]
      have hgt : 100 < start ∧ windowEnd start = start - 100 := by
        rcases windowEnd_cases start with ⟨_, hw⟩ | ⟨hg, hw⟩
        · exact absurd hw hne1
        · exact ⟨hg, hw⟩
      obtain ⟨hgt1, hgt2⟩ := hgt
      apply ih (windowEnd start) _ (by omega) (by omega)
      · intro k hk1 hk2
        by_cases hin : k ≤ start
        · exact hwin k (by omega) hin
        · exact habove k (by omega) hk2
      · exact ⟨h, h1, by omega, h3⟩

/-- Claim C12. Assume that the block-metadata interface answers a range request `[lo, hi]`
with the block hashes of the heights `lo .. hi` in ascending order. If some height `h`
with `1 ≤ h ≤ currentHeight` has a block hash equal to `hash`, then `GetBlockByHash`
returns exactly the result of `GetBlockByNumber` for the greatest height in
`[1, currentHeight]` whose block hash equals `hash`. -/
theorem GetBlockByHash_found (q : QueryEnv) (state : ReadOnlyState) (hash : Bytes) (full : Bool)
    (rr : ReadReceiptHandler) (blockHash : Nat → Bytes)
    (hq : AnswersRanges q blockHash (toUint64 state.blockHeight))
    (hex : ∃ h, 1 ≤ h ∧ h ≤ toUint64 state.blockHeight ∧ blockHash h = hash) :
    ∃ g reqs, 1 ≤ g ∧ g ≤ toUint64 state.blockHeight ∧ blockHash g = hash ∧
      (∀ h, g < h → h ≤ toUint64 state.blockHeight → blockHash h ≠ hash) ∧
      GetBlockByHash q state hash full rr = some (GetBlockByNumber q state g full rr, reqs) := by
  have hH : toUint64 state.blockHeight < 2 ^ 64 := by
    unfold toUint64
    have h1 : (0 : Int) ≤ state.blockHeight % 2 ^ 64 := Int.emod_nonneg _ (by norm_num)
    have h2 : state.blockHeight % 2 ^ 64 < 2 ^ 64 := Int.emod_lt_of_pos _ (by norm_num)
    omega
  obtain ⟨g, reqs, hr, hg1, hg2, hg3, hg4⟩ :=
    searchLoop_found q hash blockHash _ hq hH (toUint64 state.blockHeight)
      (toUint64 state.blockHeight) [] (Nat.le_refl _) (Nat.le_refl _)
      (fun h h1 h2 => by omega) hex
  refine ⟨g, reqs, hg1, hg2, hg3, hg4, ?_⟩
  unfold GetBlockByHash
  simp only [hr]

/-- The requested ranges of a search that finds nothing below `start`. -/
theorem searchLoop_notFound (q : QueryEnv) (hash : Bytes) (blockHash : Nat → Bytes) (H : Nat)
    (hq : AnswersRanges q blockHash H) (fuel : Nat) :
    ∀ (start : Nat) (requests : List (Nat × Nat)), start ≤ fuel → start ≤ H →
      (∀ h, 1 ≤ h → h ≤ start → blockHash h ≠ hash) →
      ∃ ws, searchLoop q hash fuel start (windowEnd start) requests =
          some (SearchOutcome.notFound, requests ++ ws) ∧
        (∀ r ∈ ws, 1 ≤ r.1 ∧ r.1 ≤ r.2 ∧ r.2 - r.1 ≤ 100 ∧ r.2 ≤ start) ∧
        (∀ h, 1 ≤ h → h ≤ start → ∃ r ∈ ws, r.1 ≤ h ∧ h ≤ r.2) ∧
        (0 < start → ws.head? = some (windowEnd start, start)) ∧
        (start = 0 → ws = []) ∧
        List.Chain' (fun a b : Nat × Nat => b.2 = a.1) ws := by
  induction fuel with
  | zero =>
    intro start requests hs _ _
    have h0 : start = 0 := by omega
    subst h0
    refine ⟨[], by rw [searchLoop_zero]; simp, by simp, ?_, by simp, by simp, List.chain'_nil⟩
    intro h h1 h2
    omega
  | succ fuel ih =>
    intro start requests hs hsH hno
    by_cases h0 : start = 0
    · subst h0
      refine ⟨[], by rw [searchLoop_zero]; simp, by simp, ?_, by simp, by simp,
        List.chain'_nil⟩
      intro h h1 h2
      omega
    · have hpos : 0 < start := Nat.pos_of_ne_zero h0
      obtain ⟨hw1, hw2, hw3⟩ := windowEnd_bounds start hpos
      rw [searchLoop_succ q hash fuel start _ requests hpos, hq _ _ hw1 hw2 hsH]
      simp only [List.length_map, List.length_range']
      cases hscan : scanMetas hash ((List.range' (windowEnd start)
          (start + 1 - windowEnd start)).map blockHash) (start + 1 - windowEnd start) with
      | some i =>
        obtain ⟨hi, hmatch, _⟩ := scanMetas_some _ _ _ i hscan
        rw [getD_range_map blockHash _ _ i hi] at hmatch
        exact absurd hmatch.symm (hno _ (by omega) (by omega))
      | none =>
        simp only
        by_cases h1 : windowEnd start = 1
        · rw [if_pos h1]
          refine ⟨[(windowEnd start, start)], rfl, ?_, ?_, fun _ => rfl,
            fun h => absurd h h0, List.chain'_singleton _⟩
          · intro r hr
            simp only [List.mem_singleton] at hr
            subst hr
            exact ⟨hw1, hw2, hw3, Nat.le_refl _⟩
          · intro h hh1 hh2
            exact ⟨_, List.mem_singleton_self _, by simp only; omega, hh2⟩
        · rw [if_neg h1]
          have hgt : 100 < start ∧ windowEnd start = start - 100 := by
            rcases windowEnd_cases start with ⟨_, hw⟩ | ⟨hg, hw⟩
            · exact absurd hw h1
            · exact ⟨hg, hw⟩
          obtain ⟨hgt1, hgt2⟩ := hgt
          have hwpos : 0 < windowEnd start := by omega
          obtain ⟨ws, hr, hb, hc, hhead, _, hchain⟩ :=
            ih (windowEnd start) (requests ++ [(windowEnd start, start)]) (by omega) (by omega)
              (fun h hh1 hh2 => hno h hh1 (by omega))
          refine ⟨(windowEnd start, start) :: ws, ?_, ?_, ?_, fun _ => rfl,
            fun h => absurd h h0, ?_⟩
          · rw [hr]; simp
          · intro r hmem
            rcases List.mem_cons.mp hmem with h | h
            · subst h
              exact ⟨hw1, hw2, hw3, Nat.le_refl _⟩
            · obtain ⟨a, b, c, d⟩ := hb r h
              exact ⟨a, b, c, by omega⟩
          · intro h hh1 hh2
            by_cases hin : windowEnd start ≤ h
            · exact ⟨_, List.mem_cons_self _ _, hin, hh2⟩
            · obtain ⟨r, hr1, hr2⟩ := hc h hh1 (by omega)
              exact ⟨r, List.mem_cons_of_mem _ hr1, hr2⟩
          · have hh := hhead hwpos
            cases ws with
            | nil => simp at hh
            | cons w ws2 =>
              simp only [List.head?_cons, Option.some.injEq] at hh
              refine List.Chain'.cons ?_ hchain
              rw [hh]

/-- Claim C13. Assume that the block-metadata interface answers range requests with the
block hashes of the chain. For every current height `H` and every hash that no block at
the heights `1 .. H` carries, `GetBlockByHash` ends and returns the not-found error, after
requesting ranges `[lo, hi]` that each satisfy `lo ≤ hi` and `hi - lo ≤ 100` and that
together contain every height from 1 to `H`. The first range is `[max (H - 100) 1, H]`
(for `H = 0` the loop is not entered and nothing is requested), and each following range
ends at the lower bound of the range before it. -/
theorem GetBlockByHash_not_found (q : QueryEnv) (state : ReadOnlyState) (hash : Bytes)
    (full : Bool) (rr : ReadReceiptHandler) (blockHash : Nat → Bytes)
    (hq : AnswersRanges q blockHash (toUint64 state.blockHeight))
    (hno : ∀ h, 1 ≤ h → h ≤ toUint64 state.blockHeight → blockHash h ≠ hash) :
    ∃ ws, GetBlockByHash q state hash full rr =
        some (Except.error (Err.text "can't find block to match hash"), ws) ∧
      (∀ r ∈ ws, r.1 ≤ r.2 ∧ r.2 - r.1 ≤ searchBlockSize) ∧
      (∀ h, 1 ≤ h → h ≤ toUint64 state.blockHeight → ∃ r ∈ ws, r.1 ≤ h ∧ h ≤ r.2) ∧
      (0 < toUint64 state.blockHeight →
        ws.head? = some (max (toUint64 state.blockHeight - searchBlockSize) 1,
          toUint64 state.blockHeight)) ∧
      (toUint64 state.blockHeight = 0 → ws = []) ∧
      List.Chain' (fun a b : Nat × Nat => b.2 = a.1) ws := by
  obtain ⟨ws, hr, hb, hc, hhead, hzero, hchain⟩ :=
    searchLoop_notFound q hash blockHash _ hq (toUint64 state.blockHeight)
      (toUint64 state.blockHeight) [] (Nat.le_refl _) (Nat.le_refl _) hno
  refine ⟨ws, ?_, ?_, hc, ?_, hzero, hchain⟩
  · unfold GetBlockByHash
    simp only [hr, List.nil_append]
  · intro r hmem
    obtain ⟨_, h2, h3, _⟩ := hb r hmem
    exact ⟨h2, h3⟩
  · intro hpos
    rw [hhead hpos]
    congr 2
    rcases windowEnd_cases (toUint64 state.blockHeight) with ⟨h1, h2⟩ | ⟨h1, h2⟩ <;>
      rw [h2] <;> unfold searchBlockSize <;> omega

theorem demoQuery_answers (H : Nat) (hH : H < 2 ^ 63) :
    AnswersRanges demoQuery demoBlockHash H := by
  intro lo hi _ _ h3
  rw [toInt64_of_lt lo (by omega), toInt64_of_lt hi (by omega)]
  simp [demoQuery]

/-- Witness of `GetBlockByHash_found`: with the chain head at height 3 and the hash `B`
carried by the heights 1 and 3, the search returns the result of `GetBlockByNumber` for
height 3. -/
theorem GetBlockByHash_found_witness :
    ∃ reqs, GetBlockByHash demoQuery demoState [66] false demoHandler =
      some (GetBlockByNumber demoQuery demoState 3 false demoHandler, reqs) := by
  obtain ⟨g, reqs, _, hg2, _, hg4, hr⟩ :=
    GetBlockByHash_found demoQuery demoState [66] false demoHandler demoBlockHash
      (demoQuery_answers _ (by decide)) ⟨1, by decide, by decide, by decide⟩
  have h3 : toUint64 demoState.blockHeight = 3 := by decide
  rw [h3] at hg2 hg4
  have hg : g = 3 := by
    by_contra hne
    exact hg4 3 (by omega) (Nat.le_refl _) (by decide)
  subst hg
  exact ⟨reqs, hr⟩

/-- Witness of `GetBlockByHash_not_found`: with the chain head at height 250 and a hash that
no block carries, the search requests the ranges `[150, 250]`, `[50, 150]`, `[1, 50]` and
returns the not-found error. -/
theorem GetBlockByHash_not_found_witness :
    (GetBlockByHash demoQuery demoStateHigh [67] false demoHandler).map Prod.snd =
        some [(150, 250), (50, 150), (1, 50)] ∧
      ∃ ws, GetBlockByHash demoQuery demoStateHigh [67] false demoHandler =
        some (Except.error (Err.text "can't find block to match hash"), ws) := by
  refine ⟨by decide, ?_⟩
  obtain ⟨ws, hr, _⟩ :=
    GetBlockByHash_not_found demoQuery demoStateHigh [67] false demoHandler demoBlockHash
      (demoQuery_answers _ (by decide))
      (by
        intro h _ _
        have h2 : h % 2 < 2 := Nat.mod_lt _ (by norm_num)
        simp only [demoBlockHash, ne_eq, List.cons.injEq, and_true]
        omega)
  exact ⟨ws, hr⟩

/-! ## The coin contract -/

theorem loadAccount_balance (ctx : CoinState) (owner : Address) (acct : Account)
    (h : loadAccount ctx owner = Except.ok acct) : acct.balance = balanceOf ctx owner := by
  unfold loadAccount at h
  unfold balanceOf
  cases hc : ctx owner with
  | none =>
    rw [hc] at h
    simp only [Except.ok.injEq] at h
    rw [← h]
  | some v =>
    cases v with
    | corrupt e => rw [hc] at h; simp at h
    | account a =>
      rw [hc] at h
      simp only [Except.ok.injEq] at h
      rw [← h]

theorem loadAccount_owner (ctx : CoinState) (owner : Address) (acct : Account)
    (hw : OwnersMatch ctx) (h : loadAccount ctx owner = Except.ok acct) :
    acct.owner = owner := by
  unfold loadAccount at h
  cases hc : ctx owner with
  | none =>
    rw [hc] at h
    simp only [Except.ok.injEq] at h
    rw [← h]
  | some v =>
    cases v with
    | corrupt e => rw [hc] at h; simp at h
    | account a =>
      rw [hc] at h
      simp only [Except.ok.injEq] at h
      rw [← h]
      exact hw owner a hc

theorem Transfer_of_loaded (ctx : CoinState) (sender toAddr : Address) (amount : Nat)
    (fa ta : Account) (hfrom : loadAccount ctx sender = Except.ok fa)
    (hto : loadAccount ctx toAddr = Except.ok ta) :
    Coin.Transfer ctx sender toAddr amount =
      if fa.balance < amount then (some (Err.text "sender balance is too low"), ctx)
      else (none, saveAccount (saveAccount ctx { fa with balance := fa.balance - amount })
        { ta with balance := ta.balance + amount }) := by
  unfold Coin.Transfer
  rw [hfrom, hto]

/-- A successful transfer between two different accounts of a state whose owner fields match
their keys moves the amount: the sender's balance decreases by it, the recipient's
increases by it, and no other key changes. -/
theorem Transfer_distinct (ctx : CoinState) (sender toAddr : Address) (amount : Nat)
    (hw : OwnersMatch ctx) (hne : sender ≠ toAddr)
    (hok : (Coin.Transfer ctx sender toAddr amount).1 = none) :
    amount ≤ balanceOf ctx sender ∧
      balanceOf (Coin.Transfer ctx sender toAddr amount).2 sender =
        balanceOf ctx sender - amount ∧
      balanceOf (Coin.Transfer ctx sender toAddr amount).2 toAddr =
        balanceOf ctx toAddr + amount ∧
      ∀ k, k ≠ sender → k ≠ toAddr → (Coin.Transfer ctx sender toAddr amount).2 k = ctx k := by
  cases hfrom : loadAccount ctx sender with
  | error e => simp [Coin.Transfer, hfrom] at hok
  | ok fa =>
    cases hto : loadAccount ctx toAddr with
    | error e => simp [Coin.Transfer, hfrom, hto] at hok
    | ok ta =>
      have hfo := loadAccount_owner ctx sender fa hw hfrom
      have hto2 := loadAccount_owner ctx toAddr ta hw hto
      have hfb := loadAccount_balance ctx sender fa hfrom
      have htb := loadAccount_balance ctx toAddr ta hto
      rw [Transfer_of_loaded ctx sender toAddr amount fa ta hfrom hto] at hok ⊢
      by_cases hlt : fa.balance < amount
      · rw [if_pos hlt] at hok; simp at hok
      · rw [if_neg hlt]
        refine ⟨by omega, ?_, ?_, ?_⟩
        · simp [balanceOf, saveAccount, hfo, hto2, hne, hfb]
        · simp [balanceOf, saveAccount, hto2, htb]
        · intro k hk1 hk2
          simp [saveAccount, hfo, hto2, hk1, hk2]

/-- Claim C21, evaluated: in the state where `alice` holds 10 and `bob` holds 5, a transfer
of 3 from `alice` to `alice` returns success, after which `alice` holds 13 and the sum of
the balances has grown from 15 to 18; the same transfer from `alice` to `bob` keeps the
sum at 15. -/
theorem Transfer_to_self_mints :
    (Coin.Transfer demoCoin alice alice 3).1 = none ∧
      balanceOf demoCoin alice = 10 ∧
      balanceOf (Coin.Transfer demoCoin alice alice 3).2 alice = 13 ∧
      balanceOf (Coin.Transfer demoCoin alice alice 3).2 bob = 5 ∧
      totalBalance demoCoin [alice, bob] = 15 ∧
      totalBalance (Coin.Transfer demoCoin alice alice 3).2 [alice, bob] = 18 ∧
      totalBalance (Coin.Transfer demoCoin alice bob 3).2 [alice, bob] = 15 := by
  decide

/-- Claim C22. Given that both accounts load without a storage error, `Coin.Transfer`
returns the error "sender balance is too low" if and only if the sender's stored balance
(0 for an account never stored) is strictly less than the amount, and in that case the
contract state after the call is the state before it, so no balance is changed. -/
theorem Transfer_balance_too_low (ctx : CoinState) (sender toAddr : Address) (amount : Nat)
    (fa ta : Account) (hfrom : loadAccount ctx sender = Except.ok fa)
    (hto : loadAccount ctx toAddr = Except.ok ta) :
    ((Coin.Transfer ctx sender toAddr amount).1 = some (Err.text "sender balance is too low") ↔
        balanceOf ctx sender < amount) ∧
      (balanceOf ctx sender < amount →
        (Coin.Transfer ctx sender toAddr amount).2 = ctx ∧
        ∀ addr, balanceOf (Coin.Transfer ctx sender toAddr amount).2 addr = balanceOf ctx addr) := by
  have hfb := loadAccount_balance ctx sender fa hfrom
  rw [Transfer_of_loaded ctx sender toAddr amount fa ta hfrom hto, hfb]
  by_cases hlt : balanceOf ctx sender < amount
  · rw [if_pos hlt]
    exact ⟨⟨fun _ => hlt, fun _ => rfl⟩, fun _ => ⟨rfl, fun _ => rfl⟩⟩
  · rw [if_neg hlt]
    refine ⟨⟨fun h => ?_, fun h => absurd h hlt⟩, fun h => absurd h hlt⟩
    simp at h

/-- Witness of `Transfer_balance_too_low`: `alice` holds 10, so a transfer of 11 to `bob`
is refused and a transfer of 10 is not. -/
theorem Transfer_balance_too_low_witness :
    loadAccount demoCoin alice = Except.ok ⟨alice, 10⟩ ∧
      loadAccount demoCoin bob = Except.ok ⟨bob, 5⟩ ∧
      ((Coin.Transfer demoCoin alice bob 11).1 = some (Err.text "sender balance is too low") ↔
        balanceOf demoCoin alice < 11) ∧
      (Coin.Transfer demoCoin alice bob 11).1 = some (Err.text "sender balance is too low") ∧
      (Coin.Transfer demoCoin alice bob 10).1 = none :=
  ⟨rfl, rfl,
    (Transfer_balance_too_low demoCoin alice bob 11 ⟨alice, 10⟩ ⟨bob, 5⟩ rfl rfl).1,
    by decide, by decide⟩

/-! ## The metadata written by `setDBParams` and read by `getDBParams` -/

theorem leBytes_getD (k : Nat) : ∀ n i, i < k →
    (leBytes k n).getD i 0 = n / 256 ^ i % 256 := by
  induction k with
  | zero => intro n i hi; omega
  | succ k ih =>
    intro n i hi
    cases i with
    | zero => simp [leBytes]
    | succ i =>
      have h := ih (n / 256) i (by omega)
      simp only [leBytes, List.getD_cons_succ]
      rw [h, Nat.div_div_eq_div_mul, pow_succ']

theorem setDBParams_fields (env : Env) (st : KV) (size : Nat) (head tail : Bytes) :
    (setDBParams env st size head tail) env.currentDbSizeKey = some (putUint64 size) ∧
      (setDBParams env st size head tail) env.headKey = some head ∧
      (setDBParams env st size head tail) env.tailKey = some tail := by
  unfold setDBParams
  refine ⟨KV.set_same _ _ _, ?_, ?_⟩
  · rw [KV.set_other _ _ _ _ env.head_ne_size, KV.set_other _ _ _ _ env.head_ne_tail,
      KV.set_same]
  · rw [KV.set_other _ _ _ _ env.tail_ne_size, KV.set_same]

/-- Claim C23. For a size with `0 < size < 2 ^ 64` and non-empty head and tail, `getDBParams`
run on the store left by `setDBParams size head tail` returns `(size, head, tail)` and no
error, and the value under the size key is the 8 bytes of `size` in little-endian order
(byte `i` is `size / 256 ^ i % 256`); after `setDBParams 0 h t`, for any `h` and `t`,
it returns size 0 with empty head and tail and no error; and on any store without the size
key it returns size 0 with empty head and tail and no error. -/
theorem getDBParams_setDBParams (env : Env) (st : KV) (size : Nat) (head tail : Bytes)
    (hpos : 0 < size) (hlt : size < 2 ^ 64) (hhead : head ≠ []) (htail : tail ≠ []) :
    getDBParams env (setDBParams env st size head tail) = (size, head, tail, none) ∧
      (setDBParams env st size head tail) env.currentDbSizeKey = some (putUint64 size) ∧
      (putUint64 size).length = 8 ∧
      (∀ i, i < 8 → (putUint64 size).getD i 0 = size / 256 ^ i % 256) ∧
      (∀ h t, getDBParams env (setDBParams env st 0 h t) = (0, [], [], none)) ∧
      (∀ st0 : KV, st0 env.currentDbSizeKey = none →
        getDBParams env st0 = (0, [], [], none)) := by
  obtain ⟨hs, hh, ht⟩ := setDBParams_fields env st size head tail
  refine ⟨getDBParams_of_meta env _ size head tail hs hlt (by omega) hh hhead ht htail, hs,
    length_leBytes 8 size, fun i hi => leBytes_getD 8 size i hi, ?_, ?_⟩
  · intro h t
    obtain ⟨hs0, _, _⟩ := setDBParams_fields env st 0 h t
    have h8 : ¬ (putUint64 0).length < 8 := by simp [putUint64, length_leBytes]
    have hval : uint64LE (putUint64 0) = 0 := by rw [uint64LE_putUint64]; rfl
    simp [getDBParams, KV.has, KV.get, hs0, h8, hval]
  · intro st0 h0
    simp [getDBParams, KV.has, h0]

/-- Witness of `getDBParams_setDBParams`: the size 300 with head `[97]` and tail `[98]`
written to the empty store of the concrete environment; 300 is stored as the bytes
44, 1, 0, 0, 0, 0, 0, 0. -/
theorem getDBParams_setDBParams_witness :
    putUint64 300 = [44, 1, 0, 0, 0, 0, 0, 0] ∧
      getDBParams demoEnv (setDBParams demoEnv KV.empty 300 [97] [98]) =
        (300, [97], [98], none) ∧
      getDBParams demoEnv (setDBParams demoEnv KV.empty 0 [97] [98]) = (0, [], [], none) ∧
      getDBParams demoEnv KV.empty = (0, [], [], none) :=
  ⟨by decide,
    (getDBParams_setDBParams demoEnv KV.empty 300 [97] [98] (by decide) (by decide)
      (by decide) (by decide)).1,
    (getDBParams_setDBParams demoEnv KV.empty 300 [97] [98] (by decide) (by decide)
      (by decide) (by decide)).2.2.2.2.1 [97] [98],
    (getDBParams_setDBParams demoEnv KV.empty 300 [97] [98] (by decide) (by decide)
      (by decide) (by decide)).2.2.2.2.2 KV.empty rfl⟩

end EvmAux
